import Mathlib

/-!
# TINY compiler: scanner, parser, analyzer and code emitter

A shallow embedding of `scan.c`, `parse.c`, `analyze.c`, `code.c` and `main.c` of the
TINY compiler.
Global variables of the C program become fields of explicit state records; the
`while` loops become recursive functions on a fuel argument.
-/

namespace Tiny

/-! ## Declarations of `globals.h` -/

/-- Modelled from the spec: the token kinds of `globals.h` (book-keeping tokens, the eight
reserved words, the multi-character tokens and the special symbols). -/
inductive TokenType
  | ENDFILE | ERROR
  | IF | THEN | ELSE | END | REPEAT | UNTIL | READ | WRITE
  | ID | NUM
  | ASSIGN | EQ | LT | PLUS | MINUS | TIMES | OVER | LPAREN | RPAREN | SEMI
  deriving DecidableEq, Repr

open TokenType

/-- The constant `MAXTOKENLEN` of `scan.h`. -/
def MAXTOKENLEN : Nat := 40

/-- The constant `BUFLEN` of `scan.c`. -/
def BUFLEN : Nat := 256

/-! ## scan.c -/

/-- The states of the scanner DFA. -/
inductive StateType
  | START | INASSIGN | INCOMMENT | INNUM | INID | DONE
  deriving DecidableEq, Repr

open StateType

/-- The global variables the scanner works on: the unread rest of the `source` stream,
`lineBuf`, `linepos`, `bufsize`, `EOF_flag`, the global `lineno` and `tokenString`
(the characters stored before the terminating NUL). -/
structure ScanState where
  source : List Char
  lineBuf : List Char
  linepos : Nat
  bufsize : Nat
  EOF_flag : Bool
  lineno : Nat
  tokenString : List Char
  deriving DecidableEq, Repr

/-- The scanner state before the first character of `src` has been read. -/
def ScanState.init (src : List Char) : ScanState :=
  { source := src, lineBuf := [], linepos := 0, bufsize := 0, EOF_flag := false,
    lineno := 0, tokenString := [] }

/-- The characters `fgets` stores when at most `k` characters may be read: it stops
after a newline or when the stream ends. -/
def readLine : Nat → List Char → List Char
  | 0, _ => []
  | _, [] => []
  | k + 1, c :: cs => if c = '\n' then [c] else c :: readLine k cs

/-- The C library `fgets(buf, n, stream)`: `none` at end of file, otherwise the at most
`n - 1` characters read. -/
def fgets (n : Nat) (stream : List Char) : Option (List Char) :=
  match stream with
  | [] => none
  | _ :: _ => some (readLine (n - 1) stream)

/-- The C library `strlen`: the number of characters before the first NUL. -/
def strlen (buf : List Char) : Nat :=
  (buf.takeWhile (fun c => c != Char.ofNat 0)).length

/-- The value of an element of `lineBuf` as the `int` that `getNextChar` returns; a
character of the model stands for a byte. `lineBuf` is an array of plain `char`, taken
to be a signed type (as with GCC on x86): the byte `0xFF` has the value -1, which is the
value of `EOF`, and is returned as `none`. No other byte has the value of `EOF`; the
bytes `0x80` to `0xFE` have other negative values and are kept as the characters they
are, neither digits nor letters. -/
def charValue (c : Char) : Option Char :=
  if c = Char.ofNat 255 then none else some c

/-- The function `getNextChar`; `none` stands for the value `EOF`, which is returned at
the end of the file and for the byte `0xFF` of `lineBuf`. -/
def getNextChar (s : ScanState) : Option Char × ScanState :=
  if ¬ (s.linepos < s.bufsize) then
    let s1 := { s with lineno := s.lineno + 1 }
    match fgets (BUFLEN - 1) s1.source with
    | some line =>
      (charValue (line.getD 0 (Char.ofNat 0)),
        { s1 with source := s1.source.drop line.length, lineBuf := line,
                  bufsize := strlen line, linepos := 1 })
    | none => (none, { s1 with EOF_flag := true })
  else
    (charValue (s.lineBuf.getD s.linepos (Char.ofNat 0)), { s with linepos := s.linepos + 1 })

/-- The function `ungetNextChar`. -/
def ungetNextChar (s : ScanState) : ScanState :=
  if ¬ s.EOF_flag then { s with linepos := s.linepos - 1 } else s

/-- The table `reservedWords`. -/
def reservedWords : List (List Char × TokenType) :=
  [("if".toList, IF), ("then".toList, THEN), ("else".toList, ELSE), ("end".toList, END),
   ("repeat".toList, REPEAT), ("until".toList, UNTIL), ("read".toList, READ),
   ("write".toList, WRITE)]

/-- The linear search of `reservedLookup` over a table. -/
def reservedSearch (s : List Char) : List (List Char × TokenType) → TokenType
  | [] => ID
  | (str, tok) :: rest => if s = str then tok else reservedSearch s rest

/-- The function `reservedLookup`. -/
def reservedLookup (s : List Char) : TokenType :=
  reservedSearch s reservedWords

/-- The C library `isdigit` (of the C locale) on the result of `getNextChar`. -/
def isdigit (c : Option Char) : Bool :=
  match c with
  | some ch => ch.isDigit
  | none => false

/-- The C library `isalpha` (of the C locale, the ASCII letters) on the result of
`getNextChar`. -/
def isalpha (c : Option Char) : Bool :=
  match c with
  | some ch => ch.isAlpha
  | none => false

/-- The conversion `(char) c` of a character read. -/
def toChar (c : Option Char) : Char :=
  match c with
  | some ch => ch
  | none => Char.ofNat 255

/-- The inner `switch (c)` of the `START` case: the token of a single character. -/
def startToken (c : Option Char) : TokenType × Bool :=
  match c with
  | none => (ENDFILE, false)
  | some ch =>
    if ch = '=' then (EQ, true)
    else if ch = '<' then (LT, true)
    else if ch = '+' then (PLUS, true)
    else if ch = '-' then (MINUS, true)
    else if ch = '*' then (TIMES, true)
    else if ch = '/' then (OVER, true)
    else if ch = '(' then (LPAREN, true)
    else if ch = ')' then (RPAREN, true)
    else if ch = ';' then (SEMI, true)
    else (ERROR, true)

/-- The local variables of `getToken` together with the scanner globals. -/
structure LoopState where
  state : StateType
  currentToken : TokenType
  save : Bool
  scan : ScanState
  deriving DecidableEq, Repr

/-- The `switch (state)` of `getToken` for the character `c` just read. -/
def switchState (c : Option Char) (l : LoopState) : LoopState :=
  match l.state with
  | START =>
    if isdigit c then { l with state := INNUM }
    else if isalpha c then { l with state := INID }
    else if c = some ':' then { l with state := INASSIGN }
    else if c = some ' ' ∨ c = some '\t' ∨ c = some '\n' then { l with save := false }
    else if c = some '{' then { l with save := false, state := INCOMMENT }
    else { l with state := DONE, currentToken := (startToken c).1, save := (startToken c).2 }
  | INCOMMENT =>
    if c = none then { l with save := false, state := DONE, currentToken := ENDFILE }
    else if c = some '}' then { l with save := false, state := START }
    else { l with save := false }
  | INASSIGN =>
    if c = some '=' then { l with state := DONE, currentToken := ASSIGN }
    else { l with state := DONE, scan := ungetNextChar l.scan, save := false,
                  currentToken := ERROR }
  | INNUM =>
    if ¬ isdigit c then
      { l with scan := ungetNextChar l.scan, save := false, state := DONE, currentToken := NUM }
    else l
  | INID =>
    if ¬ isalpha c then
      { l with scan := ungetNextChar l.scan, save := false, state := DONE, currentToken := ID }
    else l
  | DONE => { l with state := DONE, currentToken := ERROR }

/-- The statement `if ((save) && (tokenStringIndex <= MAXTOKENLEN))
tokenString[tokenStringIndex++] = (char) c;` of `getToken`; `tokenStringIndex` is the
number of characters stored so far. -/
def saveChar (c : Option Char) (l : LoopState) : LoopState :=
  if l.save ∧ l.scan.tokenString.length ≤ MAXTOKENLEN then
    { l with scan := { l.scan with tokenString := l.scan.tokenString ++ [toChar c] } }
  else l

/-- The statement `if (state == DONE) ...` that ends an iteration of the loop of
`getToken`: the lexeme is terminated and an identifier is looked up among the reserved
words. The terminating NUL is stored at the index `tokenStringIndex`, the number of
characters stored, and the lexeme is what precedes it. -/
def finishToken (l : LoopState) : LoopState :=
  if l.state = DONE then
    if l.currentToken = ID then
      { l with currentToken := reservedLookup l.scan.tokenString }
    else l
  else l

/-- One iteration of the `while (state != DONE)` loop of `getToken`. -/
def loopBody (l : LoopState) : LoopState :=
  let r := getNextChar l.scan
  finishToken (saveChar r.1 (switchState r.1 { l with save := true, scan := r.2 }))

/-- The `while (state != DONE)` loop of `getToken`, run for at most `fuel` iterations. -/
def getTokenLoop : Nat → LoopState → LoopState
  | 0, l => l
  | fuel + 1, l => if l.state = DONE then l else getTokenLoop fuel (loopBody l)

/-- The number of characters the scanner can still read. -/
def ScanState.remaining (s : ScanState) : Nat :=
  s.source.length + (s.bufsize - s.linepos)

/-- The function `getToken`: the token kind returned and the scanner globals afterwards
(the lexeme is their `tokenString`). Every iteration of the loop reads a character or
meets the end of the file, which ends the loop, so `remaining + 1` iterations suffice. -/
def getToken (s : ScanState) : TokenType × ScanState :=
  let l := getTokenLoop (s.remaining + 1)
    { state := START, currentToken := ERROR, save := true,
      scan := { s with tokenString := [] } }
  (l.currentToken, l.scan)

/-- A token as the parser sees it: the kind returned by `getToken`, the lexeme left
in `tokenString` and the value of `lineno` when `getToken` returned. -/
structure Token where
  kind : TokenType
  str : List Char
  line : Nat
  deriving DecidableEq, Repr

/-- The tokens of at most `fuel` successive calls of `getToken`, up to `ENDFILE`. -/
def scanTokens : Nat → ScanState → List Token
  | 0, _ => []
  | fuel + 1, s =>
    let r := getToken s
    if r.1 = ENDFILE then []
    else { kind := r.1, str := r.2.tokenString, line := r.2.lineno } :: scanTokens fuel r.2

/-- The token sequence of the rest of the input, up to end-of-input. -/
def scanRest (s : ScanState) : List Token :=
  scanTokens (s.remaining + 1) s

/-- The token sequence of a source text. -/
def scanAll (src : List Char) : List Token :=
  scanRest (ScanState.init src)

/-! ## Syntax trees (`globals.h`, `util.c`) -/

/-- Modelled from the spec: the statement kinds of `globals.h`. -/
inductive StmtKind
  | IfK | RepeatK | AssignK | ReadK | WriteK
  deriving DecidableEq, Repr

/-- Modelled from the spec: the expression kinds of `globals.h`. -/
inductive ExpKind
  | OpK | ConstK | IdK
  deriving DecidableEq, Repr

/-- Modelled from the spec: the field `nodekind` together with the union `kind`
of a tree node. -/
inductive Kind
  | StmtK (stmt : StmtKind)
  | ExpK (exp : ExpKind)
  deriving DecidableEq, Repr

/-- Modelled from the spec: the inferred type of an expression; `Void` is the
unresolved type a node has before analysis. -/
inductive ExpType
  | Void | Integer | Boolean
  deriving DecidableEq, Repr

/-- Modelled from the spec: the union `attr` of a tree node; `unset` is the state of
the union before any member has been assigned. -/
inductive Attr
  | unset
  | op (tok : TokenType)
  | val (v : Int)
  | name (s : List Char)
  deriving DecidableEq, Repr

/-- The scalar fields of a tree node. -/
structure NodeInfo where
  kind : Kind
  attr : Attr
  lineno : Nat
  type : ExpType
  deriving DecidableEq, Repr

/-- Modelled from the spec: a `TreeNode *` of `globals.h`: `null` is the `NULL` pointer,
a node has its scalar fields, `child[0]`, `child[1]`, `child[2]` (`MAXCHILDREN = 3`)
and `sibling`. -/
inductive TreeNode
  | null
  | node (info : NodeInfo) (child0 child1 child2 sibling : TreeNode)
  deriving DecidableEq, Repr

open StmtKind ExpKind ExpType

/-- Modelled from the spec: `newStmtNode` of `util.c`, which is not part of the sources:
a fresh statement node without children or sibling, carrying the current `lineno`.
Allocation is taken to succeed. -/
def newStmtNode (kind : StmtKind) (lineno : Nat) : TreeNode :=
  .node { kind := .StmtK kind, attr := .unset, lineno := lineno, type := Void }
    .null .null .null .null

/-- Modelled from the spec: `newExpNode` of `util.c`, which is not part of the sources:
a fresh expression node without children or sibling, carrying the current `lineno`
and the unresolved type. Allocation is taken to succeed. -/
def newExpNode (kind : ExpKind) (lineno : Nat) : TreeNode :=
  .node { kind := .ExpK kind, attr := .unset, lineno := lineno, type := Void }
    .null .null .null .null

/-- The assignment `t->child[0] = c`. -/
def TreeNode.setChild0 (t c : TreeNode) : TreeNode :=
  match t with
  | .null => .null
  | .node i _ c1 c2 sib => .node i c c1 c2 sib

/-- The assignment `t->child[1] = c`. -/
def TreeNode.setChild1 (t c : TreeNode) : TreeNode :=
  match t with
  | .null => .null
  | .node i c0 _ c2 sib => .node i c0 c c2 sib

/-- The assignment `t->child[2] = c`. -/
def TreeNode.setChild2 (t c : TreeNode) : TreeNode :=
  match t with
  | .null => .null
  | .node i c0 c1 _ sib => .node i c0 c1 c sib

/-- The assignment `t->attr = a` (one member of the union). -/
def TreeNode.setAttr (t : TreeNode) (a : Attr) : TreeNode :=
  match t with
  | .null => .null
  | .node i c0 c1 c2 sib => .node { i with attr := a } c0 c1 c2 sib

/-- The assignment `p->sibling = q` for `p` the last node of the sibling chain that
starts at `t`: the chain is followed to the node whose `sibling` is `NULL`. -/
def TreeNode.setLastSibling (t q : TreeNode) : TreeNode :=
  match t with
  | .null => q
  | .node i c0 c1 c2 sib => .node i c0 c1 c2 (setLastSibling sib q)

/-- The largest value of the C type `int` (32 bits). -/
def INT_MAX : Int := 2147483647

/-- The largest value of the C type `long` (64 bits). -/
def LONG_MAX : Int := 9223372036854775807

/-- The C library `strtol(s, NULL, 10)` on a lexeme without sign or blanks: the value of
its leading digits, or `LONG_MAX` when that value is larger. -/
def strtol (s : List Char) : Int :=
  min (((s.takeWhile Char.isDigit).foldl (fun acc c => 10 * acc + (c.toNat - 48)) 0 : Nat) : Int)
    LONG_MAX

/-- The conversion `(int) v` of a `long` to the 32-bit type `int`: the value modulo
`2^32` that lies between `-2^31` and `2^31 - 1`. -/
def toInt (v : Int) : Int :=
  (v + 2147483648) % 4294967296 - 2147483648

/-- The C library `atoi` on the lexeme of a number, `(int) strtol(s, NULL, 10)`. A value
of at most `INT_MAX` is returned as it is. For a larger value the C standard leaves the
result open and the GNU C library returns what is modelled here; whatever is returned
is a value of the type `int` of the field `attr.val`. -/
def atoi (s : List Char) : Int :=
  toInt (strtol s)

/-! ## parse.c -/

/-- A diagnostic written to `listing`: the line number printed and the message. -/
structure Diag where
  line : Nat
  message : String
  deriving DecidableEq, Repr

/-- The global variables the parser works on: the scanner globals, the lookahead
`token`, the flag `Error` and the diagnostics written to `listing`. -/
structure ParseState where
  scan : ScanState
  token : TokenType
  Error : Bool
  listing : List Diag
  deriving DecidableEq, Repr

/-- The function `syntaxError`. -/
def syntaxError (message : String) (st : ParseState) : ParseState :=
  { st with listing := st.listing ++ [{ line := st.scan.lineno, message := message }],
            Error := true }

/-- The assignment `token = getToken()`. -/
def nextToken (st : ParseState) : ParseState :=
  { st with token := (getToken st.scan).1, scan := (getToken st.scan).2 }

/-- The function `match`. -/
def match_ (expected : TokenType) (st : ParseState) : ParseState :=
  if st.token = expected then nextToken st
  else syntaxError "unexpected token -> " st

/-- The statement list update of the loop in `stmt_sequence`: `p` always points to the
last node of the chain starting at `t`. -/
def linkStmt (t q : TreeNode) : TreeNode :=
  match q with
  | .null => t
  | .node _ _ _ _ _ =>
    match t with
    | .null => q
    | .node _ _ _ _ _ => t.setLastSibling q

/-- The result of a parsing function: the tree returned and the globals afterwards;
`none` when the fuel did not suffice. -/
abbrev ParseResult := Option (TreeNode × ParseState)

mutual

/-- The function `stmt_sequence`. -/
def stmt_sequence : Nat → ParseState → ParseResult
  | 0, _ => none
  | n + 1, st =>
    (statement n st).bind fun r => stmt_sequence_loop n r.1 r.2

/-- The `while` loop of `stmt_sequence`, entered with the chain `t` built so far. -/
def stmt_sequence_loop : Nat → TreeNode → ParseState → ParseResult
  | 0, _, _ => none
  | n + 1, t, st =>
    if st.token ≠ ENDFILE ∧ st.token ≠ END ∧ st.token ≠ ELSE ∧ st.token ≠ UNTIL then
      (statement n (match_ SEMI st)).bind fun r =>
        stmt_sequence_loop n (linkStmt t r.1) r.2
    else some (t, st)

/-- The function `statement`. -/
def statement : Nat → ParseState → ParseResult
  | 0, _ => none
  | n + 1, st =>
    match st.token with
    | IF => if_stmt n st
    | REPEAT => repeat_stmt n st
    | ID => assign_stmt n st
    | READ => read_stmt n st
    | WRITE => write_stmt n st
    | _ => some (.null, nextToken (syntaxError "unexpected token -> " st))

/-- The function `if_stmt`. -/
def if_stmt : Nat → ParseState → ParseResult
  | 0, _ => none
  | n + 1, st =>
    let t := newStmtNode IfK st.scan.lineno
    (exp n (match_ IF st)).bind fun r0 =>
    (stmt_sequence n (match_ THEN r0.2)).bind fun r1 =>
    if r1.2.token = ELSE then
      (stmt_sequence n (match_ ELSE r1.2)).bind fun r2 =>
      some (((t.setChild0 r0.1).setChild1 r1.1).setChild2 r2.1, match_ END r2.2)
    else some ((t.setChild0 r0.1).setChild1 r1.1, match_ END r1.2)

/-- The function `repeat_stmt`. -/
def repeat_stmt : Nat → ParseState → ParseResult
  | 0, _ => none
  | n + 1, st =>
    let t := newStmtNode RepeatK st.scan.lineno
    (stmt_sequence n (match_ REPEAT st)).bind fun r0 =>
    (exp n (match_ UNTIL r0.2)).bind fun r1 =>
    some ((t.setChild0 r0.1).setChild1 r1.1, r1.2)

/-- The function `assign_stmt`. -/
def assign_stmt : Nat → ParseState → ParseResult
  | 0, _ => none
  | n + 1, st =>
    let t := newStmtNode AssignK st.scan.lineno
    let t := if st.token = ID then t.setAttr (.name st.scan.tokenString) else t
    (exp n (match_ ASSIGN (match_ ID st))).bind fun r =>
    some (t.setChild0 r.1, r.2)

/-- The function `read_stmt`. -/
def read_stmt : Nat → ParseState → ParseResult
  | 0, _ => none
  | _ + 1, st =>
    let t := newStmtNode ReadK st.scan.lineno
    let st1 := match_ READ st
    let t := if st1.token = ID then t.setAttr (.name st1.scan.tokenString) else t
    some (t, match_ ID st1)

/-- The function `write_stmt`. -/
def write_stmt : Nat → ParseState → ParseResult
  | 0, _ => none
  | n + 1, st =>
    let t := newStmtNode WriteK st.scan.lineno
    (exp n (match_ WRITE st)).bind fun r =>
    some (t.setChild0 r.1, r.2)

/-- The function `exp`. -/
def exp : Nat → ParseState → ParseResult
  | 0, _ => none
  | n + 1, st =>
    (simple_exp n st).bind fun r0 =>
    if r0.2.token = TokenType.LT ∨ r0.2.token = TokenType.EQ then
      let p := ((newExpNode OpK r0.2.scan.lineno).setChild0 r0.1).setAttr (.op r0.2.token)
      (simple_exp n (match_ r0.2.token r0.2)).bind fun r1 =>
      some (p.setChild1 r1.1, r1.2)
    else some r0

/-- The function `simple_exp`. -/
def simple_exp : Nat → ParseState → ParseResult
  | 0, _ => none
  | n + 1, st =>
    (term n st).bind fun r => simple_exp_loop n r.1 r.2

/-- The `while` loop of `simple_exp`, entered with the tree `t` built so far. -/
def simple_exp_loop : Nat → TreeNode → ParseState → ParseResult
  | 0, _, _ => none
  | n + 1, t, st =>
    if st.token = PLUS ∨ st.token = MINUS then
      let p := ((newExpNode OpK st.scan.lineno).setChild0 t).setAttr (.op st.token)
      (term n (match_ st.token st)).bind fun r =>
      simple_exp_loop n (p.setChild1 r.1) r.2
    else some (t, st)

/-- The function `term`. -/
def term : Nat → ParseState → ParseResult
  | 0, _ => none
  | n + 1, st =>
    (factor n st).bind fun r => term_loop n r.1 r.2

/-- The `while` loop of `term`, entered with the tree `t` built so far. -/
def term_loop : Nat → TreeNode → ParseState → ParseResult
  | 0, _, _ => none
  | n + 1, t, st =>
    if st.token = TIMES ∨ st.token = OVER then
      let p := ((newExpNode OpK st.scan.lineno).setChild0 t).setAttr (.op st.token)
      (factor n (match_ st.token st)).bind fun r =>
      term_loop n (p.setChild1 r.1) r.2
    else some (t, st)

/-- The function `factor`. -/
def factor : Nat → ParseState → ParseResult
  | 0, _ => none
  | n + 1, st =>
    match st.token with
    | NUM =>
      some ((newExpNode ConstK st.scan.lineno).setAttr (.val (atoi st.scan.tokenString)),
        match_ NUM st)
    | ID =>
      some ((newExpNode IdK st.scan.lineno).setAttr (.name st.scan.tokenString),
        match_ ID st)
    | LPAREN =>
      (exp n (match_ LPAREN st)).bind fun r => some (r.1, match_ RPAREN r.2)
    | _ => some (.null, nextToken (syntaxError "unexpected token -> " st))

end

/-- The parser globals when `parse` is called on the source text `src`. -/
def ParseState.init (src : List Char) : ParseState :=
  { scan := ScanState.init src, token := ENDFILE, Error := false, listing := [] }

/-- The function `parse`, its recursive calls bounded by `fuel`. -/
def parse (fuel : Nat) (st : ParseState) : ParseResult :=
  (stmt_sequence fuel (nextToken st)).bind fun r =>
    if r.2.token ≠ ENDFILE then some (r.1, syntaxError "Code ends before file\n" r.2)
    else some r

/-- The function `parse` on a source text. -/
def parseSource (fuel : Nat) (src : List Char) : ParseResult :=
  parse fuel (ParseState.init src)

/-! ## The symbol table (`symtab.c`) -/

/-- Modelled from the spec: an entry of the symbol table of `symtab.c`, which is not part
of the sources: the identifier name, its memory location and the line numbers recorded
for it, in order. -/
structure SymEntry where
  name : List Char
  memloc : Nat
  lines : List Nat
  deriving DecidableEq, Repr

/-- Modelled from the spec: the symbol table, its entries in order of insertion. -/
abbrev SymTab := List SymEntry

/-- Modelled from the spec: `st_lookup` of `symtab.c`: the memory location of a name,
or -1 when the name is not in the table. -/
def st_lookup (tab : SymTab) (name : List Char) : Int :=
  match tab with
  | [] => -1
  | e :: rest => if e.name = name then (e.memloc : Int) else st_lookup rest name

/-- Modelled from the spec: `st_insert` of `symtab.c`: the first insertion of a name
creates its entry with the location and the line; a later one appends the line to the
recorded lines and ignores the location. -/
def st_insert (tab : SymTab) (name : List Char) (lineno : Nat) (loc : Nat) : SymTab :=
  match tab with
  | [] => [{ name := name, memloc := loc, lines := [lineno] }]
  | e :: rest =>
    if e.name = name then { e with lines := e.lines ++ [lineno] } :: rest
    else e :: st_insert rest name lineno loc

/-! ## analyze.c -/

/-- The global variables the analyzer works on: the symbol table, the counter
`location`, the flag `Error` and the diagnostics written to `listing`. -/
structure AnalyzeState where
  symtab : SymTab
  location : Nat
  Error : Bool
  listing : List Diag
  deriving DecidableEq, Repr

/-- The scalar fields of the node a pointer refers to. Dereferencing `NULL` is undefined
in C; the model then reads an unset node of the unresolved type. -/
def TreeNode.info (t : TreeNode) : NodeInfo :=
  match t with
  | .null => { kind := .ExpK OpK, attr := .unset, lineno := 0, type := Void }
  | .node i _ _ _ _ => i

/-- The field access `t->type`. -/
def TreeNode.type (t : TreeNode) : ExpType := t.info.type

/-- The member `attr.name` of the union. -/
def Attr.getName (a : Attr) : List Char :=
  match a with
  | .name s => s
  | _ => []

/-- The procedure `traverse`. The procedures passed to it assign scalar fields of the
node they visit only, so each returns the new scalar fields of that node together
with the new globals. -/
def traverse {σ : Type} (preProc postProc : TreeNode → σ → NodeInfo × σ) :
    TreeNode → σ → TreeNode × σ
  | .null, a => (.null, a)
  | .node i c0 c1 c2 sib, a =>
    let r := preProc (.node i c0 c1 c2 sib) a
    let r0 := traverse preProc postProc c0 r.2
    let r1 := traverse preProc postProc c1 r0.2
    let r2 := traverse preProc postProc c2 r1.2
    let q := postProc (.node r.1 r0.1 r1.1 r2.1 sib) r2.2
    let rs := traverse preProc postProc sib q.2
    (.node q.1 r0.1 r1.1 r2.1 rs.1, rs.2)

/-- The procedure `nullProc`. -/
def nullProc {σ : Type} (t : TreeNode) (a : σ) : NodeInfo × σ := (t.info, a)

/-- The lookup and insertion `insertNode` performs for a name at a line. -/
def insertName (name : List Char) (lineno : Nat) (a : AnalyzeState) : AnalyzeState :=
  if st_lookup a.symtab name = -1 then
    { a with symtab := st_insert a.symtab name lineno a.location,
             location := a.location + 1 }
  else
    { a with symtab := st_insert a.symtab name lineno 0 }

/-- The procedure `insertNode`. -/
def insertNode (t : TreeNode) (a : AnalyzeState) : NodeInfo × AnalyzeState :=
  match t.info.kind with
  | .StmtK AssignK => (t.info, insertName t.info.attr.getName t.info.lineno a)
  | .StmtK ReadK => (t.info, insertName t.info.attr.getName t.info.lineno a)
  | .ExpK IdK => (t.info, insertName t.info.attr.getName t.info.lineno a)
  | _ => (t.info, a)

/-- The procedure `buildSymtab` (without the trace output). -/
def buildSymtab (syntaxTree : TreeNode) (a : AnalyzeState) : TreeNode × AnalyzeState :=
  traverse insertNode nullProc syntaxTree a

/-- The procedure `typeError`. -/
def typeError (t : TreeNode) (message : String) (a : AnalyzeState) : AnalyzeState :=
  { a with listing := a.listing ++ [{ line := t.info.lineno, message := message }],
           Error := true }

/-- The pointer `t->child[0]`. -/
def TreeNode.child0 (t : TreeNode) : TreeNode :=
  match t with
  | .null => .null
  | .node _ c0 _ _ _ => c0

/-- The pointer `t->child[1]`. -/
def TreeNode.child1 (t : TreeNode) : TreeNode :=
  match t with
  | .null => .null
  | .node _ _ c1 _ _ => c1

/-- The pointer `t->child[2]`. -/
def TreeNode.child2 (t : TreeNode) : TreeNode :=
  match t with
  | .null => .null
  | .node _ _ _ c2 _ => c2

/-- The pointer `t->sibling`. -/
def TreeNode.sibling (t : TreeNode) : TreeNode :=
  match t with
  | .null => .null
  | .node _ _ _ _ sib => sib

/-- The procedure `checkNode`. -/
def checkNode (t : TreeNode) (a : AnalyzeState) : NodeInfo × AnalyzeState :=
  match t.info.kind with
  | .ExpK OpK =>
    let a1 :=
      if t.child0.type ≠ Integer ∨ t.child1.type ≠ Integer then
        typeError t "Op applied to non-integer" a
      else a
    if t.info.attr = .op TokenType.EQ ∨ t.info.attr = .op TokenType.LT then
      ({ t.info with type := Boolean }, a1)
    else ({ t.info with type := Integer }, a1)
  | .ExpK ConstK => ({ t.info with type := Integer }, a)
  | .ExpK IdK => ({ t.info with type := Integer }, a)
  | .StmtK IfK =>
    (t.info, if t.child0.type = Integer then typeError t.child0 "if test is not Boolean" a
             else a)
  | .StmtK AssignK =>
    (t.info, if t.child0.type ≠ Integer then
               typeError t.child0 "assignment of non-integer value" a
             else a)
  | .StmtK WriteK =>
    (t.info, if t.child0.type ≠ Integer then typeError t.child0 "write of non-integer value" a
             else a)
  | .StmtK RepeatK =>
    (t.info, if t.child1.type = Integer then typeError t.child1 "repeat test is not Boolean" a
             else a)
  | _ => (t.info, a)

/-- The procedure `typeCheck`. -/
def typeCheck (syntaxTree : TreeNode) (a : AnalyzeState) : TreeNode × AnalyzeState :=
  traverse nullProc checkNode syntaxTree a

/-- The analyzer globals when `main` calls `buildSymtab`: an empty symbol table,
`location = 0` and the flag and listing the parser left. -/
def AnalyzeState.init (st : ParseState) : AnalyzeState :=
  { symtab := [], location := 0, Error := st.Error, listing := st.listing }

/-! ## The grammar of the specification -/

/-- The lookahead of the parser as a token: the kind in `token`, the lexeme in
`tokenString` and the current `lineno`. -/
def ParseState.cur (st : ParseState) : Token :=
  { kind := st.token, str := st.scan.tokenString, line := st.scan.lineno }

/-- The tokens the parser has not consumed yet: the lookahead, unless it is `ENDFILE`,
followed by the tokens of the rest of the input. -/
def toks (st : ParseState) : List Token :=
  if st.token = ENDFILE then [] else st.cur :: scanRest st.scan

/-- The tree of a number token. -/
def constNode (tk : Token) : TreeNode :=
  .node { kind := .ExpK ConstK, attr := .val (atoi tk.str), lineno := tk.line, type := Void }
    .null .null .null .null

/-- The tree of an identifier token inside an expression. -/
def idNode (tk : Token) : TreeNode :=
  .node { kind := .ExpK IdK, attr := .name tk.str, lineno := tk.line, type := Void }
    .null .null .null .null

/-- The tree of an operator token applied to a left and a right operand. -/
def opNode (o : Token) (l r : TreeNode) : TreeNode :=
  .node { kind := .ExpK OpK, attr := .op o.kind, lineno := o.line, type := Void }
    l r .null .null

/-- The tree of an if-statement: `child[0]` is the test, `child[1]` the then-sequence
and `child[2]` the else-sequence or null. -/
def ifNode (i : Token) (test thenPart elsePart : TreeNode) : TreeNode :=
  .node { kind := .StmtK IfK, attr := .unset, lineno := i.line, type := Void }
    test thenPart elsePart .null

/-- The tree of a repeat-statement: `child[0]` is the body and `child[1]` the test. -/
def repeatNode (r : Token) (body test : TreeNode) : TreeNode :=
  .node { kind := .StmtK RepeatK, attr := .unset, lineno := r.line, type := Void }
    body test .null .null

/-- The tree of an assignment: the name of the target and `child[0]` the operand. -/
def assignNode (i : Token) (e : TreeNode) : TreeNode :=
  .node { kind := .StmtK AssignK, attr := .name i.str, lineno := i.line, type := Void }
    e .null .null .null

/-- The tree of a read-statement: the name of the target. -/
def readNode (r i : Token) : TreeNode :=
  .node { kind := .StmtK ReadK, attr := .name i.str, lineno := r.line, type := Void }
    .null .null .null .null

/-- The tree of a write-statement: `child[0]` is the operand. -/
def writeNode (w : Token) (e : TreeNode) : TreeNode :=
  .node { kind := .StmtK WriteK, attr := .unset, lineno := w.line, type := Void }
    e .null .null .null

/-- The nonterminals of the grammar of the specification. A repetition `( ... )*` is a
nonterminal of its own that carries the tree built from what precedes it. -/
inductive NT
  | factor
  | term
  | termRest (acc : TreeNode)
  | simple_exp
  | simpleRest (acc : TreeNode)
  | exp
  | statement
  | stmt_sequence
  | seqRest (acc : TreeNode)

/-- The specification's grammar with the tree of each derivation: `Derives nt w t` says
that the token sequence `w` is derived from the nonterminal `nt` and that `t` is the
syntax tree of the derivation. Operators of a `term` and of a `simple-exp` nest to the
left; the statements of a sequence are chained by `sibling` in source order. -/
inductive Derives : NT → List Token → TreeNode → Prop
  | num (tk : Token) : tk.kind = NUM → Derives .factor [tk] (constNode tk)
  | ident (tk : Token) : tk.kind = ID → Derives .factor [tk] (idNode tk)
  | paren (l r : Token) (w : List Token) (e : TreeNode) :
      l.kind = LPAREN → Derives .exp w e → r.kind = RPAREN →
      Derives .factor (l :: w ++ [r]) e
  | term (w0 w1 : List Token) (f t : TreeNode) :
      Derives .factor w0 f → Derives (.termRest f) w1 t → Derives .term (w0 ++ w1) t
  | termNil (acc : TreeNode) : Derives (.termRest acc) [] acc
  | termCons (acc : TreeNode) (o : Token) (w w1 : List Token) (f t : TreeNode) :
      o.kind = TIMES ∨ o.kind = OVER → Derives .factor w f →
      Derives (.termRest (opNode o acc f)) w1 t →
      Derives (.termRest acc) (o :: w ++ w1) t
  | simple (w0 w1 : List Token) (f t : TreeNode) :
      Derives .term w0 f → Derives (.simpleRest f) w1 t → Derives .simple_exp (w0 ++ w1) t
  | simpleNil (acc : TreeNode) : Derives (.simpleRest acc) [] acc
  | simpleCons (acc : TreeNode) (o : Token) (w w1 : List Token) (f t : TreeNode) :
      o.kind = PLUS ∨ o.kind = MINUS → Derives .term w f →
      Derives (.simpleRest (opNode o acc f)) w1 t →
      Derives (.simpleRest acc) (o :: w ++ w1) t
  | expSimple (w : List Token) (t : TreeNode) : Derives .simple_exp w t → Derives .exp w t
  | expRel (w0 w1 : List Token) (o : Token) (l r : TreeNode) :
      Derives .simple_exp w0 l → o.kind = TokenType.LT ∨ o.kind = TokenType.EQ →
      Derives .simple_exp w1 r → Derives .exp (w0 ++ o :: w1) (opNode o l r)
  | ifThen (i th en : Token) (we ws : List Token) (e s : TreeNode) :
      i.kind = IF → Derives .exp we e → th.kind = THEN → Derives .stmt_sequence ws s →
      en.kind = END →
      Derives .statement (i :: we ++ th :: ws ++ [en]) (ifNode i e s .null)
  | ifElse (i th el en : Token) (we ws wf : List Token) (e s f : TreeNode) :
      i.kind = IF → Derives .exp we e → th.kind = THEN → Derives .stmt_sequence ws s →
      el.kind = ELSE → Derives .stmt_sequence wf f → en.kind = END →
      Derives .statement (i :: we ++ th :: ws ++ el :: wf ++ [en]) (ifNode i e s f)
  | repeatUntil (r u : Token) (ws we : List Token) (s e : TreeNode) :
      r.kind = REPEAT → Derives .stmt_sequence ws s → u.kind = UNTIL → Derives .exp we e →
      Derives .statement (r :: ws ++ u :: we) (repeatNode r s e)
  | assign (i a : Token) (w : List Token) (e : TreeNode) :
      i.kind = ID → a.kind = ASSIGN → Derives .exp w e →
      Derives .statement (i :: a :: w) (assignNode i e)
  | read (r i : Token) : r.kind = READ → i.kind = ID →
      Derives .statement [r, i] (readNode r i)
  | write (wr : Token) (w : List Token) (e : TreeNode) :
      wr.kind = WRITE → Derives .exp w e → Derives .statement (wr :: w) (writeNode wr e)
  | seq (w0 w1 : List Token) (s t : TreeNode) :
      Derives .statement w0 s → Derives (.seqRest s) w1 t →
      Derives .stmt_sequence (w0 ++ w1) t
  | seqNil (acc : TreeNode) : Derives (.seqRest acc) [] acc
  | seqCons (acc : TreeNode) (semi : Token) (w w1 : List Token) (q t : TreeNode) :
      semi.kind = SEMI → Derives .statement w q →
      Derives (.seqRest (acc.setLastSibling q)) w1 t →
      Derives (.seqRest acc) (semi :: w ++ w1) t

/-- The parsing function of a nonterminal. -/
def run : NT → Nat → ParseState → ParseResult
  | .factor => factor
  | .term => term
  | .termRest acc => fun n st => term_loop n acc st
  | .simple_exp => simple_exp
  | .simpleRest acc => fun n st => simple_exp_loop n acc st
  | .exp => exp
  | .statement => statement
  | .stmt_sequence => stmt_sequence
  | .seqRest acc => fun n st => stmt_sequence_loop n acc st

/-- The kind of the first token of a token sequence, `ENDFILE` for the empty one:
the lookahead the parser has in front of it. -/
def hd (l : List Token) : TokenType :=
  match l with
  | [] => ENDFILE
  | a :: _ => a.kind

/-- The lookaheads at which the phrase of a nonterminal is complete for the parser:
no operator the nonterminal could go on with; for a statement sequence one of the
tokens that close it. -/
def Follow : NT → TokenType → Prop
  | .factor, _ => True
  | .term, k => k ≠ TIMES ∧ k ≠ OVER
  | .termRest _, k => k ≠ TIMES ∧ k ≠ OVER
  | .simple_exp, k => k ≠ PLUS ∧ k ≠ MINUS ∧ k ≠ TIMES ∧ k ≠ OVER
  | .simpleRest _, k => k ≠ PLUS ∧ k ≠ MINUS ∧ k ≠ TIMES ∧ k ≠ OVER
  | .exp, k =>
      k ≠ TokenType.LT ∧ k ≠ TokenType.EQ ∧ k ≠ PLUS ∧ k ≠ MINUS ∧ k ≠ TIMES ∧ k ≠ OVER
  | .statement, k =>
      k ≠ TokenType.LT ∧ k ≠ TokenType.EQ ∧ k ≠ PLUS ∧ k ≠ MINUS ∧ k ≠ TIMES ∧ k ≠ OVER
  | .stmt_sequence, k => k = ENDFILE ∨ k = END ∨ k = ELSE ∨ k = UNTIL
  | .seqRest _, k => k = ENDFILE ∨ k = END ∨ k = ELSE ∨ k = UNTIL

/-- The tokens `op1 f1 ... opn fn` of a list of operators, each with the tokens and the
tree of its right operand. -/
def opsTokens : List (Token × List Token × TreeNode) → List Token
  | [] => []
  | p :: rest => p.1 :: p.2.1 ++ opsTokens rest

/-- The left-nested tree `Op(opn, Op(..., Op(op1, t0, f1) ...), fn)` of a first operand
and a list of operators with their right operands. -/
def leftNest (t0 : TreeNode) : List (Token × List Token × TreeNode) → TreeNode
  | [] => t0
  | p :: rest => leftNest (opNode p.1 t0 p.2.2) rest

/-- Modelled from the spec: the integer value of an expression tree built from constants
and the four arithmetic operators, as the generated code computes it; the code
generator and the target machine are not part of the sources. -/
def value : TreeNode → Int
  | .null => 0
  | .node i l r _ _ =>
    match i.kind, i.attr with
    | .ExpK ConstK, .val v => v
    | .ExpK OpK, .op PLUS => value l + value r
    | .ExpK OpK, .op MINUS => value l - value r
    | .ExpK OpK, .op TIMES => value l * value r
    | .ExpK OpK, .op OVER => (value l).tdiv (value r)
    | _, _ => 0

/-! ## The scanner as a function of the character stream -/

/-- A source text: ASCII characters other than NUL. -/
def IsText (src : List Char) : Prop :=
  ∀ c ∈ src, c ≠ Char.ofNat 0 ∧ c.toNat < 128

/-- The characters the scanner has not read yet: the rest of `lineBuf` followed by the
rest of the source stream. -/
def ScanState.pending (s : ScanState) : List Char :=
  s.lineBuf.drop s.linepos ++ s.source

/-- The states of the scanner globals that occur while a text is scanned: `bufsize` is
the length of the line in `lineBuf`, the cursor `linepos` is inside it, nothing is left
to read once `EOF_flag` is set, and neither a NUL nor a byte `0xFF` is to come. -/
def ScanState.Inv (s : ScanState) : Prop :=
  s.bufsize = s.lineBuf.length ∧ s.linepos ≤ s.bufsize ∧
  (s.EOF_flag = true → s.pending = []) ∧ (∀ c ∈ s.source, c ≠ Char.ofNat 0) ∧
  ∀ c ∈ s.pending, c ≠ Char.ofNat 255

/-- The lexeme after a character is saved: it is stored while at most `MAXTOKENLEN`
characters have been stored. -/
def pushChar (acc : List Char) (c : Char) : List Char :=
  if acc.length ≤ MAXTOKENLEN then acc ++ [c] else acc

/-- The outcome of one iteration of the loop of `getToken`: the next DFA state, the
token when that state is `DONE`, the lexeme stored so far and whether the character
read is pushed back. -/
structure Step where
  state : StateType
  token : TokenType
  lexeme : List Char
  unget : Bool
  deriving DecidableEq, Repr

/-- One iteration of the loop of `getToken` as a function of the DFA state, the lexeme
stored so far and the character read (`none` for `EOF`). -/
def stepS (st : StateType) (acc : List Char) (c : Option Char) : Step :=
  match st with
  | START =>
    if isdigit c then ⟨INNUM, ERROR, pushChar acc (toChar c), false⟩
    else if isalpha c then ⟨INID, ERROR, pushChar acc (toChar c), false⟩
    else if c = some ':' then ⟨INASSIGN, ERROR, pushChar acc (toChar c), false⟩
    else if c = some ' ' ∨ c = some '\t' ∨ c = some '\n' then ⟨START, ERROR, acc, false⟩
    else if c = some '{' then ⟨INCOMMENT, ERROR, acc, false⟩
    else ⟨DONE, (startToken c).1,
      if (startToken c).2 = true then pushChar acc (toChar c) else acc, false⟩
  | INCOMMENT =>
    if c = none then ⟨DONE, ENDFILE, acc, false⟩
    else if c = some '}' then ⟨START, ERROR, acc, false⟩
    else ⟨INCOMMENT, ERROR, acc, false⟩
  | INASSIGN =>
    if c = some '=' then ⟨DONE, ASSIGN, pushChar acc (toChar c), false⟩
    else ⟨DONE, ERROR, acc, true⟩
  | INNUM =>
    if ¬ isdigit c then ⟨DONE, NUM, acc, true⟩
    else ⟨INNUM, ERROR, pushChar acc (toChar c), false⟩
  | INID =>
    if ¬ isalpha c then ⟨DONE, reservedLookup acc, acc, true⟩
    else ⟨INID, ERROR, pushChar acc (toChar c), false⟩
  | DONE => ⟨DONE, ERROR, pushChar acc (toChar c), false⟩

/-- The scanner DFA on a character stream: from a DFA state, with the lexeme stored so
far, the token it ends with, the lexeme and the characters left unread. A character
that is pushed back stays in the stream. -/
def lexS : StateType → List Char → List Char → TokenType × List Char × List Char
  | st, acc, [] => ((stepS st acc none).token, (stepS st acc none).lexeme, [])
  | st, acc, c :: cs =>
    if (stepS st acc (some c)).state = DONE then
      ((stepS st acc (some c)).token, (stepS st acc (some c)).lexeme,
        if (stepS st acc (some c)).unget = true then c :: cs else cs)
    else lexS (stepS st acc (some c)).state (stepS st acc (some c)).lexeme cs

/-- The (kind, lexeme) pairs of at most `fuel` successive tokens of a character stream,
up to `ENDFILE`. -/
def tokensS : Nat → List Char → List (TokenType × List Char)
  | 0, _ => []
  | fuel + 1, cs =>
    if (lexS START [] cs).1 = ENDFILE then []
    else ((lexS START [] cs).1, (lexS START [] cs).2.1) :: tokensS fuel (lexS START [] cs).2.2

/-- The (kind, lexeme) pairs of the tokens of a character stream. -/
def scanS (cs : List Char) : List (TokenType × List Char) :=
  tokensS (cs.length + 1) cs

/-- The (kind, lexeme) pairs of the tokens of a character stream on which the scanner is
in a given DFA state with a lexeme partly stored. -/
def runS (st : StateType) (acc : List Char) (cs : List Char) : List (TokenType × List Char) :=
  if (lexS st acc cs).1 = ENDFILE then []
  else ((lexS st acc cs).1, (lexS st acc cs).2.1) :: scanS (lexS st acc cs).2.2

/-- The DFA state in which the scanner reads the next character after `START` has read
the character `c`. -/
def afterStart (c : Char) : StateType :=
  if c.isDigit then INNUM
  else if c.isAlpha then INID
  else if c = ':' then INASSIGN
  else if c = ' ' ∨ c = '\t' ∨ c = '\n' then START
  else if c = '{' then INCOMMENT
  else START

/-- The DFA state in which the scanner reads the character that follows the characters
`cs`, when it read the first of them in state `st`. -/
def endState : StateType → List Char → StateType
  | st, [] => st
  | START, c :: cs => endState (afterStart c) cs
  | INCOMMENT, c :: cs => if c = '}' then endState START cs else endState INCOMMENT cs
  | INASSIGN, c :: cs => if c = '=' then endState START cs else endState (afterStart c) cs
  | INNUM, c :: cs => if c.isDigit then endState INNUM cs else endState (afterStart c) cs
  | INID, c :: cs => if c.isAlpha then endState INID cs else endState (afterStart c) cs
  | DONE, _ :: cs => endState START cs

/-- Whether the character `x`, read in the DFA state `st`, ends the token in progress
(if any) without becoming part of it, so that a token boundary lies before `x`. -/
def breaks (st : StateType) (x : Char) : Prop :=
  match st with
  | START => True
  | INNUM => x.isDigit = false
  | INID => x.isAlpha = false
  | INASSIGN => x ≠ '='
  | INCOMMENT => False
  | DONE => False

/-- Whether a text ends inside a comment: `{` opens a comment outside one, `}` closes
it. -/
def inComment : Bool → List Char → Bool
  | b, [] => b
  | false, c :: cs => inComment (c = '{') cs
  | true, c :: cs => inComment (c ≠ '}') cs

/-- The tokens of `n` successive calls of `getToken`, `ENDFILE` tokens included. -/
def getTokens : Nat → ScanState → List Token
  | 0, _ => []
  | n + 1, s =>
    { kind := (getToken s).1, str := (getToken s).2.tokenString,
      line := (getToken s).2.lineno } :: getTokens n (getToken s).2

/-- The (kind, lexeme) pair of a token. -/
def Token.pair (t : Token) : TokenType × List Char := (t.kind, t.str)

/-! ## Notions the claims about the analyzer are stated with -/

/-- The identifier occurrence `insertNode` handles at a node with the given scalar
fields, if any: the name and the line. -/
def ownOccurrence (i : NodeInfo) : List (List Char × Nat) :=
  match i.kind with
  | .StmtK AssignK => [(i.attr.getName, i.lineno)]
  | .StmtK ReadK => [(i.attr.getName, i.lineno)]
  | .ExpK IdK => [(i.attr.getName, i.lineno)]
  | _ => []

/-- The identifier occurrences `insertNode` handles, with their lines, in the pre-order
in which `traverse` visits the nodes. -/
def occurrences : TreeNode → List (List Char × Nat)
  | .null => []
  | .node i c0 c1 c2 sib =>
    ownOccurrence i ++ occurrences c0 ++ occurrences c1 ++ occurrences c2 ++ occurrences sib

/-- The insertions `insertNode` performs for a list of identifier occurrences. -/
def insertAll (l : List (List Char × Nat)) (a : AnalyzeState) : AnalyzeState :=
  l.foldl (fun a p => insertName p.1 p.2 a) a

/-- The lexemes of the identifier tokens of a token sequence, in source order. -/
def identifiers : List Token → List (List Char)
  | [] => []
  | tk :: w => if tk.kind = ID then tk.str :: identifiers w else identifiers w

/-- The names `seen` followed by the names of `l` that are new when `l` is read from
left to right. -/
def distinctFrom (seen : List (List Char)) : List (List Char) → List (List Char)
  | [] => seen
  | x :: xs => if x ∈ seen then distinctFrom seen xs else distinctFrom (seen ++ [x]) xs

/-- The distinct names of a list in order of first occurrence. -/
def firstOccurrences (l : List (List Char)) : List (List Char) :=
  distinctFrom [] l

/-- The name and the memory location of every entry of a symbol table. -/
def allocation (tab : SymTab) : List (List Char × Nat) :=
  tab.map fun e => (e.name, e.memloc)

/-- The reference lines recorded for a name in a symbol table. -/
def refLines (tab : SymTab) (name : List Char) : List Nat :=
  match tab with
  | [] => []
  | e :: rest => if e.name = name then e.lines else refLines rest name

/-- The symbol table `buildSymtab` builds for a source text, when `main` gets that far
(the parser returns with the fuel given). -/
def symtabOf (fuel : Nat) (src : List Char) : Option SymTab :=
  (parseSource fuel src).map fun r => (buildSymtab r.1 (AnalyzeState.init r.2)).2.symtab

/-- The analyzer globals after `buildSymtab` and `typeCheck` on a source text, run as
`main` runs them after the parser. -/
def analyzeSource (fuel : Nat) (src : List Char) : Option AnalyzeState :=
  (parseSource fuel src).map fun r =>
    (typeCheck (buildSymtab r.1 (AnalyzeState.init r.2)).1
      (buildSymtab r.1 (AnalyzeState.init r.2)).2).2

/-- Whether a pointer refers to an expression node. -/
def TreeNode.isExp (t : TreeNode) : Bool :=
  match t with
  | .null => false
  | .node i _ _ _ _ =>
    match i.kind with
    | .ExpK _ => true
    | .StmtK _ => false

/-- What the analyzer relies on at a node with the given scalar fields and first two
children: every operand it dereferences is present and is an expression, and the name
or operator it reads is set. -/
def NodeOK (i : NodeInfo) (c0 c1 : TreeNode) : Prop :=
  match i.kind with
  | .ExpK OpK => c0.isExp = true ∧ c1.isExp = true ∧ ∃ o, i.attr = .op o
  | .ExpK ConstK => True
  | .ExpK IdK => ∃ s, i.attr = .name s
  | .StmtK IfK => c0.isExp = true
  | .StmtK RepeatK => c1.isExp = true
  | .StmtK AssignK => c0.isExp = true ∧ ∃ s, i.attr = .name s
  | .StmtK ReadK => ∃ s, i.attr = .name s
  | .StmtK WriteK => c0.isExp = true

/-- The shape of the trees of error-free parses: `NodeOK` holds at every node. -/
def WellFormed : TreeNode → Prop
  | .null => True
  | .node i c0 c1 c2 sib =>
    WellFormed c0 ∧ WellFormed c1 ∧ WellFormed c2 ∧ WellFormed sib ∧ NodeOK i c0 c1

/-- What a derivation of each nonterminal guarantees about its tree. -/
def Shaped : NT → TreeNode → Prop
  | .termRest acc, t => WellFormed acc ∧ acc.isExp = true → WellFormed t ∧ t.isExp = true
  | .simpleRest acc, t => WellFormed acc ∧ acc.isExp = true → WellFormed t ∧ t.isExp = true
  | .seqRest acc, t => WellFormed acc → WellFormed t
  | .statement, t => WellFormed t
  | .stmt_sequence, t => WellFormed t
  | _, t => WellFormed t ∧ t.isExp = true

/-- How the identifier occurrences of the tree of a derivation relate to the
identifier tokens derived. -/
def Named : NT → List Token → TreeNode → Prop
  | .termRest acc, w, t =>
      (occurrences t).map Prod.fst = (occurrences acc).map Prod.fst ++ identifiers w
  | .simpleRest acc, w, t =>
      (occurrences t).map Prod.fst = (occurrences acc).map Prod.fst ++ identifiers w
  | .seqRest acc, w, t =>
      (occurrences t).map Prod.fst = (occurrences acc).map Prod.fst ++ identifiers w
  | _, w, t => (occurrences t).map Prod.fst = identifiers w

/-- The typing rule of the specification: an operator node is Boolean when its operator
is `=` or `<` and Integer otherwise; constants and identifiers are Integer. -/
def specType (t : TreeNode) : ExpType :=
  match t with
  | .null => Void
  | .node i _ _ _ _ =>
    match i.kind with
    | .ExpK OpK =>
      if i.attr = .op TokenType.EQ ∨ i.attr = .op TokenType.LT then Boolean else Integer
    | .ExpK ConstK => Integer
    | .ExpK IdK => Integer
    | .StmtK _ => Void

/-- Whether an expression is rooted at a comparison operator (`=` or `<`). -/
def isComparison (t : TreeNode) : Prop :=
  t.info.kind = .ExpK OpK ∧ (t.info.attr = .op TokenType.EQ ∨ t.info.attr = .op TokenType.LT)

/-- The violating nodes of the specification: an operator node with an operand whose type
is not Integer, an If or Repeat whose test does not type as Boolean, an Assign or Write
whose operand does not type as Integer. -/
def violates (t : TreeNode) : Bool :=
  match t with
  | .null => false
  | .node i c0 c1 _ _ =>
    match i.kind with
    | .ExpK OpK => decide (specType c0 ≠ Integer ∨ specType c1 ≠ Integer)
    | .StmtK IfK => decide (specType c0 ≠ Boolean)
    | .StmtK RepeatK => decide (specType c1 ≠ Boolean)
    | .StmtK AssignK => decide (specType c0 ≠ Integer)
    | .StmtK WriteK => decide (specType c0 ≠ Integer)
    | _ => false

/-- The diagnostic reported for a violating node: an operator node is reported at its own
line, a statement at the line of the offending expression. -/
def diagOf (t : TreeNode) : Diag :=
  match t.info.kind with
  | .ExpK OpK => { line := t.info.lineno, message := "Op applied to non-integer" }
  | .StmtK IfK => { line := t.child0.info.lineno, message := "if test is not Boolean" }
  | .StmtK RepeatK => { line := t.child1.info.lineno, message := "repeat test is not Boolean" }
  | .StmtK AssignK =>
      { line := t.child0.info.lineno, message := "assignment of non-integer value" }
  | .StmtK WriteK => { line := t.child0.info.lineno, message := "write of non-integer value" }
  | _ => { line := t.info.lineno, message := "" }

/-- The nodes of a tree in the post-order in which `traverse` applies `postProc`. -/
def postorder : TreeNode → List TreeNode
  | .null => []
  | .node i c0 c1 c2 sib =>
    postorder c0 ++ postorder c1 ++ postorder c2 ++ [.node i c0 c1 c2 sib] ++ postorder sib

/-! ## code.c -/

/-- The operands of an instruction line written to the `code` file: three registers
(format `r,s,t`) or a register, an offset and a base register (format `r,d(s)`). -/
inductive Operands
  | regs (r s t : Int)
  | mem (r d s : Int)
  deriving DecidableEq, Repr

/-- A line written to the `code` file: an instruction with the location printed in front
of it, its opcode, its operands and the comment printed when `TraceCode` is set, or a
comment line of `emitComment`. -/
inductive CodeLine
  | instr (loc : Int) (op : String) (args : Operands) (comment : Option String)
  | comment (c : String)
  deriving DecidableEq, Repr

/-- The global variables the emitting utilities work on: `emitLoc`, `highEmitLoc`, the
flag `TraceCode` and the lines written to the `code` file. The counters are C `int`s;
overflow of an `int` is undefined in C and the model counts in the integers. -/
structure EmitState where
  emitLoc : Int
  highEmitLoc : Int
  TraceCode : Bool
  code : List CodeLine
  deriving DecidableEq, Repr

/-- The comment `c` as an instruction line shows it: printed only when `TraceCode` is
set. -/
def traced (e : EmitState) (c : String) : Option String :=
  if e.TraceCode then some c else none

/-- The procedure `emitComment`. -/
def emitComment (c : String) (e : EmitState) : EmitState :=
  if e.TraceCode then { e with code := e.code ++ [.comment c] } else e

/-- The statement `if (highEmitLoc < emitLoc) highEmitLoc = emitLoc`. -/
def raiseHigh (e : EmitState) : EmitState :=
  if e.highEmitLoc < e.emitLoc then { e with highEmitLoc := e.emitLoc } else e

/-- The procedure `emitRO`. -/
def emitRO (op : String) (r s t : Int) (c : String) (e : EmitState) : EmitState :=
  raiseHigh { e with code := e.code ++ [.instr e.emitLoc op (.regs r s t) (traced e c)],
                     emitLoc := e.emitLoc + 1 }

/-- The procedure `emitRM`. -/
def emitRM (op : String) (r d s : Int) (c : String) (e : EmitState) : EmitState :=
  raiseHigh { e with code := e.code ++ [.instr e.emitLoc op (.mem r d s) (traced e c)],
                     emitLoc := e.emitLoc + 1 }

/-- The function `emitSkip`: the value returned and the globals afterwards. -/
def emitSkip (howMany : Int) (e : EmitState) : Int × EmitState :=
  (e.emitLoc, raiseHigh { e with emitLoc := e.emitLoc + howMany })

/-- The procedure `emitBackup`. -/
def emitBackup (loc : Int) (e : EmitState) : EmitState :=
  let e1 := if loc > e.highEmitLoc then emitComment "BUG in emitBackup" e else e
  { e1 with emitLoc := loc }

/-- The procedure `emitRestore`. -/
def emitRestore (e : EmitState) : EmitState :=
  { e with emitLoc := e.highEmitLoc }

/-- The procedure `emitRM_Abs`. The macro `pc` of `code.h`, which is not part of the
sources, is a parameter: the number of the register that holds the program counter. -/
def emitRM_Abs (pc : Int) (op : String) (r a : Int) (c : String) (e : EmitState) : EmitState :=
  raiseHigh { e with
    code := e.code ++ [.instr e.emitLoc op (.mem r (a - (e.emitLoc + 1)) pc) (traced e c)],
    emitLoc := e.emitLoc + 1 }

/-- A call of one of the three procedures that emit an instruction, with its
arguments. -/
inductive Emission
  | RO (op : String) (r s t : Int) (c : String)
  | RM (op : String) (r d s : Int) (c : String)
  | RM_Abs (op : String) (r a : Int) (c : String)
  deriving DecidableEq, Repr

/-- The call of an emitting procedure; `pc` is the macro of `code.h`. -/
def Emission.emit (pc : Int) (i : Emission) (e : EmitState) : EmitState :=
  match i with
  | .RO op r s t c => emitRO op r s t c e
  | .RM op r d s c => emitRM op r d s c e
  | .RM_Abs op r a c => emitRM_Abs pc op r a c e

/-- The calls of a sequence of emissions, one after the other. -/
def emitAll (pc : Int) (body : List Emission) (e : EmitState) : EmitState :=
  body.foldl (fun e i => i.emit pc e) e

/-- The location printed in front of a line of the `code` file, if it is an
instruction. -/
def CodeLine.location (l : CodeLine) : Option Int :=
  match l with
  | .instr loc _ _ _ => some loc
  | .comment _ => none

/-! ## Termination of the parser -/

/-- The input the parser has not consumed yet, as a number: the characters the scanner
can still read, and one more for a lookahead token other than `ENDFILE`. -/
def ParseState.unread (st : ParseState) : Nat :=
  st.scan.remaining + (if st.token = ENDFILE then 0 else 1)

/-- The depth to which the parsing function of a nonterminal can call other parsing
functions before a token is consumed. -/
def NT.rank : NT → Nat
  | .factor => 1
  | .termRest _ => 1
  | .term => 2
  | .simpleRest _ => 1
  | .simple_exp => 3
  | .exp => 4
  | .statement => 2
  | .seqRest _ => 3
  | .stmt_sequence => 4

/-- A bound on the nesting of calls and loop iterations of `parse` on a source text:
every token consumed allows at most four more of them. -/
def parseFuel (src : List Char) : Nat :=
  4 * src.length + 4

/-- The scanner globals hold no byte `0xFF`: neither `lineBuf` nor the part of the
source stream not yet read contains one. -/
def ScanState.NoFF (s : ScanState) : Prop :=
  (∀ c ∈ s.lineBuf, c ≠ Char.ofNat 255) ∧ ∀ c ∈ s.source, c ≠ Char.ofNat 255

/-! ## main.c -/

/-- The phases of the compiler that `main` calls. -/
inductive Phase
  | parse | buildSymtab | typeCheck | codeGen
  deriving DecidableEq, Repr

/-- What `main` has done when it returns or exits: the phases it called, in order, the
syntax tree, the flag `Error` and the diagnostics written to `listing`. -/
structure MainResult where
  calls : List Phase
  syntaxTree : TreeNode
  Error : Bool
  listing : List Diag
  deriving DecidableEq, Repr

/-- The function `main` (with `NO_PARSE`, `NO_ANALYZE` and `NO_CODE` all `FALSE`) from
the point where the source file has been opened: `src` is its text and `codeOpens` tells
whether the code file can be opened for writing; if not, `main` exits before it calls
`codeGen`. The procedure `codeGen` of `cgen.c` is not part of the sources; only the call
is recorded. The recursion of `parse` is bounded by `parseFuel`. -/
def main (codeOpens : Bool) (src : List Char) : Option MainResult :=
  (parse (parseFuel src) (ParseState.init src)).map fun r =>
    let m0 : MainResult :=
      { calls := [.parse], syntaxTree := r.1, Error := r.2.Error, listing := r.2.listing }
    let m1 : MainResult :=
      if ¬ m0.Error then
        let r1 := buildSymtab r.1 (AnalyzeState.init r.2)
        let r2 := typeCheck r1.1 r1.2
        { calls := m0.calls ++ [.buildSymtab, .typeCheck], syntaxTree := r2.1,
          Error := r2.2.Error, listing := r2.2.listing }
      else m0
    if ¬ m1.Error then
      if codeOpens then { m1 with calls := m1.calls ++ [.codeGen] } else m1
    else m1

/-! ## The typing rule -/

/-- The scalar fields of a node once the typing rule of the specification has been
applied to it: the type of an operator node is Boolean when its operator is `=` or `<`
and Integer otherwise, the type of a constant and of an identifier is Integer; nothing
else changes, and nothing changes at a statement node. -/
def typedInfo (i : NodeInfo) : NodeInfo :=
  match i.kind with
  | .ExpK OpK =>
    { i with type := if i.attr = .op TokenType.EQ ∨ i.attr = .op TokenType.LT then Boolean
                     else Integer }
  | .ExpK ConstK => { i with type := Integer }
  | .ExpK IdK => { i with type := Integer }
  | .StmtK _ => i

/-- The tree with the typing rule of the specification applied to each of its nodes. -/
def typed : TreeNode → TreeNode
  | .null => .null
  | .node i c0 c1 c2 sib => .node (typedInfo i) (typed c0) (typed c1) (typed c2) (typed sib)

/-- Two trees of the same structure whose nodes agree in every field, except for the
type field of expression nodes. -/
def SameButExpTypes : TreeNode → TreeNode → Prop
  | .null, .null => True
  | .node i c0 c1 c2 sib, .node j d0 d1 d2 sib' =>
    j.kind = i.kind ∧ j.attr = i.attr ∧ j.lineno = i.lineno ∧
    ((∀ k, i.kind ≠ .ExpK k) → j.type = i.type) ∧
    SameButExpTypes c0 d0 ∧ SameButExpTypes c1 d1 ∧ SameButExpTypes c2 d2 ∧
    SameButExpTypes sib sib'
  | _, _ => False

/-! ## Lines and the first character of a token -/

/-- Whether every line of a text ends with a newline and fits into `lineBuf` together
with it, that is, has at most `BUFLEN - 3` characters before the newline (`fgets` is
called with `BUFLEN - 1` and stores at most `BUFLEN - 2` characters); `k` is the number of
characters that precede the text on its first line. -/
def fitsLines : Nat → List Char → Bool
  | k, [] => k == 0
  | k, c :: cs =>
    if c = '\n' then fitsLines 0 cs else decide (k + 3 < BUFLEN) && fitsLines (k + 1) cs

/-- The number of characters of white space and comments in front of the first character
of the next token of a character stream; the flag tells whether the stream starts inside
a comment. -/
def layout : Bool → List Char → Nat
  | _, [] => 0
  | false, c :: cs =>
    if c = ' ' ∨ c = '\t' ∨ c = '\n' then layout false cs + 1
    else if c = '{' then layout true cs + 1
    else 0
  | true, c :: cs => if c = '}' then layout false cs + 1 else layout true cs + 1

/-- The positions of the first characters of at most `fuel` successive tokens of a
character stream that starts at position `pos` of the source text. -/
def offsetsS : Nat → Nat → List Char → List Nat
  | 0, _, _ => []
  | fuel + 1, pos, cs =>
    if (lexS START [] cs).1 = ENDFILE then []
    else (pos + layout false cs) ::
      offsetsS fuel (pos + (cs.length - (lexS START [] cs).2.2.length)) (lexS START [] cs).2.2

/-- The positions in a source text (counted from 0) of the first characters of its
tokens. -/
def tokenOffsets (src : List Char) : List Nat :=
  offsetsS (src.length + 1) 0 src

/-- The 1-based number of the line on which the character at position `p` of a text
lies: one more than the number of newline characters before it. -/
def lineAt (src : List Char) (p : Nat) : Nat :=
  1 + (src.take p).count '\n'

/-- The number of the line of the next character `getNextChar` reads: the line in
`lineBuf` while the cursor is inside it, the next one when the buffer is used up. -/
def ScanState.lineOf (s : ScanState) : Nat :=
  if s.linepos < s.bufsize then s.lineno else s.lineno + 1

/-- The states of the scanner globals that occur while a text whose lines fit into
`lineBuf` is scanned, before its end is met: the unread part of `lineBuf` is the rest of
a line with its newline, the rest of the source consists of such lines, and `lineno`
counts the lines; `total` is the number of newline characters of the text. -/
def ScanState.LineInv (total : Nat) (s : ScanState) : Prop :=
  fitsLines 0 s.source = true ∧
  (s.linepos < s.bufsize → ∃ body, s.lineBuf.drop s.linepos = body ++ ['\n'] ∧ '\n' ∉ body) ∧
  s.lineOf + s.pending.count '\n' = total + 1

/-! ## The condition check with `!= Boolean` -/

/-- The variant of `checkNode` the specification asks about: the test of an If or Repeat
node is an error when its type is not Boolean (instead of: when it is Integer); every
other case is the one of `checkNode`. -/
def checkNodeNotBoolean (t : TreeNode) (a : AnalyzeState) : NodeInfo × AnalyzeState :=
  match t.info.kind with
  | .StmtK IfK =>
    (t.info, if t.child0.type ≠ Boolean then typeError t.child0 "if test is not Boolean" a
             else a)
  | .StmtK RepeatK =>
    (t.info, if t.child1.type ≠ Boolean then typeError t.child1 "repeat test is not Boolean" a
             else a)
  | _ => checkNode t a

/-- The procedure `typeCheck` with the variant of `checkNode`. -/
def typeCheckNotBoolean (syntaxTree : TreeNode) (a : AnalyzeState) : TreeNode × AnalyzeState :=
  traverse nullProc checkNodeNotBoolean syntaxTree a

/-! ## Sequences of calls of the emitting utilities -/

/-- A call of one of the utilities of `code.c` that work on `emitLoc` and `highEmitLoc`:
an instruction emission, `emitSkip(howMany)`, `emitBackup(loc)` or `emitRestore()`. -/
inductive EmitOp
  | emit (i : Emission)
  | skip (howMany : Int)
  | backup (loc : Int)
  | restore
  deriving DecidableEq, Repr

/-- The globals after a call; `pc` is the macro of `code.h`. -/
def EmitOp.run (pc : Int) (op : EmitOp) (e : EmitState) : EmitState :=
  match op with
  | .emit i => i.emit pc e
  | .skip howMany => (emitSkip howMany e).2
  | .backup loc => emitBackup loc e
  | .restore => emitRestore e

/-- The calls the code generator may make in a state: `emitSkip(n)` with `n >= 0` and
`emitBackup(loc)` with `0 <= loc <= highEmitLoc`; the other calls always. -/
def EmitOp.Admissible (op : EmitOp) (e : EmitState) : Prop :=
  match op with
  | .skip howMany => 0 ≤ howMany
  | .backup loc => 0 ≤ loc ∧ loc ≤ e.highEmitLoc
  | _ => True

/-- A sequence of calls each of which is admissible in the state it is made in. -/
def AdmissibleOps (pc : Int) : List EmitOp → EmitState → Prop
  | [], _ => True
  | op :: ops, e => op.Admissible e ∧ AdmissibleOps pc ops (op.run pc e)

/-- The states of the globals in the course of a sequence of calls: the state before the
first call and the state after each call, in order. -/
def emitTrace (pc : Int) : List EmitOp → EmitState → List EmitState
  | [], e => [e]
  | op :: ops, e => e :: emitTrace pc ops (op.run pc e)

/-- The globals after a sequence of calls. -/
def emitRun (pc : Int) (ops : List EmitOp) (e : EmitState) : EmitState :=
  ops.foldl (fun e op => op.run pc e) e

/-! ## The syntax tree of a derivation, in the words of the specification -/

/-- Following the words of the specification: the number that a numeral denotes. The
numeral is a string of decimal digits; the digit in front of `k` further digits counts
`10 ^ k` times its value. -/
def decimal : List Char → Nat
  | [] => 0
  | c :: cs => (c.toNat - '0'.toNat) * 10 ^ cs.length + decimal cs

/-- Following the words of the specification: the grammar of the language, from
`stmt-sequence := statement ( ';' statement )*` down to
`factor := NUMBER | IDENT | '(' exp ')'`, together with the syntax tree of each phrase,
every node written out field by field; no function of the parser takes part in it.
`Ast nt w t` says that the token sequence `w` is a phrase of the nonterminal `nt` and
that `t` is its tree.
A number is a `ConstK` node that stores the value of the numeral, an identifier an `IdK`
node that stores the name. An operator is an `OpK` node that stores the operator, with
`child[0]` the tree of all that precedes the operator in the `term` or `simple-exp` and
`child[1]` the tree of the operand after it. An `IfK` node has `child[0]` the test,
`child[1]` the then-sequence and `child[2]` the else-sequence or null; a `RepeatK` node
has `child[0]` the body and `child[1]` the test; an `AssignK` node stores the name of
its target and has `child[0]` the operand; a `ReadK` node stores the name; a `WriteK`
node has `child[0]` the operand. The tree of a statement sequence is the node of its
first statement, whose `sibling` is the tree of the statements after the `;`. -/
inductive Ast : NT → List Token → TreeNode → Prop
  | num (tk : Token) : tk.kind = NUM →
      Ast .factor [tk]
        (.node { kind := .ExpK ConstK, attr := .val (decimal tk.str), lineno := tk.line,
                 type := Void } .null .null .null .null)
  | ident (tk : Token) : tk.kind = ID →
      Ast .factor [tk]
        (.node { kind := .ExpK IdK, attr := .name tk.str, lineno := tk.line, type := Void }
          .null .null .null .null)
  | paren (l r : Token) (w : List Token) (e : TreeNode) :
      l.kind = LPAREN → Ast .exp w e → r.kind = RPAREN → Ast .factor (l :: w ++ [r]) e
  | termFactor (w : List Token) (t : TreeNode) : Ast .factor w t → Ast .term w t
  | termOp (w0 w1 : List Token) (o : Token) (l r : TreeNode) :
      Ast .term w0 l → o.kind = TIMES ∨ o.kind = OVER → Ast .factor w1 r →
      Ast .term (w0 ++ o :: w1)
        (.node { kind := .ExpK OpK, attr := .op o.kind, lineno := o.line, type := Void }
          l r .null .null)
  | simpleTerm (w : List Token) (t : TreeNode) : Ast .term w t → Ast .simple_exp w t
  | simpleOp (w0 w1 : List Token) (o : Token) (l r : TreeNode) :
      Ast .simple_exp w0 l → o.kind = PLUS ∨ o.kind = MINUS → Ast .term w1 r →
      Ast .simple_exp (w0 ++ o :: w1)
        (.node { kind := .ExpK OpK, attr := .op o.kind, lineno := o.line, type := Void }
          l r .null .null)
  | expSimple (w : List Token) (t : TreeNode) : Ast .simple_exp w t → Ast .exp w t
  | expRel (w0 w1 : List Token) (o : Token) (l r : TreeNode) :
      Ast .simple_exp w0 l → o.kind = TokenType.LT ∨ o.kind = TokenType.EQ →
      Ast .simple_exp w1 r →
      Ast .exp (w0 ++ o :: w1)
        (.node { kind := .ExpK OpK, attr := .op o.kind, lineno := o.line, type := Void }
          l r .null .null)
  | ifThen (i th en : Token) (we ws : List Token) (e s : TreeNode) :
      i.kind = IF → Ast .exp we e → th.kind = THEN → Ast .stmt_sequence ws s →
      en.kind = END →
      Ast .statement (i :: we ++ th :: ws ++ [en])
        (.node { kind := .StmtK IfK, attr := .unset, lineno := i.line, type := Void }
          e s .null .null)
  | ifElse (i th el en : Token) (we ws wf : List Token) (e s f : TreeNode) :
      i.kind = IF → Ast .exp we e → th.kind = THEN → Ast .stmt_sequence ws s →
      el.kind = ELSE → Ast .stmt_sequence wf f → en.kind = END →
      Ast .statement (i :: we ++ th :: ws ++ el :: wf ++ [en])
        (.node { kind := .StmtK IfK, attr := .unset, lineno := i.line, type := Void }
          e s f .null)
  | repeatUntil (r u : Token) (ws we : List Token) (s e : TreeNode) :
      r.kind = REPEAT → Ast .stmt_sequence ws s → u.kind = UNTIL → Ast .exp we e →
      Ast .statement (r :: ws ++ u :: we)
        (.node { kind := .StmtK RepeatK, attr := .unset, lineno := r.line, type := Void }
          s e .null .null)
  | assign (i a : Token) (w : List Token) (e : TreeNode) :
      i.kind = ID → a.kind = ASSIGN → Ast .exp w e →
      Ast .statement (i :: a :: w)
        (.node { kind := .StmtK AssignK, attr := .name i.str, lineno := i.line, type := Void }
          e .null .null .null)
  | read (r i : Token) : r.kind = READ → i.kind = ID →
      Ast .statement [r, i]
        (.node { kind := .StmtK ReadK, attr := .name i.str, lineno := r.line, type := Void }
          .null .null .null .null)
  | write (wr : Token) (w : List Token) (e : TreeNode) :
      wr.kind = WRITE → Ast .exp w e →
      Ast .statement (wr :: w)
        (.node { kind := .StmtK WriteK, attr := .unset, lineno := wr.line, type := Void }
          e .null .null .null)
  | seqOne (w : List Token) (s : TreeNode) : Ast .statement w s → Ast .stmt_sequence w s
  | seqMore (w0 w1 : List Token) (semi : Token) (i : NodeInfo) (c0 c1 c2 rest : TreeNode) :
      Ast .statement w0 (.node i c0 c1 c2 .null) → semi.kind = SEMI →
      Ast .stmt_sequence w1 rest →
      Ast .stmt_sequence (w0 ++ semi :: w1) (.node i c0 c1 c2 rest)

/-! # Properties -/

/-! ## The scanner reads the input once -/

theorem readLine_length_le (k : Nat) (src : List Char) : (readLine k src).length ≤ src.length := by
  induction k generalizing src with
  | zero => simp [readLine]
  | succ k ih =>
    cases src with
    | nil => simp [readLine]
    | cons c cs =>
      simp only [readLine]
      split
      · simp
      · simp [ih cs]

theorem readLine_pos (k : Nat) (hk : 0 < k) (c : Char) (cs : List Char) :
    0 < (readLine k (c :: cs)).length := by
  obtain ⟨m, rfl⟩ : ∃ m, k = m + 1 := ⟨k - 1, by omega⟩
  simp only [readLine]
  split <;> simp

theorem strlen_le (buf : List Char) : strlen buf ≤ buf.length := by
  unfold strlen
  exact (List.takeWhile_sublist _).length_le

/-- A call of `getNextChar` reads a character, or it meets the end of the file, returns
`EOF` and sets `EOF_flag`. -/
theorem getNextChar_lt_or_eof (s : ScanState) :
    (getNextChar s).2.remaining < s.remaining ∨
    ((getNextChar s).1 = none ∧ (getNextChar s).2.EOF_flag = true ∧
      (getNextChar s).2.remaining ≤ s.remaining) := by
  unfold getNextChar
  by_cases hlt : s.linepos < s.bufsize
  · left
    simp only [hlt, not_true_eq_false, if_false, ScanState.remaining]
    omega
  · simp only [hlt, not_false_eq_true, if_true]
    cases hs : s.source with
    | nil => right; simp [fgets, ScanState.remaining, hs]
    | cons a as =>
      left
      simp only [fgets, ScanState.remaining]
      rw [hs]
      have h1 := readLine_length_le (BUFLEN - 1 - 1) (a :: as)
      have h2 := readLine_pos (BUFLEN - 1 - 1) (by decide) a as
      have h3 := strlen_le (readLine (BUFLEN - 1 - 1) (a :: as))
      simp only [List.length_drop, List.length_cons] at *
      omega

theorem getNextChar_some_lt (s : ScanState) (c : Char) (h : (getNextChar s).1 = some c) :
    (getNextChar s).2.remaining < s.remaining := by
  rcases getNextChar_lt_or_eof s with h1 | ⟨h1, _, _⟩
  · exact h1
  · rw [h1] at h; cases h

theorem getNextChar_le (s : ScanState) : (getNextChar s).2.remaining ≤ s.remaining := by
  rcases getNextChar_lt_or_eof s with h1 | ⟨_, _, h1⟩
  · exact h1.le
  · exact h1

theorem ungetNextChar_le (s : ScanState) : (ungetNextChar s).remaining ≤ s.remaining + 1 := by
  unfold ungetNextChar ScanState.remaining
  split
  · show s.source.length + (s.bufsize - (s.linepos - 1)) ≤ _
    omega
  · omega

theorem ungetNextChar_EOF (s : ScanState) (h : s.EOF_flag = true) : ungetNextChar s = s := by
  simp [ungetNextChar, h]

/-- After reading a character and possibly pushing it back, no more characters remain
than before; strictly fewer when a character was read and kept. -/
theorem unget_getNextChar_le (s : ScanState) :
    (ungetNextChar (getNextChar s).2).remaining ≤ s.remaining := by
  rcases getNextChar_lt_or_eof s with h1 | ⟨_, h1, h2⟩
  · have h2 := ungetNextChar_le (getNextChar s).2
    omega
  · rw [ungetNextChar_EOF _ h1]; exact h2


theorem startToken_none_iff (c : Option Char) : (startToken c).1 = ENDFILE ↔ c = none := by
  cases c with
  | none => simp [startToken]
  | some ch =>
    simp only [startToken]
    split_ifs <;> simp

theorem saveChar_state (c : Option Char) (l : LoopState) : (saveChar c l).state = l.state := by
  unfold saveChar; split <;> rfl

theorem saveChar_currentToken (c : Option Char) (l : LoopState) :
    (saveChar c l).currentToken = l.currentToken := by
  unfold saveChar; split <;> rfl

theorem saveChar_remaining (c : Option Char) (l : LoopState) :
    (saveChar c l).scan.remaining = l.scan.remaining := by
  unfold saveChar; split <;> rfl

theorem finishToken_state (l : LoopState) : (finishToken l).state = l.state := by
  unfold finishToken; split_ifs <;> rfl

theorem finishToken_scan (l : LoopState) : (finishToken l).scan = l.scan := by
  unfold finishToken; split_ifs <;> rfl

theorem reservedLookup_ne_ENDFILE (s : List Char) : reservedLookup s ≠ ENDFILE := by
  simp only [reservedLookup, reservedWords, reservedSearch]
  split_ifs <;> simp

theorem finishToken_ENDFILE (l : LoopState) :
    (finishToken l).currentToken = ENDFILE ↔ l.currentToken = ENDFILE := by
  unfold finishToken
  split_ifs with h1 h2
  · simp [h2, reservedLookup_ne_ENDFILE]
  · rfl
  · rfl

/-- The effect of the `switch` on the scanner globals and the conditions under which
the loop goes on. -/
theorem switchState_scan (c : Option Char) (l : LoopState) (hl : l.state ≠ DONE) :
    ((switchState c l).scan = l.scan ∨ (switchState c l).scan = ungetNextChar l.scan) ∧
    ((switchState c l).state ≠ DONE → c ≠ none ∧ (switchState c l).scan = l.scan) ∧
    ((l.state = START ∨ l.state = INCOMMENT) →
      (switchState c l).scan = l.scan ∧
      ((switchState c l).currentToken ≠ ENDFILE → (switchState c l).state = DONE → c ≠ none)) := by
  obtain ⟨state, cur, save, scan⟩ := l
  have hst := startToken_none_iff c
  cases state
  · simp only [switchState]
    cases c <;> split_ifs <;> simp_all [isdigit, isalpha]
  · simp only [switchState]
    cases c <;> split_ifs <;> simp_all
  · simp only [switchState]
    cases c <;> split_ifs <;> simp_all
  · simp only [switchState]
    cases c <;> split_ifs <;> simp_all [isdigit]
  · simp only [switchState]
    cases c <;> split_ifs <;> simp_all [isalpha]
  · simp at hl

theorem loopBody_remaining (l : LoopState) (hl : l.state ≠ DONE) :
    (loopBody l).scan.remaining ≤ l.scan.remaining ∧
    ((loopBody l).state ≠ DONE → (loopBody l).scan.remaining < l.scan.remaining) ∧
    ((l.state = START ∨ l.state = INCOMMENT) → (loopBody l).currentToken ≠ ENDFILE →
      (loopBody l).state = DONE → (loopBody l).scan.remaining < l.scan.remaining) := by
  have hu := unget_getNextChar_le l.scan
  have hg := getNextChar_le l.scan
  have hs := getNextChar_some_lt l.scan
  obtain ⟨h1, h2, h3⟩ := switchState_scan (getNextChar l.scan).1
    { l with save := true, scan := (getNextChar l.scan).2 } hl
  simp only [loopBody, finishToken_state, saveChar_state, finishToken_scan, saveChar_remaining,
    finishToken_ENDFILE, saveChar_currentToken]
  refine ⟨?_, ?_, ?_⟩
  · rcases h1 with h | h <;> rw [h] <;> assumption
  · intro hd
    obtain ⟨hc, hsc⟩ := h2 hd
    rw [hsc]
    obtain ⟨c, hc'⟩ := Option.ne_none_iff_exists'.mp hc
    exact hs c hc'
  · intro hst htok hd
    obtain ⟨hsc, hc⟩ := h3 hst
    rw [hsc]
    have htok' := (finishToken_ENDFILE _).not.mp htok
    rw [saveChar_currentToken] at htok'
    obtain ⟨c, hc'⟩ := Option.ne_none_iff_exists'.mp (hc htok' hd)
    exact hs c hc'

theorem getTokenLoop_DONE (fuel : Nat) (l : LoopState) (h : l.state = DONE) :
    getTokenLoop fuel l = l := by
  cases fuel <;> simp [getTokenLoop, h]

theorem getTokenLoop_remaining (fuel : Nat) (l : LoopState) (hl : l.state ≠ DONE)
    (hf : l.scan.remaining + 1 ≤ fuel) :
    (getTokenLoop fuel l).state = DONE ∧
    (getTokenLoop fuel l).scan.remaining ≤ l.scan.remaining ∧
    ((l.state = START ∨ l.state = INCOMMENT) → (getTokenLoop fuel l).currentToken ≠ ENDFILE →
      (getTokenLoop fuel l).scan.remaining < l.scan.remaining) := by
  induction fuel generalizing l with
  | zero => omega
  | succ n ih =>
    obtain ⟨h1, h2, h3⟩ := loopBody_remaining l hl
    simp only [getTokenLoop, hl, if_false]
    by_cases hd : (loopBody l).state = DONE
    · rw [getTokenLoop_DONE _ _ hd]
      exact ⟨hd, h1, fun a b => h3 a b hd⟩
    · have := h2 hd
      obtain ⟨i1, i2, _⟩ := ih (loopBody l) hd (by omega)
      exact ⟨i1, by omega, fun _ _ => by omega⟩

theorem getToken_remaining_le (s : ScanState) : (getToken s).2.remaining ≤ s.remaining :=
  (getTokenLoop_remaining (s.remaining + 1)
    { state := START, currentToken := ERROR, save := true, scan := { s with tokenString := [] } }
    (by simp) (le_refl _)).2.1

theorem getToken_remaining_lt (s : ScanState) (h : (getToken s).1 ≠ ENDFILE) :
    (getToken s).2.remaining < s.remaining :=
  (getTokenLoop_remaining (s.remaining + 1)
    { state := START, currentToken := ERROR, save := true, scan := { s with tokenString := [] } }
    (by simp) (le_refl _)).2.2 (Or.inl rfl) h

theorem scanTokens_succ (n : Nat) (s : ScanState) :
    scanTokens (n + 1) s =
      if (getToken s).1 = ENDFILE then []
      else { kind := (getToken s).1, str := (getToken s).2.tokenString,
             line := (getToken s).2.lineno } :: scanTokens n (getToken s).2 := rfl

theorem scanTokens_fuel (fuel : Nat) (s : ScanState) (hf : s.remaining + 1 ≤ fuel) :
    scanTokens fuel s = scanTokens (s.remaining + 1) s := by
  induction fuel using Nat.strong_induction_on generalizing s with
  | _ fuel ih =>
    obtain ⟨n, rfl⟩ : ∃ n, fuel = n + 1 := ⟨fuel - 1, by omega⟩
    rw [scanTokens_succ, scanTokens_succ]
    split_ifs with h
    · rfl
    · have hlt := getToken_remaining_lt s h
      rw [ih n (by omega) _ (by omega), ih s.remaining (by omega) _ (by omega)]

/-- The token sequence of the rest of the input is the next token followed by the
token sequence of what follows it. -/
theorem scanRest_unfold (s : ScanState) :
    scanRest s =
      if (getToken s).1 = ENDFILE then []
      else { kind := (getToken s).1, str := (getToken s).2.tokenString,
             line := (getToken s).2.lineno } :: scanRest (getToken s).2 := by
  unfold scanRest
  rw [scanTokens_succ]
  split_ifs with h
  · rfl
  · have hlt := getToken_remaining_lt s h
    rw [scanTokens_fuel s.remaining _ (by omega)]

/-! ## Soundness of the parser -/

theorem nextToken_Error (st : ParseState) : (nextToken st).Error = st.Error := rfl

theorem nextToken_listing (st : ParseState) : (nextToken st).listing = st.listing := rfl

theorem syntaxError_Error (m : String) (st : ParseState) : (syntaxError m st).Error = true := rfl

theorem toks_nextToken (st : ParseState) : toks (nextToken st) = scanRest st.scan := by
  rw [scanRest_unfold]
  rfl

theorem toks_eq_cons (st : ParseState) (h : st.token ≠ ENDFILE) :
    toks st = st.cur :: toks (nextToken st) := by
  rw [toks_nextToken]
  simp [toks, h]

theorem toks_eq_nil (st : ParseState) (h : st.token = ENDFILE) : toks st = [] := by
  simp [toks, h]

/-- A call of `match` that leaves the error flag clear has consumed the expected
token. -/
theorem match_clear (e : TokenType) (st : ParseState) (he : e ≠ ENDFILE)
    (h : (match_ e st).Error = false) :
    st.Error = false ∧ st.token = e ∧ toks st = st.cur :: toks (match_ e st) := by
  unfold match_ at h ⊢
  split_ifs at h ⊢ with hte
  · exact ⟨h, hte, toks_eq_cons st (hte ▸ he)⟩
  · simp [syntaxError] at h

theorem derives_statement_node (w : List Token) (t : TreeNode) (h : Derives .statement w t) :
    ∃ i c0 c1 c2, t = .node i c0 c1 c2 .null := by
  cases h <;> exact ⟨_, _, _, _, rfl⟩

theorem linkStmt_node (acc : TreeNode) (i : NodeInfo) (c0 c1 c2 sib : TreeNode) :
    linkStmt acc (.node i c0 c1 c2 sib) = acc.setLastSibling (.node i c0 c1 c2 sib) := by
  cases acc <;> simp [linkStmt, TreeNode.setLastSibling]

/-- Soundness of the parsing functions: a call that returns with the error flag clear
was entered with the flag clear and has consumed a token sequence derived from its
nonterminal, returning the tree of the derivation. -/
theorem run_sound (n : Nat) : ∀ (nt : NT) (st : ParseState) (t : TreeNode) (st' : ParseState),
    run nt n st = some (t, st') → st'.Error = false →
    st.Error = false ∧ ∃ w, toks st = w ++ toks st' ∧ Derives nt w t := by
  induction n using Nat.strong_induction_on with
  | _ n ih =>
    intro nt st t st' h herr
    cases n with
    | zero => cases nt <;> simp [run, factor, term, term_loop, simple_exp, simple_exp_loop, exp, statement, stmt_sequence, stmt_sequence_loop] at h
    | succ n =>
      have ihn := ih n (Nat.lt_succ_self n)
      cases nt with
      | factor =>
        simp only [run, factor] at h
        split at h
        · -- NUM
          rename_i hk
          simp only [Option.some.injEq, Prod.mk.injEq] at h
          obtain ⟨rfl, rfl⟩ := h
          obtain ⟨h1, h2, h3⟩ := match_clear NUM st (by decide) herr
          exact ⟨h1, [st.cur], by simpa using h3, Derives.num st.cur hk⟩
        · rename_i hk
          simp only [Option.some.injEq, Prod.mk.injEq] at h
          obtain ⟨rfl, rfl⟩ := h
          obtain ⟨h1, h2, h3⟩ := match_clear ID st (by decide) herr
          exact ⟨h1, [st.cur], by simpa using h3, Derives.ident st.cur hk⟩
        · rename_i hk
          rw [Option.bind_eq_some] at h
          obtain ⟨⟨e, st1⟩, he, h⟩ := h
          simp only [Option.some.injEq, Prod.mk.injEq] at h
          obtain ⟨rfl, rfl⟩ := h
          obtain ⟨h1, h2, h3⟩ := match_clear RPAREN st1 (by decide) herr
          obtain ⟨g1, w, g2, g3⟩ := ihn .exp _ _ _ he h1
          obtain ⟨k1, k2, k3⟩ := match_clear LPAREN st (by decide) g1
          refine ⟨k1, st.cur :: w ++ [st1.cur], ?_, Derives.paren _ _ _ _ hk g3 h2⟩
          rw [k3, g2, h3]; simp
        · simp only [Option.some.injEq, Prod.mk.injEq] at h
          obtain ⟨rfl, rfl⟩ := h
          simp [nextToken, syntaxError] at herr
      | term =>
        simp only [run, term] at h
        rw [Option.bind_eq_some] at h
        obtain ⟨⟨f, st1⟩, hf, h⟩ := h
        obtain ⟨g1, w1, g2, g3⟩ := ihn (.termRest f) _ _ _ h herr
        obtain ⟨k1, w0, k2, k3⟩ := ihn .factor _ _ _ hf g1
        exact ⟨k1, w0 ++ w1, by rw [k2, g2]; simp, Derives.term _ _ _ _ k3 g3⟩
      | termRest acc =>
        simp only [run, term_loop] at h
        split_ifs at h with hc
        · rw [Option.bind_eq_some] at h
          obtain ⟨⟨f, st1⟩, hf, h⟩ := h
          obtain ⟨g1, w1, g2, g3⟩ := ihn (.termRest (opNode st.cur acc f)) _ _ _ h herr
          obtain ⟨k1, w0, k2, k3⟩ := ihn .factor _ _ _ hf g1
          obtain ⟨m1, _, m3⟩ := match_clear st.token st (by rcases hc with hc | hc <;> simp [hc]) k1
          exact ⟨m1, st.cur :: w0 ++ w1, by rw [m3, k2, g2]; simp,
            Derives.termCons _ _ _ _ _ _ hc k3 g3⟩
        · simp only [Option.some.injEq, Prod.mk.injEq] at h
          obtain ⟨rfl, rfl⟩ := h
          exact ⟨herr, [], by simp, Derives.termNil _⟩
      | simple_exp =>
        simp only [run, simple_exp] at h
        rw [Option.bind_eq_some] at h
        obtain ⟨⟨f, st1⟩, hf, h⟩ := h
        obtain ⟨g1, w1, g2, g3⟩ := ihn (.simpleRest f) _ _ _ h herr
        obtain ⟨k1, w0, k2, k3⟩ := ihn .term _ _ _ hf g1
        exact ⟨k1, w0 ++ w1, by rw [k2, g2]; simp, Derives.simple _ _ _ _ k3 g3⟩
      | simpleRest acc =>
        simp only [run, simple_exp_loop] at h
        split_ifs at h with hc
        · rw [Option.bind_eq_some] at h
          obtain ⟨⟨f, st1⟩, hf, h⟩ := h
          obtain ⟨g1, w1, g2, g3⟩ := ihn (.simpleRest (opNode st.cur acc f)) _ _ _ h herr
          obtain ⟨k1, w0, k2, k3⟩ := ihn .term _ _ _ hf g1
          obtain ⟨m1, _, m3⟩ := match_clear st.token st (by rcases hc with hc | hc <;> simp [hc]) k1
          exact ⟨m1, st.cur :: w0 ++ w1, by rw [m3, k2, g2]; simp,
            Derives.simpleCons _ _ _ _ _ _ hc k3 g3⟩
        · simp only [Option.some.injEq, Prod.mk.injEq] at h
          obtain ⟨rfl, rfl⟩ := h
          exact ⟨herr, [], by simp, Derives.simpleNil _⟩
      | exp =>
        simp only [run, exp] at h
        rw [Option.bind_eq_some] at h
        obtain ⟨⟨l, st1⟩, hl, h⟩ := h
        dsimp only at h
        split_ifs at h with hc
        · rw [Option.bind_eq_some] at h
          obtain ⟨⟨r, st2⟩, hr, h⟩ := h
          simp only [Option.some.injEq, Prod.mk.injEq] at h
          obtain ⟨rfl, rfl⟩ := h
          obtain ⟨g1, w1, g2, g3⟩ := ihn .simple_exp _ _ _ hr herr
          obtain ⟨m1, _, m3⟩ := match_clear st1.token st1
            (by rcases hc with hc | hc <;> simp [hc]) g1
          obtain ⟨k1, w0, k2, k3⟩ := ihn .simple_exp _ _ _ hl m1
          exact ⟨k1, w0 ++ st1.cur :: w1, by rw [k2, m3, g2]; simp,
            Derives.expRel _ _ st1.cur _ _ k3 hc g3⟩
        · simp only [Option.some.injEq, Prod.mk.injEq] at h
          obtain ⟨rfl, rfl⟩ := h
          obtain ⟨k1, w0, k2, k3⟩ := ihn .simple_exp _ _ _ hl herr
          exact ⟨k1, w0, k2, Derives.expSimple _ _ k3⟩
      | stmt_sequence =>
        simp only [run, stmt_sequence] at h
        rw [Option.bind_eq_some] at h
        obtain ⟨⟨f, st1⟩, hf, h⟩ := h
        obtain ⟨g1, w1, g2, g3⟩ := ihn (.seqRest f) _ _ _ h herr
        obtain ⟨k1, w0, k2, k3⟩ := ihn .statement _ _ _ hf g1
        exact ⟨k1, w0 ++ w1, by rw [k2, g2]; simp, Derives.seq _ _ _ _ k3 g3⟩
      | seqRest acc =>
        simp only [run, stmt_sequence_loop] at h
        split_ifs at h with hc
        · rw [Option.bind_eq_some] at h
          obtain ⟨⟨q, st1⟩, hq, h⟩ := h
          obtain ⟨g1, w1, g2, g3⟩ := ihn (.seqRest _) _ _ _ h herr
          obtain ⟨k1, w0, k2, k3⟩ := ihn .statement _ _ _ hq g1
          obtain ⟨i, c0, c1, c2, rfl⟩ := derives_statement_node _ _ k3
          simp only [linkStmt_node] at g3
          obtain ⟨m1, _, m3⟩ := match_clear SEMI st (by decide) k1
          exact ⟨m1, st.cur :: w0 ++ w1, by rw [m3, k2, g2]; simp,
            Derives.seqCons _ _ _ _ _ _ (by assumption) k3 g3⟩
        · simp only [Option.some.injEq, Prod.mk.injEq] at h
          obtain ⟨rfl, rfl⟩ := h
          exact ⟨herr, [], by simp, Derives.seqNil _⟩
      | statement =>
        simp only [run, statement] at h
        cases n with
        | zero =>
          split at h <;>
            simp [if_stmt, repeat_stmt, assign_stmt, read_stmt, write_stmt] at h
          obtain ⟨_, rfl⟩ := h
          simp [nextToken, syntaxError] at herr
        | succ m =>
          have ihm := ih m (by omega)
          split at h
          · -- if
            rename_i hk
            simp only [if_stmt] at h
            rw [Option.bind_eq_some] at h
            obtain ⟨⟨e, st1⟩, he, h⟩ := h
            rw [Option.bind_eq_some] at h
            obtain ⟨⟨s, st2⟩, hs, h⟩ := h
            dsimp only at h hs
            split_ifs at h with hc
            · rw [Option.bind_eq_some] at h
              obtain ⟨⟨f, st3⟩, hf, h⟩ := h
              simp only [Option.some.injEq, Prod.mk.injEq] at h
              obtain ⟨rfl, rfl⟩ := h
              obtain ⟨a1, a2, a3⟩ := match_clear END st3 (by decide) herr
              obtain ⟨b1, wf, b2, b3⟩ := ihm .stmt_sequence _ _ _ hf a1
              obtain ⟨c1, c2, c3⟩ := match_clear ELSE st2 (by decide) b1
              obtain ⟨d1, ws, d2, d3⟩ := ihm .stmt_sequence _ _ _ hs c1
              obtain ⟨e1, e2, e3⟩ := match_clear THEN st1 (by decide) d1
              obtain ⟨f1, we, f2, f3⟩ := ihm .exp _ _ _ he e1
              obtain ⟨g1, g2, g3⟩ := match_clear IF st (by decide) f1
              refine ⟨g1, st.cur :: we ++ st1.cur :: ws ++ st2.cur :: wf ++ [st3.cur], ?_,
                Derives.ifElse st.cur st1.cur st2.cur st3.cur we ws wf e s f hk f3 e2 d3 c2 b3 a2⟩
              rw [g3, f2, e3, d2, c3, b2, a3]; simp
            · simp only [Option.some.injEq, Prod.mk.injEq] at h
              obtain ⟨rfl, rfl⟩ := h
              obtain ⟨a1, a2, a3⟩ := match_clear END st2 (by decide) herr
              obtain ⟨d1, ws, d2, d3⟩ := ihm .stmt_sequence _ _ _ hs a1
              obtain ⟨e1, e2, e3⟩ := match_clear THEN st1 (by decide) d1
              obtain ⟨f1, we, f2, f3⟩ := ihm .exp _ _ _ he e1
              obtain ⟨g1, g2, g3⟩ := match_clear IF st (by decide) f1
              refine ⟨g1, st.cur :: we ++ st1.cur :: ws ++ [st2.cur], ?_,
                Derives.ifThen st.cur st1.cur st2.cur we ws e s hk f3 e2 d3 a2⟩
              rw [g3, f2, e3, d2, a3]; simp
          · -- repeat
            rename_i hk
            simp only [repeat_stmt] at h
            rw [Option.bind_eq_some] at h
            obtain ⟨⟨s, st1⟩, hs, h⟩ := h
            rw [Option.bind_eq_some] at h
            obtain ⟨⟨e, st2⟩, he, h⟩ := h
            dsimp only at h he
            simp only [Option.some.injEq, Prod.mk.injEq] at h
            obtain ⟨rfl, rfl⟩ := h
            obtain ⟨f1, we, f2, f3⟩ := ihm .exp _ _ _ he herr
            obtain ⟨e1, e2, e3⟩ := match_clear UNTIL st1 (by decide) f1
            obtain ⟨d1, ws, d2, d3⟩ := ihm .stmt_sequence _ _ _ hs e1
            obtain ⟨g1, g2, g3⟩ := match_clear REPEAT st (by decide) d1
            refine ⟨g1, st.cur :: ws ++ st1.cur :: we, ?_,
              Derives.repeatUntil st.cur st1.cur ws we s e hk d3 e2 f3⟩
            rw [g3, d2, e3, f2]; simp
          · -- assign
            rename_i hk
            simp only [assign_stmt] at h
            rw [Option.bind_eq_some] at h
            obtain ⟨⟨e, st1⟩, he, h⟩ := h
            dsimp only at h he
            simp only [Option.some.injEq, Prod.mk.injEq] at h
            obtain ⟨rfl, rfl⟩ := h
            obtain ⟨f1, we, f2, f3⟩ := ihm .exp _ _ _ he herr
            obtain ⟨e1, e2, e3⟩ := match_clear ASSIGN _ (by decide) f1
            obtain ⟨g1, g2, g3⟩ := match_clear ID st (by decide) e1
            refine ⟨g1, st.cur :: (match_ ID st).cur :: we, ?_, ?_⟩
            · rw [g3, e3, f2]; simp
            · simp only [hk, if_true]
              exact Derives.assign st.cur (match_ ID st).cur we e hk e2 f3
          · -- read
            rename_i hk
            simp only [read_stmt] at h
            simp only [Option.some.injEq, Prod.mk.injEq] at h
            obtain ⟨rfl, rfl⟩ := h
            obtain ⟨e1, e2, e3⟩ := match_clear ID _ (by decide) herr
            obtain ⟨g1, g2, g3⟩ := match_clear READ st (by decide) e1
            refine ⟨g1, [st.cur, (match_ READ st).cur], ?_, ?_⟩
            · rw [g3, e3]; simp
            · simp only [e2, if_true]
              exact Derives.read st.cur (match_ READ st).cur hk e2
          · -- write
            rename_i hk
            simp only [write_stmt] at h
            rw [Option.bind_eq_some] at h
            obtain ⟨⟨e, st1⟩, he, h⟩ := h
            dsimp only at h he
            simp only [Option.some.injEq, Prod.mk.injEq] at h
            obtain ⟨rfl, rfl⟩ := h
            obtain ⟨f1, we, f2, f3⟩ := ihm .exp _ _ _ he herr
            obtain ⟨g1, g2, g3⟩ := match_clear WRITE st (by decide) f1
            refine ⟨g1, st.cur :: we, ?_, Derives.write st.cur we e hk f3⟩
            rw [g3, f2]; simp
          · simp only [Option.some.injEq, Prod.mk.injEq] at h
            obtain ⟨rfl, rfl⟩ := h
            simp [nextToken, syntaxError] at herr

/-! ## Completeness of the parser -/

theorem toks_cons_inv (st : ParseState) (a : Token) (r : List Token) (h : toks st = a :: r) :
    st.token = a.kind ∧ st.cur = a ∧ toks (nextToken st) = r := by
  by_cases ht : st.token = ENDFILE
  · simp [toks, ht] at h
  · rw [toks_eq_cons st ht] at h
    simp only [List.cons.injEq] at h
    obtain ⟨h1, h2⟩ := h
    exact ⟨by rw [← h1]; rfl, h1, h2⟩

theorem token_eq_hd (st : ParseState) : st.token = hd (toks st) := by
  by_cases ht : st.token = ENDFILE
  · simp [toks, ht, hd]
  · rw [toks_eq_cons st ht]; rfl

/-- A call of `match` on the expected token consumes it and changes nothing else. -/
theorem match_ok (e : TokenType) (st : ParseState) (a : Token) (r : List Token)
    (h : toks st = a :: r) (hk : a.kind = e) :
    toks (match_ e st) = r ∧ (match_ e st).Error = st.Error ∧
    (match_ e st).listing = st.listing ∧ st.cur = a ∧ st.token = e := by
  obtain ⟨h1, h2, h3⟩ := toks_cons_inv st a r h
  have : st.token = e := by rw [h1, hk]
  simp only [match_, this, if_true]
  exact ⟨h3, rfl, rfl, h2, trivial⟩

theorem derives_termRest_hd (acc : TreeNode) (w : List Token) (t : TreeNode)
    (h : Derives (.termRest acc) w t) (rest : List Token) :
    w = [] ∨ hd (w ++ rest) = TIMES ∨ hd (w ++ rest) = OVER := by
  cases h <;> simp_all [hd]

theorem derives_simpleRest_hd (acc : TreeNode) (w : List Token) (t : TreeNode)
    (h : Derives (.simpleRest acc) w t) (rest : List Token) :
    w = [] ∨ hd (w ++ rest) = PLUS ∨ hd (w ++ rest) = MINUS := by
  cases h <;> simp_all [hd]

theorem derives_seqRest_hd (acc : TreeNode) (w : List Token) (t : TreeNode)
    (h : Derives (.seqRest acc) w t) (rest : List Token) :
    w = [] ∨ hd (w ++ rest) = SEMI := by
  cases h <;> simp_all [hd]

/-- Completeness of the parsing functions: on a token sequence derived from a
nonterminal and followed by a lookahead at which the phrase is complete, the parsing
function, given enough fuel, returns the tree of the derivation, consumes exactly the
phrase and records no error. -/
theorem run_complete (nt : NT) (w : List Token) (t : TreeNode) (h : Derives nt w t) :
    ∀ (st : ParseState) (rest : List Token), toks st = w ++ rest → Follow nt (hd rest) →
    ∃ st' N, toks st' = rest ∧ st'.Error = st.Error ∧ st'.listing = st.listing ∧
      ∀ n, N ≤ n → run nt n st = some (t, st') := by
  induction h with
  | num tk hk =>
    intro st rest hw _
    obtain ⟨m1, m2, m3, m4, m5⟩ := match_ok NUM st tk rest hw hk
    refine ⟨match_ NUM st, 1, m1, m2, m3, ?_⟩
    intro n hn
    obtain ⟨k, rfl⟩ : ∃ k, n = k + 1 := ⟨n - 1, by omega⟩
    simp only [run, factor, m5]
    rw [← m4]; rfl
  | ident tk hk =>
    intro st rest hw _
    obtain ⟨m1, m2, m3, m4, m5⟩ := match_ok ID st tk rest hw hk
    refine ⟨match_ ID st, 1, m1, m2, m3, ?_⟩
    intro n hn
    obtain ⟨k, rfl⟩ : ∃ k, n = k + 1 := ⟨n - 1, by omega⟩
    simp only [run, factor, m5]
    rw [← m4]; rfl
  | paren l r w e hl _ hr ih =>
    intro st rest hw _
    obtain ⟨m1, m2, m3, m4, m5⟩ := match_ok LPAREN st l (w ++ r :: rest) (by simpa using hw) hl
    obtain ⟨st1, N1, a1, a2, a3, a4⟩ := ih (match_ LPAREN st) (r :: rest) m1
      (by simp [Follow, hd, hr])
    obtain ⟨b1, b2, b3, b4, b5⟩ := match_ok RPAREN st1 r rest a1 hr
    refine ⟨match_ RPAREN st1, N1 + 1, b1, by rw [b2, a2, m2], by rw [b3, a3, m3], ?_⟩
    intro n hn
    obtain ⟨k, rfl⟩ : ∃ k, n = k + 1 := ⟨n - 1, by omega⟩
    simp only [run, factor, m5]
    have := a4 k (by omega)
    simp only [run] at this
    rw [this]; rfl
  | term w0 w1 f t _ _ ih1 ih2 =>
    intro st rest hw hF
    obtain ⟨st1, N1, a1, a2, a3, a4⟩ := ih1 st (w1 ++ rest) (by simpa using hw) trivial
    obtain ⟨st2, N2, b1, b2, b3, b4⟩ := ih2 st1 rest a1 hF
    refine ⟨st2, max N1 N2 + 1, b1, by rw [b2, a2], by rw [b3, a3], ?_⟩
    intro n hn
    obtain ⟨k, rfl⟩ : ∃ k, n = k + 1 := ⟨n - 1, by omega⟩
    have e1 := a4 k (by omega)
    have e2 := b4 k (by omega)
    simp only [run] at e1 e2 ⊢
    simp only [term, e1, Option.some_bind, e2]
  | termNil acc =>
    intro st rest hw hF
    refine ⟨st, 1, by simpa using hw, rfl, rfl, ?_⟩
    intro n hn
    obtain ⟨k, rfl⟩ : ∃ k, n = k + 1 := ⟨n - 1, by omega⟩
    have ht := token_eq_hd st
    rw [hw] at ht
    simp only [List.nil_append] at ht
    simp only [Follow] at hF
    simp only [run, term_loop, ht, hF.1, hF.2, or_self, if_false]
  | termCons acc o w w1 f t hk _ _ ih1 ih2 =>
    intro st rest hw hF
    have hw' : toks st = o :: (w ++ (w1 ++ rest)) := by simpa using hw
    obtain ⟨t1, t2, _⟩ := toks_cons_inv st o _ hw'
    obtain ⟨m1, m2, m3, _, _⟩ := match_ok st.token st o _ hw' t1.symm
    obtain ⟨st1, N1, a1, a2, a3, a4⟩ := ih1 (match_ st.token st) (w1 ++ rest) m1 trivial
    obtain ⟨st2, N2, b1, b2, b3, b4⟩ := ih2 st1 rest a1 hF
    refine ⟨st2, max N1 N2 + 1, b1, by rw [b2, a2, m2], by rw [b3, a3, m3], ?_⟩
    intro n hn
    obtain ⟨k, rfl⟩ : ∃ k, n = k + 1 := ⟨n - 1, by omega⟩
    have e1 := a4 k (by omega)
    have e2 := b4 k (by omega)
    subst t2
    have hc : st.token = TIMES ∨ st.token = OVER := hk
    simp only [run] at e1 e2 ⊢
    simp only [term_loop, if_pos hc, e1, Option.some_bind]
    exact e2
  | simple w0 w1 f t _ h2 ih1 ih2 =>
    intro st rest hw hF
    have hF1 : Follow .term (hd (w1 ++ rest)) := by
      simp only [Follow] at hF ⊢
      rcases derives_simpleRest_hd _ _ _ h2 rest with h | h | h
      · subst h; exact ⟨hF.2.2.1, hF.2.2.2⟩
      · rw [h]; decide
      · rw [h]; decide
    obtain ⟨st1, N1, a1, a2, a3, a4⟩ := ih1 st (w1 ++ rest) (by simpa using hw) hF1
    obtain ⟨st2, N2, b1, b2, b3, b4⟩ := ih2 st1 rest a1 hF
    refine ⟨st2, max N1 N2 + 1, b1, by rw [b2, a2], by rw [b3, a3], ?_⟩
    intro n hn
    obtain ⟨k, rfl⟩ : ∃ k, n = k + 1 := ⟨n - 1, by omega⟩
    have e1 := a4 k (by omega)
    have e2 := b4 k (by omega)
    simp only [run] at e1 e2 ⊢
    simp only [simple_exp, e1, Option.some_bind, e2]
  | simpleNil acc =>
    intro st rest hw hF
    refine ⟨st, 1, by simpa using hw, rfl, rfl, ?_⟩
    intro n hn
    obtain ⟨k, rfl⟩ : ∃ k, n = k + 1 := ⟨n - 1, by omega⟩
    have ht := token_eq_hd st
    rw [hw] at ht
    simp only [List.nil_append] at ht
    simp only [Follow] at hF
    simp only [run, simple_exp_loop, ht, hF.1, hF.2.1, or_self, if_false]
  | simpleCons acc o w w1 f t hk _ h2 ih1 ih2 =>
    intro st rest hw hF
    have hw' : toks st = o :: (w ++ (w1 ++ rest)) := by simpa using hw
    obtain ⟨t1, t2, _⟩ := toks_cons_inv st o _ hw'
    obtain ⟨m1, m2, m3, _, _⟩ := match_ok st.token st o _ hw' t1.symm
    have hF1 : Follow .term (hd (w1 ++ rest)) := by
      simp only [Follow] at hF ⊢
      rcases derives_simpleRest_hd _ _ _ h2 rest with h | h | h
      · subst h; exact ⟨hF.2.2.1, hF.2.2.2⟩
      · rw [h]; decide
      · rw [h]; decide
    obtain ⟨st1, N1, a1, a2, a3, a4⟩ := ih1 (match_ st.token st) (w1 ++ rest) m1 hF1
    obtain ⟨st2, N2, b1, b2, b3, b4⟩ := ih2 st1 rest a1 hF
    refine ⟨st2, max N1 N2 + 1, b1, by rw [b2, a2, m2], by rw [b3, a3, m3], ?_⟩
    intro n hn
    obtain ⟨k, rfl⟩ : ∃ k, n = k + 1 := ⟨n - 1, by omega⟩
    have e1 := a4 k (by omega)
    have e2 := b4 k (by omega)
    subst t2
    have hc : st.token = PLUS ∨ st.token = MINUS := hk
    simp only [run] at e1 e2 ⊢
    simp only [simple_exp_loop, if_pos hc, e1, Option.some_bind]
    exact e2
  | expSimple w t _ ih =>
    intro st rest hw hF
    simp only [Follow] at hF
    obtain ⟨st1, N1, a1, a2, a3, a4⟩ := ih st rest hw ⟨hF.2.2.1, hF.2.2.2.1, hF.2.2.2.2⟩
    refine ⟨st1, N1 + 1, a1, a2, a3, ?_⟩
    intro n hn
    obtain ⟨k, rfl⟩ : ∃ k, n = k + 1 := ⟨n - 1, by omega⟩
    have e1 := a4 k (by omega)
    have ht := token_eq_hd st1
    rw [a1] at ht
    simp only [run] at e1 ⊢
    simp only [exp, e1, Option.some_bind, ht, hF.1, hF.2.1, or_self, if_false]
  | expRel w0 w1 o l r _ hk _ ih1 ih2 =>
    intro st rest hw hF
    simp only [Follow] at hF
    have hF1 : Follow .simple_exp (hd (o :: (w1 ++ rest))) := by
      simp only [Follow, hd]
      rcases hk with h | h <;> rw [h] <;> decide
    obtain ⟨st1, N1, a1, a2, a3, a4⟩ := ih1 st (o :: (w1 ++ rest)) (by simpa using hw) hF1
    obtain ⟨t1, t2, _⟩ := toks_cons_inv st1 o _ a1
    obtain ⟨m1, m2, m3, _, _⟩ := match_ok st1.token st1 o _ a1 t1.symm
    obtain ⟨st2, N2, b1, b2, b3, b4⟩ := ih2 (match_ st1.token st1) rest m1
      ⟨hF.2.2.1, hF.2.2.2.1, hF.2.2.2.2⟩
    refine ⟨st2, max N1 N2 + 1, b1, by rw [b2, m2, a2], by rw [b3, m3, a3], ?_⟩
    intro n hn
    obtain ⟨k, rfl⟩ : ∃ k, n = k + 1 := ⟨n - 1, by omega⟩
    have e1 := a4 k (by omega)
    have e2 := b4 k (by omega)
    subst t2
    have hc : st1.token = TokenType.LT ∨ st1.token = TokenType.EQ := hk
    simp only [run] at e1 e2 ⊢
    simp only [exp, e1, Option.some_bind, if_pos hc, e2]
    rfl
  | ifThen i th en we ws e s hi _ hth _ hen ih1 ih2 =>
    intro st rest hw hF
    have hw' : toks st = i :: (we ++ th :: (ws ++ en :: rest)) := by simpa using hw
    obtain ⟨m1, m2, m3, m4, m5⟩ := match_ok IF st i _ hw' hi
    obtain ⟨st1, N1, a1, a2, a3, a4⟩ := ih1 (match_ IF st) _ m1 (by simp [Follow, hd, hth])
    obtain ⟨p1, p2, p3, _, _⟩ := match_ok THEN st1 th _ a1 hth
    obtain ⟨st2, N2, b1, b2, b3, b4⟩ := ih2 (match_ THEN st1) (en :: rest) p1
      (by simp [Follow, hd, hen])
    obtain ⟨q1, q2, q3, _, q5⟩ := match_ok END st2 en _ b1 hen
    refine ⟨match_ END st2, max N1 N2 + 2, q1, by rw [q2, b2, p2, a2, m2],
      by rw [q3, b3, p3, a3, m3], ?_⟩
    intro n hn
    obtain ⟨k, rfl⟩ : ∃ k, n = k + 2 := ⟨n - 2, by omega⟩
    have e1 := a4 k (by omega)
    have e2 := b4 k (by omega)
    subst m4
    simp only [run] at e1 e2 ⊢
    simp only [statement, m5, if_stmt, e1, Option.some_bind, e2, q5]
    rfl
  | ifElse i th el en we ws wf e s f hi _ hth _ hel _ hen ih1 ih2 ih3 =>
    intro st rest hw hF
    have hw' : toks st = i :: (we ++ th :: (ws ++ el :: (wf ++ en :: rest))) := by
      simpa using hw
    obtain ⟨m1, m2, m3, m4, m5⟩ := match_ok IF st i _ hw' hi
    obtain ⟨st1, N1, a1, a2, a3, a4⟩ := ih1 (match_ IF st) _ m1 (by simp [Follow, hd, hth])
    obtain ⟨p1, p2, p3, _, _⟩ := match_ok THEN st1 th _ a1 hth
    obtain ⟨st2, N2, b1, b2, b3, b4⟩ := ih2 (match_ THEN st1) _ p1
      (by simp [Follow, hd, hel])
    obtain ⟨r1, r2, r3, _, r5⟩ := match_ok ELSE st2 el _ b1 hel
    obtain ⟨st3, N3, c1, c2, c3, c4⟩ := ih3 (match_ ELSE st2) (en :: rest) r1
      (by simp [Follow, hd, hen])
    obtain ⟨q1, q2, q3, _, _⟩ := match_ok END st3 en _ c1 hen
    refine ⟨match_ END st3, max N1 (max N2 N3) + 2, q1, by rw [q2, c2, r2, b2, p2, a2, m2],
      by rw [q3, c3, r3, b3, p3, a3, m3], ?_⟩
    intro n hn
    obtain ⟨k, rfl⟩ : ∃ k, n = k + 2 := ⟨n - 2, by omega⟩
    have e1 := a4 k (by omega)
    have e2 := b4 k (by omega)
    have e3 := c4 k (by omega)
    subst m4
    simp only [run] at e1 e2 e3 ⊢
    simp only [statement, m5, if_stmt, e1, Option.some_bind, e2, r5, if_true, e3]
    rfl
  | repeatUntil r u ws we s e hr _ hu _ ih1 ih2 =>
    intro st rest hw hF
    have hw' : toks st = r :: (ws ++ u :: (we ++ rest)) := by simpa using hw
    obtain ⟨m1, m2, m3, m4, m5⟩ := match_ok REPEAT st r _ hw' hr
    obtain ⟨st1, N1, a1, a2, a3, a4⟩ := ih1 (match_ REPEAT st) _ m1 (by simp [Follow, hd, hu])
    obtain ⟨p1, p2, p3, _, _⟩ := match_ok UNTIL st1 u _ a1 hu
    obtain ⟨st2, N2, b1, b2, b3, b4⟩ := ih2 (match_ UNTIL st1) rest p1 hF
    refine ⟨st2, max N1 N2 + 2, b1, by rw [b2, p2, a2, m2], by rw [b3, p3, a3, m3], ?_⟩
    intro n hn
    obtain ⟨k, rfl⟩ : ∃ k, n = k + 2 := ⟨n - 2, by omega⟩
    have e1 := a4 k (by omega)
    have e2 := b4 k (by omega)
    subst m4
    simp only [run] at e1 e2 ⊢
    simp only [statement, m5, repeat_stmt, e1, Option.some_bind, e2]
    rfl
  | assign i a w e hi ha _ ih =>
    intro st rest hw hF
    have hw' : toks st = i :: a :: (w ++ rest) := by simpa using hw
    obtain ⟨m1, m2, m3, m4, m5⟩ := match_ok ID st i _ hw' hi
    obtain ⟨p1, p2, p3, _, _⟩ := match_ok ASSIGN (match_ ID st) a _ m1 ha
    obtain ⟨st1, N1, a1, a2, a3, a4⟩ := ih (match_ ASSIGN (match_ ID st)) rest p1 hF
    refine ⟨st1, N1 + 2, a1, by rw [a2, p2, m2], by rw [a3, p3, m3], ?_⟩
    intro n hn
    obtain ⟨k, rfl⟩ : ∃ k, n = k + 2 := ⟨n - 2, by omega⟩
    have e1 := a4 k (by omega)
    subst m4
    simp only [run] at e1 ⊢
    simp only [statement, m5, assign_stmt, e1, Option.some_bind, if_true]
    rfl
  | read r i hr hi =>
    intro st rest hw hF
    have hw' : toks st = r :: i :: rest := by simpa using hw
    obtain ⟨m1, m2, m3, m4, m5⟩ := match_ok READ st r _ hw' hr
    obtain ⟨p1, p2, p3, p4, p5⟩ := match_ok ID (match_ READ st) i _ m1 hi
    refine ⟨match_ ID (match_ READ st), 2, p1, by rw [p2, m2], by rw [p3, m3], ?_⟩
    intro n hn
    obtain ⟨k, rfl⟩ : ∃ k, n = k + 2 := ⟨n - 2, by omega⟩
    subst m4 p4
    simp only [run, statement, m5, read_stmt, p5, if_true]
    rfl
  | write wr w e hwr _ ih =>
    intro st rest hw hF
    have hw' : toks st = wr :: (w ++ rest) := by simpa using hw
    obtain ⟨m1, m2, m3, m4, m5⟩ := match_ok WRITE st wr _ hw' hwr
    obtain ⟨st1, N1, a1, a2, a3, a4⟩ := ih (match_ WRITE st) rest m1 hF
    refine ⟨st1, N1 + 2, a1, by rw [a2, m2], by rw [a3, m3], ?_⟩
    intro n hn
    obtain ⟨k, rfl⟩ : ∃ k, n = k + 2 := ⟨n - 2, by omega⟩
    have e1 := a4 k (by omega)
    subst m4
    simp only [run] at e1 ⊢
    simp only [statement, m5, write_stmt, e1, Option.some_bind]
    rfl
  | seq w0 w1 s t _ h2 ih1 ih2 =>
    intro st rest hw hF
    have hF1 : Follow .statement (hd (w1 ++ rest)) := by
      simp only [Follow] at hF ⊢
      rcases derives_seqRest_hd _ _ _ h2 rest with h | h
      · subst h
        simp only [List.nil_append]
        rcases hF with h | h | h | h <;> rw [h] <;> decide
      · rw [h]; decide
    obtain ⟨st1, N1, a1, a2, a3, a4⟩ := ih1 st (w1 ++ rest) (by simpa using hw) hF1
    obtain ⟨st2, N2, b1, b2, b3, b4⟩ := ih2 st1 rest a1 hF
    refine ⟨st2, max N1 N2 + 1, b1, by rw [b2, a2], by rw [b3, a3], ?_⟩
    intro n hn
    obtain ⟨k, rfl⟩ : ∃ k, n = k + 1 := ⟨n - 1, by omega⟩
    have e1 := a4 k (by omega)
    have e2 := b4 k (by omega)
    simp only [run] at e1 e2 ⊢
    simp only [stmt_sequence, e1, Option.some_bind, e2]
  | seqNil acc =>
    intro st rest hw hF
    refine ⟨st, 1, by simpa using hw, rfl, rfl, ?_⟩
    intro n hn
    obtain ⟨k, rfl⟩ : ∃ k, n = k + 1 := ⟨n - 1, by omega⟩
    have ht := token_eq_hd st
    rw [hw] at ht
    simp only [List.nil_append] at ht
    simp only [Follow] at hF
    have hc : ¬ (st.token ≠ ENDFILE ∧ st.token ≠ END ∧ st.token ≠ ELSE ∧ st.token ≠ UNTIL) := by
      rw [ht]; rcases hF with h | h | h | h <;> rw [h] <;> decide
    simp only [run, stmt_sequence_loop, if_neg hc]
  | seqCons acc semi w w1 q t hk h1 h2 ih1 ih2 =>
    intro st rest hw hF
    have hw' : toks st = semi :: (w ++ (w1 ++ rest)) := by simpa using hw
    obtain ⟨m1, m2, m3, m4, m5⟩ := match_ok SEMI st semi _ hw' hk
    have hF1 : Follow .statement (hd (w1 ++ rest)) := by
      simp only [Follow] at hF ⊢
      rcases derives_seqRest_hd _ _ _ h2 rest with h | h
      · subst h
        simp only [List.nil_append]
        rcases hF with h | h | h | h <;> rw [h] <;> decide
      · rw [h]; decide
    obtain ⟨st1, N1, a1, a2, a3, a4⟩ := ih1 (match_ SEMI st) (w1 ++ rest) m1 hF1
    obtain ⟨st2, N2, b1, b2, b3, b4⟩ := ih2 st1 rest a1 hF
    refine ⟨st2, max N1 N2 + 1, b1, by rw [b2, a2, m2], by rw [b3, a3, m3], ?_⟩
    intro n hn
    obtain ⟨k, rfl⟩ : ∃ k, n = k + 1 := ⟨n - 1, by omega⟩
    have e1 := a4 k (by omega)
    have e2 := b4 k (by omega)
    obtain ⟨i, c0, c1, c2, rfl⟩ := derives_statement_node _ _ h1
    have hc : st.token ≠ ENDFILE ∧ st.token ≠ END ∧ st.token ≠ ELSE ∧ st.token ≠ UNTIL := by
      rw [m5]; decide
    simp only [run] at e1 e2 ⊢
    simp only [stmt_sequence_loop, if_pos hc, e1, Option.some_bind, linkStmt_node]
    exact e2

/-! ## The result of the parser does not depend on the fuel -/

theorem term_loop_succ (n : Nat) (t : TreeNode) (st : ParseState) :
    term_loop (n + 1) t st =
      if st.token = TIMES ∨ st.token = OVER then
        (factor n (match_ st.token st)).bind fun r =>
          term_loop n ((((newExpNode OpK st.scan.lineno).setChild0 t).setAttr
            (.op st.token)).setChild1 r.1) r.2
      else some (t, st) := rfl

theorem simple_exp_loop_succ (n : Nat) (t : TreeNode) (st : ParseState) :
    simple_exp_loop (n + 1) t st =
      if st.token = PLUS ∨ st.token = MINUS then
        (term n (match_ st.token st)).bind fun r =>
          simple_exp_loop n ((((newExpNode OpK st.scan.lineno).setChild0 t).setAttr
            (.op st.token)).setChild1 r.1) r.2
      else some (t, st) := rfl

theorem stmt_sequence_loop_succ (n : Nat) (t : TreeNode) (st : ParseState) :
    stmt_sequence_loop (n + 1) t st =
      if st.token ≠ ENDFILE ∧ st.token ≠ END ∧ st.token ≠ ELSE ∧ st.token ≠ UNTIL then
        (statement n (match_ SEMI st)).bind fun r =>
          stmt_sequence_loop n (linkStmt t r.1) r.2
      else some (t, st) := rfl

theorem statement_succ (n : Nat) (st : ParseState) :
    statement (n + 1) st =
      match st.token with
      | IF => if_stmt n st
      | REPEAT => repeat_stmt n st
      | ID => assign_stmt n st
      | READ => read_stmt n st
      | WRITE => write_stmt n st
      | _ => some (.null, nextToken (syntaxError "unexpected token -> " st)) := rfl

/-- More fuel does not change the result of a parsing function. -/
theorem run_succ (n : Nat) : ∀ (nt : NT) (st : ParseState) (r : TreeNode × ParseState),
    run nt n st = some r → run nt (n + 1) st = some r := by
  induction n using Nat.strong_induction_on with
  | _ n ih =>
    intro nt st r h
    cases n with
    | zero => cases nt <;> simp [run, factor, term, term_loop, simple_exp, simple_exp_loop, exp, statement, stmt_sequence, stmt_sequence_loop] at h
    | succ n =>
      have ihn := ih n (Nat.lt_succ_self n)
      cases nt with
      | factor =>
        simp only [run, factor] at h ⊢
        split at h
        · exact h
        · exact h
        · rw [Option.bind_eq_some] at h
          obtain ⟨a, ha, h⟩ := h
          have := ihn .exp _ _ ha
          simp only [run] at this
          simp only [this, Option.some_bind]; exact h
        · exact h
      | term =>
        simp only [run, term] at h ⊢
        rw [Option.bind_eq_some] at h
        obtain ⟨a, ha, h⟩ := h
        have e1 := ihn .factor _ _ ha
        have e2 := ihn (.termRest _) _ _ h
        simp only [run] at e1 e2
        simp only [e1, Option.some_bind, e2]
      | termRest acc =>
        simp only [run] at h ⊢
        rw [term_loop_succ] at h ⊢
        split_ifs at h ⊢ with hc
        · rw [Option.bind_eq_some] at h
          obtain ⟨a, ha, h⟩ := h
          have e1 := ihn .factor _ _ ha
          have e2 := ihn (.termRest _) _ _ h
          simp only [run] at e1 e2
          simp only [e1, Option.some_bind, e2]
        · exact h
      | simple_exp =>
        simp only [run, simple_exp] at h ⊢
        rw [Option.bind_eq_some] at h
        obtain ⟨a, ha, h⟩ := h
        have e1 := ihn .term _ _ ha
        have e2 := ihn (.simpleRest _) _ _ h
        simp only [run] at e1 e2
        simp only [e1, Option.some_bind, e2]
      | simpleRest acc =>
        simp only [run] at h ⊢
        rw [simple_exp_loop_succ] at h ⊢
        split_ifs at h ⊢ with hc
        · rw [Option.bind_eq_some] at h
          obtain ⟨a, ha, h⟩ := h
          have e1 := ihn .term _ _ ha
          have e2 := ihn (.simpleRest _) _ _ h
          simp only [run] at e1 e2
          simp only [e1, Option.some_bind, e2]
        · exact h
      | exp =>
        simp only [run, exp] at h ⊢
        rw [Option.bind_eq_some] at h
        obtain ⟨a, ha, h⟩ := h
        have e1 := ihn .simple_exp _ _ ha
        simp only [run] at e1
        simp only [e1, Option.some_bind]
        split_ifs at h ⊢ with hc
        · rw [Option.bind_eq_some] at h
          obtain ⟨b, hb, h⟩ := h
          have e2 := ihn .simple_exp _ _ hb
          simp only [run] at e2
          simp only [e2, Option.some_bind]; exact h
        · exact h
      | stmt_sequence =>
        simp only [run, stmt_sequence] at h ⊢
        rw [Option.bind_eq_some] at h
        obtain ⟨a, ha, h⟩ := h
        have e1 := ihn .statement _ _ ha
        have e2 := ihn (.seqRest _) _ _ h
        simp only [run] at e1 e2
        simp only [e1, Option.some_bind, e2]
      | seqRest acc =>
        simp only [run] at h ⊢
        rw [stmt_sequence_loop_succ] at h ⊢
        split_ifs at h ⊢ with hc
        · rw [Option.bind_eq_some] at h
          obtain ⟨a, ha, h⟩ := h
          have e1 := ihn .statement _ _ ha
          have e2 := ihn (.seqRest _) _ _ h
          simp only [run] at e1 e2
          simp only [e1, Option.some_bind, e2]
        · exact h
      | statement =>
        simp only [run] at h ⊢
        rw [statement_succ] at h ⊢
        cases n with
        | zero =>
          split at h <;>
            simp [if_stmt, repeat_stmt, assign_stmt, read_stmt, write_stmt] at h
          simp [h]
        | succ m =>
          have ihm := ih m (by omega)
          split at h
          · simp only [if_stmt] at h ⊢
            rw [Option.bind_eq_some] at h
            obtain ⟨a, ha, h⟩ := h
            rw [Option.bind_eq_some] at h
            obtain ⟨b, hb, h⟩ := h
            have e1 := ihm .exp _ _ ha
            have e2 := ihm .stmt_sequence _ _ hb
            simp only [run] at e1 e2
            simp only [e1, Option.some_bind, e2]
            split_ifs at h ⊢ with hc
            · rw [Option.bind_eq_some] at h
              obtain ⟨c, hc', h⟩ := h
              have e3 := ihm .stmt_sequence _ _ hc'
              simp only [run] at e3
              simp only [e3, Option.some_bind]; exact h
            · exact h
          · simp only [repeat_stmt] at h ⊢
            rw [Option.bind_eq_some] at h
            obtain ⟨a, ha, h⟩ := h
            rw [Option.bind_eq_some] at h
            obtain ⟨b, hb, h⟩ := h
            have e1 := ihm .stmt_sequence _ _ ha
            have e2 := ihm .exp _ _ hb
            simp only [run] at e1 e2
            simp only [e1, Option.some_bind, e2]; exact h
          · simp only [assign_stmt] at h ⊢
            rw [Option.bind_eq_some] at h
            obtain ⟨a, ha, h⟩ := h
            have e1 := ihm .exp _ _ ha
            simp only [run] at e1
            simp only [e1, Option.some_bind]; exact h
          · simp only [read_stmt] at h ⊢
            exact h
          · simp only [write_stmt] at h ⊢
            rw [Option.bind_eq_some] at h
            obtain ⟨a, ha, h⟩ := h
            have e1 := ihm .exp _ _ ha
            simp only [run] at e1
            simp only [e1, Option.some_bind]; exact h
          · exact h

theorem run_mono (nt : NT) (st : ParseState) (r : TreeNode × ParseState) (n m : Nat)
    (hnm : n ≤ m) (h : run nt n st = some r) : run nt m st = some r := by
  induction hnm with
  | refl => exact h
  | step _ ih => exact run_succ _ nt st r ih

theorem parse_mono (st : ParseState) (r : TreeNode × ParseState) (n m : Nat)
    (hnm : n ≤ m) (h : parse n st = some r) : parse m st = some r := by
  unfold parse at h ⊢
  rw [Option.bind_eq_some] at h
  obtain ⟨a, ha, h⟩ := h
  have := run_mono .stmt_sequence _ _ n m hnm ha
  simp only [run] at this
  rw [this]; exact h

/-- Two runs of `parse` that both return give the same result. -/
theorem parse_fuel_unique (st : ParseState) (r r' : TreeNode × ParseState) (n m : Nat)
    (h : parse n st = some r) (h' : parse m st = some r') : r = r' := by
  rcases Nat.le_total n m with hnm | hnm
  · have := parse_mono st r n m hnm h
    rw [h'] at this; exact (Option.some.inj this).symm
  · have := parse_mono st r' m n hnm h'
    rw [h] at this; exact Option.some.inj this

/-! ## The parser on whole programs -/

theorem toks_init (src : List Char) : toks (nextToken (ParseState.init src)) = scanAll src :=
  toks_nextToken _

/-- A run of `parse` that ends with the error flag clear has read a program of the
grammar and returns its tree with the lookahead at end-of-input. -/
theorem parse_derives (fuel : Nat) (src : List Char) (t : TreeNode) (st' : ParseState)
    (h : parseSource fuel src = some (t, st')) (herr : st'.Error = false) :
    Derives .stmt_sequence (scanAll src) t ∧ toks st' = [] ∧ st'.token = ENDFILE := by
  unfold parseSource parse at h
  rw [Option.bind_eq_some] at h
  obtain ⟨⟨t1, st1⟩, h1, h⟩ := h
  dsimp only at h
  split_ifs at h with hc
  · simp only [Option.some.injEq, Prod.mk.injEq] at h
    rw [← h.2] at herr
    simp [syntaxError] at herr
  · simp only [Option.some.injEq, Prod.mk.injEq] at h
    obtain ⟨rfl, rfl⟩ := h
    have hc' : st1.token = ENDFILE := by simpa using hc
    obtain ⟨_, w, hw, hd⟩ := run_sound fuel .stmt_sequence _ _ _ h1 herr
    rw [toks_init, toks_eq_nil st1 hc', List.append_nil] at hw
    exact ⟨hw ▸ hd, toks_eq_nil st1 hc', hc'⟩

/-- On a program of the grammar `parse`, given enough fuel, returns the tree of the
derivation and records no error. -/
theorem parse_of_derives (src : List Char) (t : TreeNode)
    (h : Derives .stmt_sequence (scanAll src) t) :
    ∃ st' N, st'.Error = false ∧ st'.listing = [] ∧ st'.token = ENDFILE ∧ toks st' = [] ∧
      ∀ fuel, N ≤ fuel → parseSource fuel src = some (t, st') := by
  obtain ⟨st', N, h1, h2, h3, h4⟩ := run_complete .stmt_sequence _ _ h
    (nextToken (ParseState.init src)) [] (by rw [toks_init]; simp) (Or.inl rfl)
  have ht : st'.token = ENDFILE := by rw [token_eq_hd, h1]; rfl
  refine ⟨st', N, h2, h3, ht, h1, ?_⟩
  intro fuel hf
  have := h4 fuel hf
  simp only [run] at this
  simp only [parseSource, parse, this, Option.some_bind, ht, ne_eq, not_true_eq_false, if_false]

/-- A run of `parse` that ends with the error flag clear has written no diagnostic. -/
theorem parse_clear_listing (fuel : Nat) (src : List Char) (t : TreeNode) (st' : ParseState)
    (h : parseSource fuel src = some (t, st')) (herr : st'.Error = false) :
    st'.listing = [] := by
  obtain ⟨hd, _, _⟩ := parse_derives fuel src t st' h herr
  obtain ⟨st2, N, _, h2, _, _, h5⟩ := parse_of_derives src t hd
  have := parse_fuel_unique _ _ _ _ _ h (h5 N (le_refl _))
  simp only [Prod.mk.injEq] at this
  rw [this.2]; exact h2

theorem derives_simpleRest_ops (ops : List (Token × List Token × TreeNode)) :
    ∀ acc : TreeNode,
    (∀ p ∈ ops, (p.1.kind = PLUS ∨ p.1.kind = MINUS) ∧ Derives .term p.2.1 p.2.2) →
    Derives (.simpleRest acc) (opsTokens ops) (leftNest acc ops) := by
  induction ops with
  | nil => intro acc _; exact Derives.simpleNil acc
  | cons p rest ih =>
    intro acc h
    have hp := h p (List.mem_cons_self _ _)
    exact Derives.simpleCons acc p.1 p.2.1 (opsTokens rest) p.2.2 _ hp.1 hp.2
      (ih _ (fun q hq => h q (List.mem_cons_of_mem _ hq)))

theorem derives_termRest_ops (ops : List (Token × List Token × TreeNode)) :
    ∀ acc : TreeNode,
    (∀ p ∈ ops, (p.1.kind = TIMES ∨ p.1.kind = OVER) ∧ Derives .factor p.2.1 p.2.2) →
    Derives (.termRest acc) (opsTokens ops) (leftNest acc ops) := by
  induction ops with
  | nil => intro acc _; exact Derives.termNil acc
  | cons p rest ih =>
    intro acc h
    have hp := h p (List.mem_cons_self _ _)
    exact Derives.termCons acc p.1 p.2.1 (opsTokens rest) p.2.2 _ hp.1 hp.2
      (ih _ (fun q hq => h q (List.mem_cons_of_mem _ hq)))

/-! ## The trees of error-free parses -/

theorem wellFormed_setLastSibling (acc q : TreeNode) (ha : WellFormed acc) (hq : WellFormed q) :
    WellFormed (acc.setLastSibling q) := by
  induction acc with
  | null => simpa [TreeNode.setLastSibling] using hq
  | node i c0 c1 c2 sib _ _ _ ih =>
    simp only [TreeNode.setLastSibling, WellFormed] at ha ⊢
    exact ⟨ha.1, ha.2.1, ha.2.2.1, ih ha.2.2.2.1, ha.2.2.2.2⟩

theorem wellFormed_opNode (o : Token) (l r : TreeNode)
    (hl : WellFormed l ∧ l.isExp = true) (hr : WellFormed r ∧ r.isExp = true) :
    WellFormed (opNode o l r) ∧ (opNode o l r).isExp = true := by
  refine ⟨?_, rfl⟩
  simp only [opNode, WellFormed, NodeOK]
  exact ⟨hl.1, hr.1, trivial, trivial, hl.2, hr.2, _, rfl⟩

/-- The tree of a derivation has the shape the analyzer relies on. -/
theorem derives_shaped (nt : NT) (w : List Token) (t : TreeNode) (h : Derives nt w t) :
    Shaped nt t := by
  induction h with
  | num tk _ => exact ⟨by simp [WellFormed, constNode, NodeOK], rfl⟩
  | ident tk _ => exact ⟨by simp [WellFormed, idNode, NodeOK], rfl⟩
  | paren l r w e _ _ _ ih => exact ih
  | term w0 w1 f t _ _ ih1 ih2 => exact ih2 ih1
  | termNil acc => exact id
  | termCons acc o w w1 f t _ _ _ ih1 ih2 =>
    intro ha
    exact ih2 (wellFormed_opNode o acc f ha ih1)
  | simple w0 w1 f t _ _ ih1 ih2 => exact ih2 ih1
  | simpleNil acc => exact id
  | simpleCons acc o w w1 f t _ _ _ ih1 ih2 =>
    intro ha
    exact ih2 (wellFormed_opNode o acc f ha ih1)
  | expSimple w t _ ih => exact ih
  | expRel w0 w1 o l r _ _ _ ih1 ih2 => exact wellFormed_opNode o l r ih1 ih2
  | ifThen i th en we ws e s _ _ _ _ _ ih1 ih2 =>
    simp only [Shaped] at ih1 ih2 ⊢
    simp only [ifNode, WellFormed, NodeOK]
    exact ⟨ih1.1, ih2, trivial, trivial, ih1.2⟩
  | ifElse i th el en we ws wf e s f _ _ _ _ _ _ _ ih1 ih2 ih3 =>
    simp only [Shaped] at ih1 ih2 ih3 ⊢
    simp only [ifNode, WellFormed, NodeOK]
    exact ⟨ih1.1, ih2, ih3, trivial, ih1.2⟩
  | repeatUntil r u ws we s e _ _ _ _ ih1 ih2 =>
    simp only [Shaped] at ih1 ih2 ⊢
    simp only [repeatNode, WellFormed, NodeOK]
    exact ⟨ih1, ih2.1, trivial, trivial, ih2.2⟩
  | assign i a w e _ _ _ ih =>
    simp only [Shaped] at ih ⊢
    simp only [assignNode, WellFormed, NodeOK]
    exact ⟨ih.1, trivial, trivial, trivial, ih.2, _, rfl⟩
  | read r i _ _ =>
    simp only [Shaped, readNode, WellFormed, NodeOK]
    exact ⟨trivial, trivial, trivial, trivial, _, rfl⟩
  | write wr w e _ _ ih =>
    simp only [Shaped] at ih ⊢
    simp only [writeNode, WellFormed, NodeOK]
    exact ⟨ih.1, trivial, trivial, trivial, ih.2⟩
  | seq w0 w1 s t _ _ ih1 ih2 => exact ih2 ih1
  | seqNil acc => exact id
  | seqCons acc semi w w1 q t _ _ _ ih1 ih2 =>
    intro ha
    exact ih2 (wellFormed_setLastSibling _ _ ha ih1)

theorem parse_wellFormed (fuel : Nat) (src : List Char) (t : TreeNode) (st' : ParseState)
    (h : parseSource fuel src = some (t, st')) (herr : st'.Error = false) : WellFormed t :=
  derives_shaped _ _ _ (parse_derives fuel src t st' h herr).1

theorem occurrences_setLastSibling (acc q : TreeNode) :
    occurrences (acc.setLastSibling q) = occurrences acc ++ occurrences q := by
  induction acc with
  | null => simp [TreeNode.setLastSibling, occurrences]
  | node i c0 c1 c2 sib _ _ _ ih =>
    simp only [TreeNode.setLastSibling, occurrences, ih, List.append_assoc]

theorem identifiers_append (u v : List Token) :
    identifiers (u ++ v) = identifiers u ++ identifiers v := by
  induction u with
  | nil => rfl
  | cons a u ih =>
    by_cases h : a.kind = ID <;> simp [identifiers, h, ih]

/-- The identifier occurrences of the tree of a derivation, in pre-order, are the
identifier tokens derived, in source order. -/
theorem derives_named (nt : NT) (w : List Token) (t : TreeNode) (h : Derives nt w t) :
    Named nt w t := by
  induction h with
  | num tk hk => simp [Named, constNode, occurrences, ownOccurrence, identifiers, hk]
  | ident tk hk => simp [Named, idNode, occurrences, ownOccurrence, identifiers, hk, Attr.getName]
  | paren l r w e hl _ hr ih =>
    simp only [Named] at ih ⊢
    simp [identifiers_append, identifiers, hl, hr, ih]
  | term w0 w1 f t _ _ ih1 ih2 =>
    simp only [Named] at ih1 ih2 ⊢
    rw [ih2, ih1, identifiers_append]
  | termNil acc => simp [Named, identifiers]
  | termCons acc o w w1 f t hk _ _ ih1 ih2 =>
    simp only [Named] at ih1 ih2 ⊢
    rw [ih2, opNode]
    rcases hk with hk | hk <;>
      simp [identifiers_append, identifiers, hk, ih1, occurrences, ownOccurrence]
  | simple w0 w1 f t _ _ ih1 ih2 =>
    simp only [Named] at ih1 ih2 ⊢
    rw [ih2, ih1, identifiers_append]
  | simpleNil acc => simp [Named, identifiers]
  | simpleCons acc o w w1 f t hk _ _ ih1 ih2 =>
    simp only [Named] at ih1 ih2 ⊢
    rw [ih2, opNode]
    rcases hk with hk | hk <;>
      simp [identifiers_append, identifiers, hk, ih1, occurrences, ownOccurrence]
  | expSimple w t _ ih => exact ih
  | expRel w0 w1 o l r _ hk _ ih1 ih2 =>
    simp only [Named] at ih1 ih2 ⊢
    rw [opNode]
    rcases hk with hk | hk <;>
      simp [identifiers_append, identifiers, hk, ih1, ih2, occurrences, ownOccurrence]
  | ifThen i th en we ws e s hi _ hth _ hen ih1 ih2 =>
    simp only [Named] at ih1 ih2 ⊢
    rw [ifNode]
    simp [identifiers_append, identifiers, hi, hth, hen, ih1, ih2, occurrences, ownOccurrence]
  | ifElse i th el en we ws wf e s f hi _ hth _ hel _ hen ih1 ih2 ih3 =>
    simp only [Named] at ih1 ih2 ih3 ⊢
    rw [ifNode]
    simp [identifiers_append, identifiers, hi, hth, hel, hen, ih1, ih2, ih3, occurrences, ownOccurrence]
  | repeatUntil r u ws we s e hr _ hu _ ih1 ih2 =>
    simp only [Named] at ih1 ih2 ⊢
    rw [repeatNode]
    simp [identifiers_append, identifiers, hr, hu, ih1, ih2, occurrences, ownOccurrence]
  | assign i a w e hi ha _ ih =>
    simp only [Named] at ih ⊢
    rw [assignNode]
    simp [identifiers, hi, ha, ih, occurrences, ownOccurrence, Attr.getName]
  | read r i hr hi =>
    simp only [Named]
    rw [readNode]
    simp [identifiers, hi, hr, occurrences, ownOccurrence, Attr.getName]
  | write wr w e hwr _ ih =>
    simp only [Named] at ih ⊢
    rw [writeNode]
    simp [identifiers, hwr, ih, occurrences, ownOccurrence]
  | seq w0 w1 s t _ _ ih1 ih2 =>
    simp only [Named] at ih1 ih2 ⊢
    rw [ih2, ih1, identifiers_append]
  | seqNil acc => simp [Named, identifiers]
  | seqCons acc semi w w1 q t hk _ _ ih1 ih2 =>
    simp only [Named] at ih1 ih2 ⊢
    rw [ih2, occurrences_setLastSibling]
    simp [identifiers_append, identifiers, hk, ih1]

/-! ## The analyzer -/

theorem insertAll_nil (a : AnalyzeState) : insertAll [] a = a := rfl

theorem insertAll_cons (p : List Char × Nat) (l : List (List Char × Nat)) (a : AnalyzeState) :
    insertAll (p :: l) a = insertAll l (insertName p.1 p.2 a) := rfl

theorem insertAll_append (l l' : List (List Char × Nat)) (a : AnalyzeState) :
    insertAll (l ++ l') a = insertAll l' (insertAll l a) := by
  simp [insertAll, List.foldl_append]

theorem insertNode_node (i : NodeInfo) (c0 c1 c2 sib : TreeNode) (a : AnalyzeState) :
    insertNode (.node i c0 c1 c2 sib) a =
      (i, insertAll (ownOccurrence i) a) := by
  simp only [insertNode, TreeNode.info, ownOccurrence]
  split <;> simp_all [insertAll]

/-- The procedure `buildSymtab` leaves the tree as it is and handles the identifier
occurrences in pre-order. -/
theorem buildSymtab_eq (t : TreeNode) : ∀ a : AnalyzeState,
    buildSymtab t a = (t, insertAll (occurrences t) a) := by
  unfold buildSymtab
  induction t with
  | null => intro a; rfl
  | node i c0 c1 c2 sib ih0 ih1 ih2 ih3 =>
    intro a
    simp only [traverse, insertNode_node, ih0, ih1, ih2, ih3, nullProc, TreeNode.info,
      occurrences, insertAll_append]

theorem st_lookup_eq_neg_one (tab : SymTab) (name : List Char) :
    st_lookup tab name = -1 ↔ name ∉ tab.map SymEntry.name := by
  induction tab with
  | nil => simp [st_lookup]
  | cons e rest ih =>
    simp only [st_lookup, List.map_cons, List.mem_cons, not_or]
    by_cases h : e.name = name
    · simp only [h, if_true, not_true_eq_false, false_and, iff_false]
      omega
    · simp only [h, if_false, ih]
      constructor
      · intro h'; exact ⟨fun x => h x.symm, h'⟩
      · intro h'; exact h'.2

theorem st_insert_absent (tab : SymTab) (name : List Char) (line loc : Nat)
    (h : name ∉ tab.map SymEntry.name) :
    st_insert tab name line loc = tab ++ [{ name := name, memloc := loc, lines := [line] }] := by
  induction tab with
  | nil => rfl
  | cons e rest ih =>
    simp only [List.map_cons, List.mem_cons, not_or] at h
    have h1 : e.name ≠ name := fun x => h.1 x.symm
    simp only [st_insert, h1, if_false, ih h.2, List.cons_append]

theorem st_insert_present (tab : SymTab) (name : List Char) (line loc : Nat) :
    name ∈ tab.map SymEntry.name → allocation (st_insert tab name line loc) = allocation tab := by
  induction tab with
  | nil => simp
  | cons e rest ih =>
    intro h
    by_cases h1 : e.name = name
    · simp [st_insert, h1, allocation]
    · simp only [List.map_cons, List.mem_cons] at h
      have h2 : name ∈ rest.map SymEntry.name := by
        rcases h with h | h
        · exact absurd h.symm h1
        · exact h
      have := ih h2
      simp only [allocation] at this ⊢
      simp [st_insert, h1, this]

theorem allocation_names (tab : SymTab) : (allocation tab).map Prod.fst = tab.map SymEntry.name := by
  simp [allocation]

/-- The allocation invariant of the symbol table: the entries are the distinct names
handled so far in order of first occurrence, the k-th entry (counted from 0) has
location k, and `location` is the number of entries. -/
theorem insertAll_allocation (l : List (List Char × Nat)) : ∀ (a : AnalyzeState),
    allocation a.symtab =
      (a.symtab.map SymEntry.name).zip (List.range (a.symtab.map SymEntry.name).length) →
    a.location = a.symtab.length →
    let ids := distinctFrom (a.symtab.map SymEntry.name) (l.map Prod.fst)
    allocation (insertAll l a).symtab = ids.zip (List.range ids.length) ∧
    (insertAll l a).location = ids.length ∧
    (insertAll l a).symtab.map SymEntry.name = ids ∧
    (insertAll l a).Error = a.Error ∧ (insertAll l a).listing = a.listing := by
  induction l with
  | nil =>
    intro a h1 h2
    simp only [List.map_nil, distinctFrom, insertAll_nil]
    refine ⟨h1, by simpa using h2, ?_, ?_, ?_⟩ <;> first | rfl | trivial
  | cons p l ih =>
    intro a h1 h2
    simp only [List.map_cons, distinctFrom, insertAll_cons]
    by_cases hp : p.1 ∈ a.symtab.map SymEntry.name
    · have hl : st_lookup a.symtab p.1 ≠ -1 := fun h => (st_lookup_eq_neg_one _ _).mp h hp
      have hal := st_insert_present a.symtab p.1 p.2 0 hp
      have hn : (st_insert a.symtab p.1 p.2 0).map SymEntry.name = a.symtab.map SymEntry.name := by
        rw [← allocation_names, hal, allocation_names]
      have hlen : (st_insert a.symtab p.1 p.2 0).length = a.symtab.length := by
        have := congrArg List.length hn
        simpa using this
      simp only [hp, if_true]
      have := ih (insertName p.1 p.2 a)
        (by simp only [insertName, hl, if_false]; rw [hal, hn]; exact h1)
        (by simp only [insertName, hl, if_false]; rw [hlen]; exact h2)
      simp only [insertName, hl, if_false, hn] at this ⊢
      exact this
    · have hl : st_lookup a.symtab p.1 = -1 := (st_lookup_eq_neg_one _ _).mpr hp
      have hins := st_insert_absent a.symtab p.1 p.2 a.location hp
      simp only [hp, if_false]
      have := ih (insertName p.1 p.2 a)
        (by
          simp only [insertName, hl, if_true, hins]
          simp only [allocation, List.map_append, List.map_cons, List.map_nil,
            List.length_append, List.length_map, List.length_singleton] at h1 ⊢
          rw [List.range_succ, List.zip_append (by simp), ← h1, h2]
          simp)
        (by simp only [insertName, hl, if_true, hins]; simp [h2])
      simp only [insertName, hl, if_true, hins, List.map_append, List.map_cons,
        List.map_nil] at this ⊢
      exact this

theorem distinctFrom_nodup (l : List (List Char)) : ∀ seen : List (List Char),
    seen.Nodup → (distinctFrom seen l).Nodup := by
  induction l with
  | nil => intro seen h; exact h
  | cons x xs ih =>
    intro seen h
    simp only [distinctFrom]
    split_ifs with hx
    · exact ih seen h
    · exact ih _ (List.nodup_append.mpr ⟨h, List.nodup_singleton x, by simpa using hx⟩)

theorem mem_distinctFrom (l : List (List Char)) : ∀ (seen : List (List Char)) (x : List Char),
    x ∈ distinctFrom seen l ↔ x ∈ seen ∨ x ∈ l := by
  induction l with
  | nil => intro seen x; simp [distinctFrom]
  | cons y ys ih =>
    intro seen x
    simp only [distinctFrom]
    split_ifs with hy
    · rw [ih]
      constructor
      · rintro (h | h)
        · exact Or.inl h
        · exact Or.inr (List.mem_cons_of_mem _ h)
      · rintro (h | h)
        · exact Or.inl h
        · rcases List.mem_cons.mp h with rfl | h
          · exact Or.inl hy
          · exact Or.inr h
    · rw [ih]
      simp only [List.mem_append, List.mem_singleton, List.mem_cons]
      tauto

theorem specType_isExp (t : TreeNode) (h : t.isExp = true) :
    specType t = Integer ∨ specType t = Boolean := by
  cases t with
  | null => simp [TreeNode.isExp] at h
  | node i c0 c1 c2 sib =>
    simp only [TreeNode.isExp] at h
    simp only [specType]
    split at h
    · rename_i k hk
      rw [hk]
      cases k
      · simp only; split_ifs <;> simp
      · simp
      · simp
    · simp at h

theorem info_node (i : NodeInfo) (c0 c1 c2 sib : TreeNode) :
    (TreeNode.node i c0 c1 c2 sib).info = i := rfl

theorem type_node (i : NodeInfo) (c0 c1 c2 sib : TreeNode) :
    (TreeNode.node i c0 c1 c2 sib).type = i.type := rfl

theorem child0_node (i : NodeInfo) (c0 c1 c2 sib : TreeNode) :
    (TreeNode.node i c0 c1 c2 sib).child0 = c0 := rfl

theorem child1_node (i : NodeInfo) (c0 c1 c2 sib : TreeNode) :
    (TreeNode.node i c0 c1 c2 sib).child1 = c1 := rfl

theorem isExp_node (i : NodeInfo) (c0 c1 c2 sib : TreeNode) :
    (TreeNode.node i c0 c1 c2 sib).isExp =
      match i.kind with
      | .ExpK _ => true
      | .StmtK _ => false := rfl

theorem specType_node (i : NodeInfo) (c0 c1 c2 sib : TreeNode) :
    specType (TreeNode.node i c0 c1 c2 sib) =
      match i.kind with
      | .ExpK OpK =>
        if i.attr = .op TokenType.EQ ∨ i.attr = .op TokenType.LT then Boolean else Integer
      | .ExpK ConstK => Integer
      | .ExpK IdK => Integer
      | .StmtK _ => Void := rfl

theorem violates_node (i : NodeInfo) (c0 c1 c2 sib : TreeNode) :
    violates (TreeNode.node i c0 c1 c2 sib) =
      match i.kind with
      | .ExpK OpK => decide (specType c0 ≠ Integer ∨ specType c1 ≠ Integer)
      | .StmtK IfK => decide (specType c0 ≠ Boolean)
      | .StmtK RepeatK => decide (specType c1 ≠ Boolean)
      | .StmtK AssignK => decide (specType c0 ≠ Integer)
      | .StmtK WriteK => decide (specType c0 ≠ Integer)
      | _ => false := rfl

/-- What `checkNode` does at a node whose operands have been checked: it reports the
diagnostic of the node exactly when the node violates the typing rule, and it gives an
expression node the type of the rule. -/
theorem checkNode_spec (i : NodeInfo) (c0 c1 c2 sib c0' c1' c2' : TreeNode) (a : AnalyzeState)
    (h0 : c0.isExp = true → c0'.type = specType c0) (h1 : c1.isExp = true → c1'.type = specType c1)
    (hl0 : c0'.info.lineno = c0.info.lineno) (hl1 : c1'.info.lineno = c1.info.lineno)
    (hs : NodeOK i c0 c1) :
    (checkNode (.node i c0' c1' c2' sib) a).2.listing =
      a.listing ++ (if violates (.node i c0 c1 c2 sib) = true
        then [diagOf (.node i c0 c1 c2 sib)] else []) ∧
    (checkNode (.node i c0' c1' c2' sib) a).2.Error =
      (a.Error || violates (.node i c0 c1 c2 sib)) ∧
    (checkNode (.node i c0' c1' c2' sib) a).1.lineno = i.lineno ∧
    (checkNode (.node i c0' c1' c2' sib) a).1.kind = i.kind ∧
    (checkNode (.node i c0' c1' c2' sib) a).1.attr = i.attr ∧
    ((TreeNode.node i c0 c1 c2 sib).isExp = true →
      (checkNode (.node i c0' c1' c2' sib) a).1.type = specType (.node i c0 c1 c2 sib)) := by
  obtain ⟨kind, attr, lineno, type⟩ := i
  unfold NodeOK at hs
  cases kind with
  | StmtK k =>
    cases k
    · -- IfK
      simp only at hs
      have e0 := h0 hs
      rcases specType_isExp c0 hs with h | h <;>
        simp [checkNode, info_node, child0_node, violates_node, diagOf, typeError,
          isExp_node, e0, h, hl0]
    · -- RepeatK
      simp only at hs
      have e1 := h1 hs
      rcases specType_isExp c1 hs with h | h <;>
        simp [checkNode, info_node, child1_node, violates_node, diagOf, typeError,
          isExp_node, e1, h, hl1]
    · -- AssignK
      simp only at hs
      have e0 := h0 hs.1
      rcases specType_isExp c0 hs.1 with h | h <;>
        simp [checkNode, info_node, child0_node, violates_node, diagOf, typeError,
          isExp_node, e0, h, hl0]
    · -- ReadK
      simp [checkNode, info_node, violates_node, isExp_node]
    · -- WriteK
      simp only at hs
      have e0 := h0 hs
      rcases specType_isExp c0 hs with h | h <;>
        simp [checkNode, info_node, child0_node, violates_node, diagOf, typeError,
          isExp_node, e0, h, hl0]
  | ExpK k =>
    cases k
    · -- OpK
      simp only at hs
      have e0 := h0 hs.1
      have e1 := h1 hs.2.1
      rcases specType_isExp c0 hs.1 with h | h <;>
      rcases specType_isExp c1 hs.2.1 with h' | h' <;>
        by_cases hop : attr = .op TokenType.EQ ∨ attr = .op TokenType.LT <;>
        simp [checkNode, info_node, child0_node, child1_node, violates_node, diagOf,
          typeError, isExp_node, e0, e1, h, h', specType_node, hop]
    · simp [checkNode, info_node, violates_node, isExp_node, specType_node]
    · simp [checkNode, info_node, violates_node, isExp_node, specType_node]


theorem wellFormed_node (i : NodeInfo) (c0 c1 c2 sib : TreeNode) :
    WellFormed (.node i c0 c1 c2 sib) ↔
      WellFormed c0 ∧ WellFormed c1 ∧ WellFormed c2 ∧ WellFormed sib ∧ NodeOK i c0 c1 := by
  simp only [WellFormed]

theorem traverse_node {σ : Type} (pre post : TreeNode → σ → NodeInfo × σ) (i : NodeInfo)
    (c0 c1 c2 sib : TreeNode) (a : σ) :
    traverse pre post (.node i c0 c1 c2 sib) a =
      (.node
        (post (.node (pre (.node i c0 c1 c2 sib) a).1
          (traverse pre post c0 (pre (.node i c0 c1 c2 sib) a).2).1
          (traverse pre post c1 (traverse pre post c0 (pre (.node i c0 c1 c2 sib) a).2).2).1
          (traverse pre post c2 (traverse pre post c1
            (traverse pre post c0 (pre (.node i c0 c1 c2 sib) a).2).2).2).1 sib)
          (traverse pre post c2 (traverse pre post c1
            (traverse pre post c0 (pre (.node i c0 c1 c2 sib) a).2).2).2).2).1
        (traverse pre post c0 (pre (.node i c0 c1 c2 sib) a).2).1
        (traverse pre post c1 (traverse pre post c0 (pre (.node i c0 c1 c2 sib) a).2).2).1
        (traverse pre post c2 (traverse pre post c1
          (traverse pre post c0 (pre (.node i c0 c1 c2 sib) a).2).2).2).1
        (traverse pre post sib
          (post (.node (pre (.node i c0 c1 c2 sib) a).1
            (traverse pre post c0 (pre (.node i c0 c1 c2 sib) a).2).1
            (traverse pre post c1 (traverse pre post c0 (pre (.node i c0 c1 c2 sib) a).2).2).1
            (traverse pre post c2 (traverse pre post c1
              (traverse pre post c0 (pre (.node i c0 c1 c2 sib) a).2).2).2).1 sib)
            (traverse pre post c2 (traverse pre post c1
              (traverse pre post c0 (pre (.node i c0 c1 c2 sib) a).2).2).2).2).2).1,
       (traverse pre post sib
          (post (.node (pre (.node i c0 c1 c2 sib) a).1
            (traverse pre post c0 (pre (.node i c0 c1 c2 sib) a).2).1
            (traverse pre post c1 (traverse pre post c0 (pre (.node i c0 c1 c2 sib) a).2).2).1
            (traverse pre post c2 (traverse pre post c1
              (traverse pre post c0 (pre (.node i c0 c1 c2 sib) a).2).2).2).1 sib)
            (traverse pre post c2 (traverse pre post c1
              (traverse pre post c0 (pre (.node i c0 c1 c2 sib) a).2).2).2).2).2).2) := rfl

/-- The procedure `typeCheck` on a well-formed tree: it reports the diagnostics of the
violating nodes in post-order, sets the error flag when there is one, and gives every
expression the type of the typing rule. -/
theorem typeCheck_spec (t : TreeNode) : ∀ a : AnalyzeState, WellFormed t →
    (typeCheck t a).2.listing = a.listing ++ ((postorder t).filter violates).map diagOf ∧
    (typeCheck t a).2.Error = (a.Error || (postorder t).any violates) ∧
    (t.isExp = true → (typeCheck t a).1.type = specType t) ∧
    (typeCheck t a).1.info.lineno = t.info.lineno := by
  unfold typeCheck
  induction t with
  | null =>
    intro a _
    simp [traverse, postorder, TreeNode.isExp]
  | node i c0 c1 c2 sib ih0 ih1 ih2 ih3 =>
    intro a hwf
    rw [wellFormed_node] at hwf
    obtain ⟨w0, w1, w2, w3, hs⟩ := hwf
    rw [traverse_node]
    simp only [nullProc, info_node]
    obtain ⟨l0, e0, t0, n0⟩ := ih0 a w0
    generalize traverse nullProc checkNode c0 a = r0 at *
    obtain ⟨l1, e1, t1, n1⟩ := ih1 r0.2 w1
    generalize traverse nullProc checkNode c1 r0.2 = r1 at *
    obtain ⟨l2, e2, _, _⟩ := ih2 r1.2 w2
    generalize traverse nullProc checkNode c2 r1.2 = r2 at *
    obtain ⟨q1, q2, q3, q4, q5, q6⟩ := checkNode_spec i c0 c1 c2 sib r0.1 r1.1 r2.1 r2.2
      t0 t1 n0 n1 hs
    generalize checkNode (.node i r0.1 r1.1 r2.1 sib) r2.2 = q at *
    obtain ⟨l3, e3, _, _⟩ := ih3 q.2 w3
    generalize traverse nullProc checkNode sib q.2 = rs at *
    refine ⟨?_, ?_, ?_, ?_⟩
    · rw [l3, q1, l2, l1, l0]
      simp only [postorder, List.filter_append, List.map_append, List.append_assoc,
        List.filter_cons, List.filter_nil]
      split_ifs <;> simp
    · rw [e3, q2, e2, e1, e0]
      simp only [postorder, List.any_append, List.any_cons, List.any_nil, Bool.or_false,
        Bool.or_assoc]
    · intro hexp
      rw [type_node]
      exact q6 hexp
    · exact q3

theorem st_lookup_zip (names : List (List Char)) : ∀ (tab : SymTab) (start : Nat),
    allocation tab = names.zip (List.range' start names.length) → names.Nodup →
    ∀ (k : Nat) (hk : k < names.length), st_lookup tab (names.get ⟨k, hk⟩) = ((start + k : Nat) : Int) := by
  induction names with
  | nil => intro tab start _ _ k hk; simp at hk
  | cons n ns ih =>
    intro tab start hal hnd k hk
    cases tab with
    | nil => simp [allocation, List.range'] at hal
    | cons e rest =>
      simp only [allocation, List.map_cons, List.length_cons, List.range', List.zip_cons_cons,
        List.cons.injEq, Prod.mk.injEq] at hal
      obtain ⟨⟨hn, hm⟩, hrest⟩ := hal
      cases k with
      | zero => simp [st_lookup, hn, hm]
      | succ k =>
        have hne : e.name ≠ ns.get ⟨k, by simpa using hk⟩ := by
          rw [hn]
          intro heq
          have := (List.nodup_cons.mp hnd).1
          exact this (heq ▸ List.get_mem _ _ _)
        simp only [List.get_cons_succ, st_lookup, hne, if_false]
        rw [ih rest (start + 1) hrest (List.nodup_cons.mp hnd).2 k]
        push_cast; ring


theorem specType_eq_Boolean (t : TreeNode) (h : specType t = Boolean) : isComparison t := by
  cases t with
  | null => simp [specType] at h
  | node i c0 c1 c2 sib =>
    obtain ⟨kind, attr, lineno, type⟩ := i
    rw [specType_node] at h
    unfold isComparison
    rw [info_node]
    cases kind with
    | StmtK k => simp at h
    | ExpK k =>
      cases k
      · simp only at h
        split_ifs at h with hc
        · exact ⟨rfl, hc⟩
      · simp at h
      · simp at h

theorem mem_postorder_node (s t : TreeNode) (h : s ∈ postorder t) :
    ∃ i c0 c1 c2 sib, s = .node i c0 c1 c2 sib := by
  induction t with
  | null => simp [postorder] at h
  | node i c0 c1 c2 sib ih0 ih1 ih2 ih3 =>
    simp only [postorder, List.mem_append, List.mem_singleton] at h
    rcases h with (((h | h) | h) | h) | h
    · exact ih0 h
    · exact ih1 h
    · exact ih2 h
    · exact ⟨_, _, _, _, _, h⟩
    · exact ih3 h


/-! ## The scanner on the character stream -/

theorem readLine_append_drop (k : Nat) (src : List Char) :
    readLine k src ++ src.drop (readLine k src).length = src := by
  induction k generalizing src with
  | zero => simp [readLine]
  | succ k ih =>
    cases src with
    | nil => simp [readLine]
    | cons c cs =>
      simp only [readLine]
      split
      · simp
      · simp [ih cs]

theorem readLine_subset (k : Nat) (src : List Char) : ∀ c ∈ readLine k src, c ∈ src := by
  intro c hc
  have := readLine_append_drop k src
  rw [← this]
  exact List.mem_append_left _ hc

theorem strlen_eq_length (buf : List Char) (h : ∀ c ∈ buf, c ≠ Char.ofNat 0) :
    strlen buf = buf.length := by
  unfold strlen
  rw [List.takeWhile_eq_self_iff.mpr]
  intro c hc
  simpa using h c hc

theorem pending_remaining (s : ScanState) (h : s.Inv) : s.pending.length = s.remaining := by
  obtain ⟨h1, h2, _, _⟩ := h
  simp only [ScanState.pending, ScanState.remaining, List.length_append, List.length_drop]
  omega

/-- Reading a character of a text: `getNextChar` returns the next character not yet
read, and `ungetNextChar` after it makes that character the next one again. -/
theorem getNextChar_cons (s : ScanState) (c : Char) (r : List Char) (h : s.Inv)
    (hp : s.pending = c :: r) :
    (getNextChar s).1 = some c ∧ (getNextChar s).2.Inv ∧ (getNextChar s).2.pending = r ∧
    (ungetNextChar (getNextChar s).2).Inv ∧ (ungetNextChar (getNextChar s).2).pending = c :: r ∧
    (getNextChar s).2.tokenString = s.tokenString ∧
    (ungetNextChar (getNextChar s).2).tokenString = s.tokenString := by
  obtain ⟨h1, h2, h3, h4, h5⟩ := h
  have hE : s.EOF_flag = false := by
    cases hf : s.EOF_flag
    · rfl
    · rw [h3 hf] at hp; simp at hp
  have hcv : charValue c = some c := by
    have := h5 c (by rw [hp]; exact List.mem_cons_self _ _)
    simp [charValue, this]
  have h5r : ∀ x ∈ r, x ≠ Char.ofNat 255 := fun x hx =>
    h5 x (by rw [hp]; exact List.mem_cons_of_mem _ hx)
  have h5c : ∀ x ∈ c :: r, x ≠ Char.ofNat 255 := fun x hx => h5 x (by rw [hp]; exact hx)
  unfold getNextChar
  by_cases hlt : s.linepos < s.bufsize
  · simp only [hlt, not_true_eq_false, if_false]
    have hlt' : s.linepos < s.lineBuf.length := h1 ▸ hlt
    have hd : s.lineBuf.drop s.linepos = s.lineBuf[s.linepos] :: s.lineBuf.drop (s.linepos + 1) :=
      List.drop_eq_getElem_cons hlt'
    simp only [ScanState.pending, hd, List.cons_append, List.cons.injEq] at hp
    obtain ⟨hc, hr⟩ := hp
    have hpr : (⟨s.source, s.lineBuf, s.linepos + 1, s.bufsize, s.EOF_flag, s.lineno,
        s.tokenString⟩ : ScanState).pending = r := by
      simpa [ScanState.pending] using hr
    have hpc : (⟨s.source, s.lineBuf, s.linepos + 1 - 1, s.bufsize, s.EOF_flag, s.lineno,
        s.tokenString⟩ : ScanState).pending = c :: r := by
      simp only [ScanState.pending, Nat.add_sub_cancel, hd, List.cons_append, hc, hr]
    refine ⟨?_, ⟨h1, by simp only []; omega, ?_, h4, ?_⟩, ?_, ?_, ?_, trivial, ?_⟩
    · simp [List.getD_eq_getElem?_getD, List.getElem?_eq_getElem hlt', hc, hcv]
    · simp [hE]
    · intro x hx; exact h5r x (by rw [← hpr]; exact hx)
    · exact hpr
    · simp only [ungetNextChar, hE, Bool.false_eq_true, not_false_eq_true, if_true]
      exact ⟨h1, by simp only [Nat.add_sub_cancel]; exact h2, by simp [hE], h4,
        fun x hx => h5c x (by rw [← hpc]; exact hx)⟩
    · simp only [ungetNextChar, hE, Bool.false_eq_true, not_false_eq_true, if_true,
        ScanState.pending, Nat.add_sub_cancel, hd, List.cons_append, hc, hr]
    · simp only [ungetNextChar, hE, Bool.false_eq_true, not_false_eq_true, if_true]
  · simp only [hlt, not_false_eq_true, if_true]
    have hge : s.lineBuf.length ≤ s.linepos := by omega
    simp only [ScanState.pending, List.drop_eq_nil_of_le hge, List.nil_append] at hp
    simp only [hp, fgets]
    have hk : 0 < BUFLEN - 1 - 1 := by decide
    have hpos := readLine_pos (BUFLEN - 1 - 1) hk c r
    have happ := readLine_append_drop (BUFLEN - 1 - 1) (c :: r)
    have hsub := readLine_subset (BUFLEN - 1 - 1) (c :: r)
    have hnul : ∀ x ∈ readLine (BUFLEN - 1 - 1) (c :: r), x ≠ Char.ofNat 0 :=
      fun x hx => h4 x (hp ▸ hsub x hx)
    have hlen := strlen_eq_length _ hnul
    generalize readLine (BUFLEN - 1 - 1) (c :: r) = line at *
    cases line with
    | nil => simp at hpos
    | cons a as =>
      simp only [List.cons_append, List.cons.injEq, List.length_cons] at happ
      obtain ⟨rfl, hr⟩ := happ
      have hdrop : ∀ x ∈ List.drop (as.length + 1) (a :: r), x ≠ Char.ofNat 0 := by
        intro x hx
        exact h4 x (hp ▸ List.mem_of_mem_drop hx)
      have hpr : (⟨List.drop (a :: as).length (a :: r), a :: as, 1, strlen (a :: as),
          s.EOF_flag, s.lineno + 1, s.tokenString⟩ : ScanState).pending = r := by
        simpa [ScanState.pending] using hr
      have hpc : (⟨List.drop (a :: as).length (a :: r), a :: as, 1 - 1, strlen (a :: as),
          s.EOF_flag, s.lineno + 1, s.tokenString⟩ : ScanState).pending = a :: r := by
        simp only [ScanState.pending]
        simpa using hr
      refine ⟨by simpa using hcv, ⟨hlen, by simp only [hlen, List.length_cons]; omega, ?_, hdrop,
        ?_⟩, ?_, ?_, ?_, trivial, ?_⟩
      · simp [hE]
      · intro x hx; exact h5r x (by rw [← hpr]; exact hx)
      · exact hpr
      · simp only [ungetNextChar, hE, Bool.false_eq_true, not_false_eq_true, if_true]
        exact ⟨hlen, by simp, by simp [hE], hdrop, fun x hx => h5c x (by rw [← hpc]; exact hx)⟩
      · simp only [ungetNextChar, hE, Bool.false_eq_true, not_false_eq_true, if_true,
          ScanState.pending]
        simpa using hr
      · simp only [ungetNextChar, hE, Bool.false_eq_true, not_false_eq_true, if_true]

/-- Reading at the end of a text: `getNextChar` returns `EOF`, and `ungetNextChar`
after it does nothing. -/
theorem getNextChar_nil (s : ScanState) (h : s.Inv) (hp : s.pending = []) :
    (getNextChar s).1 = none ∧ (getNextChar s).2.Inv ∧ (getNextChar s).2.pending = [] ∧
    ungetNextChar (getNextChar s).2 = (getNextChar s).2 ∧
    (getNextChar s).2.tokenString = s.tokenString := by
  obtain ⟨h1, h2, h3, h4, h5⟩ := h
  simp only [ScanState.pending, List.append_eq_nil, List.drop_eq_nil_iff] at hp
  obtain ⟨hd, hs⟩ := hp
  have hlt : ¬ s.linepos < s.bufsize := by omega
  unfold getNextChar
  simp only [hlt, not_false_eq_true, if_true, hs, fgets]
  refine ⟨trivial, ⟨h1, h2, ?_, by simp, ?_⟩, ?_, ?_, trivial⟩
  · intro _
    simp [ScanState.pending, hd]
  · simp [ScanState.pending, List.drop_eq_nil_of_le hd]
  · simp [ScanState.pending, hd]
  · simp [ungetNextChar]


theorem startToken_ne_ID (c : Option Char) : (startToken c).1 ≠ ID := by
  cases c with
  | none => simp [startToken]
  | some ch =>
    simp only [startToken]
    split_ifs <;> simp

theorem ungetNextChar_tokenString (s : ScanState) :
    (ungetNextChar s).tokenString = s.tokenString := by
  unfold ungetNextChar; split <;> rfl

theorem finishToken_eq (l : LoopState) (h : l.currentToken ≠ ID) : finishToken l = l := by
  simp [finishToken, h]

theorem finishToken_not_DONE (l : LoopState) (h : l.state ≠ DONE) : finishToken l = l := by
  simp [finishToken, h]

theorem saveChar_mk_true (c : Option Char) (st : StateType) (cur : TokenType) (sc : ScanState) :
    saveChar c ⟨st, cur, true, sc⟩ =
      ⟨st, cur, true, { sc with tokenString := pushChar sc.tokenString (toChar c) }⟩ := by
  unfold saveChar pushChar
  simp only [true_and]
  split_ifs <;> rfl

theorem saveChar_mk_false (c : Option Char) (st : StateType) (cur : TokenType) (sc : ScanState) :
    saveChar c ⟨st, cur, false, sc⟩ = ⟨st, cur, false, sc⟩ := by
  simp [saveChar]

theorem tokenString_update_self (s : ScanState) (ts : List Char) (h : s.tokenString = ts) :
    s = { s with tokenString := ts } := by
  subst h; rfl

/-- One iteration of the loop of `getToken` in terms of `stepS`. -/
theorem loopBody_stepS (l : LoopState) (hl : l.state ≠ DONE) :
    (loopBody l).state =
      (stepS l.state (getNextChar l.scan).2.tokenString (getNextChar l.scan).1).state ∧
    ((stepS l.state (getNextChar l.scan).2.tokenString (getNextChar l.scan).1).state = DONE →
      (loopBody l).currentToken =
        (stepS l.state (getNextChar l.scan).2.tokenString (getNextChar l.scan).1).token) ∧
    (loopBody l).scan =
      { (if (stepS l.state (getNextChar l.scan).2.tokenString (getNextChar l.scan).1).unget = true
          then ungetNextChar (getNextChar l.scan).2 else (getNextChar l.scan).2) with
        tokenString :=
          (stepS l.state (getNextChar l.scan).2.tokenString (getNextChar l.scan).1).lexeme } := by
  obtain ⟨state, cur, save, scan⟩ := l
  simp only [loopBody]
  generalize (getNextChar scan).1 = c
  generalize (getNextChar scan).2 = s1
  have hne := startToken_ne_ID c
  have hu := ungetNextChar_tokenString s1
  cases state with
  | START =>
    simp only [switchState, stepS]
    by_cases h6 : (startToken c).2 = true
    · split_ifs <;> simp_all [saveChar_mk_true, saveChar_mk_false, finishToken]
    · have h6' : (startToken c).2 = false := by simpa using h6
      split_ifs <;> simp_all [saveChar_mk_true, saveChar_mk_false, finishToken]
  | INCOMMENT =>
    simp only [switchState, stepS]
    split_ifs <;> simp_all [saveChar_mk_true, saveChar_mk_false, finishToken]
  | INASSIGN =>
    simp only [switchState, stepS]
    split_ifs <;> simp_all [saveChar_mk_true, saveChar_mk_false, finishToken] <;>
      exact tokenString_update_self _ _ hu
  | INNUM =>
    simp only [switchState, stepS]
    split_ifs <;> simp_all [saveChar_mk_true, saveChar_mk_false, finishToken] <;>
      exact tokenString_update_self _ _ hu
  | INID =>
    simp only [switchState, stepS]
    split_ifs <;> simp_all [saveChar_mk_true, saveChar_mk_false, finishToken] <;>
      exact tokenString_update_self _ _ hu
  | DONE => exact absurd rfl hl

theorem stepS_none_DONE (st : StateType) (acc : List Char) :
    (stepS st acc none).state = DONE := by
  cases st <;> simp [stepS, isdigit, isalpha]

theorem stepS_unget_DONE (st : StateType) (acc : List Char) (c : Option Char)
    (h : (stepS st acc c).unget = true) : (stepS st acc c).state = DONE := by
  cases st <;> simp only [stepS] at h ⊢ <;> split_ifs at h ⊢ <;> simp_all

theorem lexS_nil (st : StateType) (acc : List Char) :
    lexS st acc [] = ((stepS st acc none).token, (stepS st acc none).lexeme, []) := by
  cases st <;> rfl

theorem lexS_cons (st : StateType) (acc : List Char) (c : Char) (cs : List Char) :
    lexS st acc (c :: cs) =
      if (stepS st acc (some c)).state = DONE then
        ((stepS st acc (some c)).token, (stepS st acc (some c)).lexeme,
          if (stepS st acc (some c)).unget = true then c :: cs else cs)
      else lexS (stepS st acc (some c)).state (stepS st acc (some c)).lexeme cs := by
  cases st <;> rfl

theorem inv_tokenString (s : ScanState) (ts : List Char) :
    ({ s with tokenString := ts } : ScanState).Inv ↔ s.Inv := Iff.rfl

theorem pending_tokenString (s : ScanState) (ts : List Char) :
    ({ s with tokenString := ts } : ScanState).pending = s.pending := rfl

/-- The loop of `getToken` on a text computes `lexS` of the characters not yet read. -/
theorem getTokenLoop_lexS (fuel : Nat) : ∀ l : LoopState, l.scan.Inv → l.state ≠ DONE →
    l.scan.pending.length + 1 ≤ fuel →
    (getTokenLoop fuel l).currentToken = (lexS l.state l.scan.tokenString l.scan.pending).1 ∧
    (getTokenLoop fuel l).scan.tokenString =
      (lexS l.state l.scan.tokenString l.scan.pending).2.1 ∧
    (getTokenLoop fuel l).scan.pending = (lexS l.state l.scan.tokenString l.scan.pending).2.2 ∧
    (getTokenLoop fuel l).scan.Inv := by
  induction fuel with
  | zero => intro l _ _ h; omega
  | succ n ih =>
    intro l hI hl hf
    obtain ⟨b1, b2, b3⟩ := loopBody_stepS l hl
    simp only [getTokenLoop, hl, if_false]
    cases hp : l.scan.pending with
    | nil =>
      obtain ⟨g1, g2, g3, g4, g5⟩ := getNextChar_nil l.scan hI hp
      rw [g1, g5] at b1 b2 b3
      rw [g4, ite_self] at b3
      have hd := stepS_none_DONE l.state l.scan.tokenString
      rw [hd] at b1
      rw [getTokenLoop_DONE _ _ b1, lexS_nil, b2 hd, b3]
      exact ⟨rfl, rfl, g3, g2⟩
    | cons c r =>
      obtain ⟨g1, g2, g3, g4, g5, g6, g7⟩ := getNextChar_cons l.scan c r hI hp
      rw [g1, g6] at b1 b2 b3
      rw [lexS_cons]
      by_cases hd : (stepS l.state l.scan.tokenString (some c)).state = DONE
      · rw [hd] at b1
        rw [getTokenLoop_DONE _ _ b1, if_pos hd, b2 hd, b3]
        refine ⟨rfl, rfl, ?_, ?_⟩
        · rw [pending_tokenString]
          split_ifs
          · exact g5
          · exact g3
        · rw [inv_tokenString]
          split_ifs
          · exact g4
          · exact g2
      · have hu : (stepS l.state l.scan.tokenString (some c)).unget = false := by
          cases hx : (stepS l.state l.scan.tokenString (some c)).unget
          · rfl
          · exact absurd (stepS_unget_DONE _ _ _ hx) hd
        rw [hu] at b3
        simp only [Bool.false_eq_true, if_false] at b3
        rw [if_neg hd]
        have hl' : (loopBody l).state ≠ DONE := by rw [b1]; exact hd
        have hI' : (loopBody l).scan.Inv := by rw [b3]; exact g2
        have hp' : (loopBody l).scan.pending = r := by rw [b3]; exact g3
        have hlen : (loopBody l).scan.pending.length + 1 ≤ n := by
          rw [hp'] at *
          rw [hp] at hf
          simp only [List.length_cons] at hf
          omega
        have := ih (loopBody l) hI' hl' hlen
        rw [hp', b1] at this
        have hts : (loopBody l).scan.tokenString =
            (stepS l.state l.scan.tokenString (some c)).lexeme := by rw [b3]
        rw [hts] at this
        exact this

/-- On a text `getToken` returns the token `lexS` finds at the head of the characters
not yet read, leaves its lexeme in `tokenString` and the rest of the characters
unread. -/
theorem getToken_lexS (s : ScanState) (h : s.Inv) :
    (getToken s).1 = (lexS START [] s.pending).1 ∧
    (getToken s).2.tokenString = (lexS START [] s.pending).2.1 ∧
    (getToken s).2.pending = (lexS START [] s.pending).2.2 ∧
    (getToken s).2.Inv := by
  have := getTokenLoop_lexS (s.remaining + 1)
    { state := START, currentToken := ERROR, save := true, scan := { s with tokenString := [] } }
    h (by simp) (by rw [pending_tokenString, pending_remaining s h])
  exact this

theorem stepS_unget_state (st : StateType) (acc : List Char) (c : Option Char)
    (h : (stepS st acc c).unget = true) : st = INASSIGN ∨ st = INNUM ∨ st = INID := by
  cases st <;> simp only [stepS] at h <;> (try split_ifs at h) <;> simp_all

theorem stepS_none_token (st : StateType) (acc : List Char)
    (h : st = START ∨ st = INCOMMENT) : (stepS st acc none).token = ENDFILE := by
  rcases h with rfl | rfl <;> simp [stepS, isdigit, isalpha, startToken]

/-- The token `lexS` finds leaves a suffix of the stream unread, a proper one when the
token is not `ENDFILE` and the DFA started at a token boundary or inside a comment. -/
theorem lexS_length (cs : List Char) : ∀ (st : StateType) (acc : List Char),
    (lexS st acc cs).2.2.length ≤ cs.length ∧
    ((st = START ∨ st = INCOMMENT) → (lexS st acc cs).1 ≠ ENDFILE →
      (lexS st acc cs).2.2.length < cs.length) := by
  induction cs with
  | nil =>
    intro st acc
    rw [lexS_nil]
    exact ⟨le_refl _, fun hst hne => absurd (stepS_none_token st acc hst) hne⟩
  | cons c cs ih =>
    intro st acc
    rw [lexS_cons]
    split_ifs with hd hu
    · refine ⟨le_refl _, fun hst _ => ?_⟩
      rcases stepS_unget_state _ _ _ hu with h | h | h <;> rcases hst with h' | h' <;>
        rw [h] at h' <;> cases h'
    · exact ⟨Nat.le_succ _, fun _ _ => Nat.lt_succ_self _⟩
    · have := (ih (stepS st acc (some c)).state (stepS st acc (some c)).lexeme).1
      simp only [List.length_cons]
      exact ⟨by omega, fun _ _ => by omega⟩

theorem tokensS_succ (n : Nat) (cs : List Char) :
    tokensS (n + 1) cs =
      if (lexS START [] cs).1 = ENDFILE then []
      else ((lexS START [] cs).1, (lexS START [] cs).2.1) ::
        tokensS n (lexS START [] cs).2.2 := rfl

theorem tokensS_fuel (fuel : Nat) : ∀ cs : List Char, cs.length + 1 ≤ fuel →
    tokensS fuel cs = tokensS (cs.length + 1) cs := by
  induction fuel using Nat.strong_induction_on with
  | _ fuel ih =>
    intro cs hf
    obtain ⟨n, rfl⟩ : ∃ n, fuel = n + 1 := ⟨fuel - 1, by omega⟩
    rw [tokensS_succ, tokensS_succ]
    split_ifs with h
    · rfl
    · have hlt := (lexS_length cs START []).2 (Or.inl rfl) h
      rw [ih n (by omega) _ (by omega), ih cs.length (by omega) _ (by omega)]

/-- The tokens of a character stream: the first token followed by the tokens of the
characters it leaves unread. -/
theorem scanS_unfold (cs : List Char) : scanS cs = runS START [] cs := by
  unfold scanS runS
  rw [tokensS_succ]
  split_ifs with h
  · rfl
  · have hlt := (lexS_length cs START []).2 (Or.inl rfl) h
    rw [tokensS_fuel cs.length _ (by omega)]
    rfl

/-- On a text the kinds and lexemes of the tokens `getToken` returns are those `scanS`
finds in the characters not yet read. -/
theorem scanRest_scanS (n : Nat) : ∀ s : ScanState, s.Inv → s.remaining ≤ n →
    (scanRest s).map Token.pair = scanS s.pending := by
  induction n with
  | zero =>
    intro s h hn
    obtain ⟨g1, g2, g3, g4⟩ := getToken_lexS s h
    have hp : s.pending = [] := by
      have := pending_remaining s h
      exact List.length_eq_zero.mp (by omega)
    rw [scanRest_unfold, scanS_unfold, runS, ← g1]
    have : (getToken s).1 = ENDFILE := by rw [g1, hp]; rfl
    simp [this]
  | succ n ih =>
    intro s h hn
    obtain ⟨g1, g2, g3, g4⟩ := getToken_lexS s h
    rw [scanRest_unfold, scanS_unfold, runS, ← g1]
    split_ifs with hE
    · rfl
    · have hlt := getToken_remaining_lt s hE
      rw [List.map_cons, ih _ g4 (by omega), g3]
      simp only [Token.pair, g2]

theorem inv_init (src : List Char) (h : IsText src) : (ScanState.init src).Inv :=
  ⟨rfl, le_refl _, fun hf => by simp [ScanState.init] at hf, fun c hc => (h c hc).1,
    fun c hc h255 => by
      have h1 : c ∈ src := by simpa [ScanState.init, ScanState.pending] using hc
      have h2 := (h c h1).2
      rw [h255] at h2
      exact absurd h2 (by decide)⟩

/-- The kinds and lexemes of the tokens of a source text are those `scanS` finds. -/
theorem scanAll_scanS (src : List Char) (h : IsText src) :
    (scanAll src).map Token.pair = scanS src :=
  scanRest_scanS _ _ (inv_init src h) (le_refl _)

theorem stepS_some_token (st : StateType) (acc : List Char) (c : Char)
    (h : (stepS st acc (some c)).state = DONE) : (stepS st acc (some c)).token ≠ ENDFILE := by
  cases st <;> simp only [stepS] at h ⊢ <;> (try split_ifs at h ⊢) <;>
    simp_all [reservedLookup_ne_ENDFILE, (startToken_none_iff (some c)).not]

theorem scanS_nil : scanS [] = [] := by
  rw [scanS_unfold, runS, lexS_nil]
  simp [stepS, isdigit, isalpha, startToken]

theorem runS_nil (st : StateType) (acc : List Char) :
    runS st acc [] =
      if (stepS st acc none).token = ENDFILE then []
      else [((stepS st acc none).token, (stepS st acc none).lexeme)] := by
  rw [runS, lexS_nil]
  simp only [scanS_nil]

theorem runS_cons_keep (st : StateType) (acc : List Char) (c : Char) (cs : List Char)
    (hd : (stepS st acc (some c)).state = DONE) (hu : (stepS st acc (some c)).unget = false) :
    runS st acc (c :: cs) =
      ((stepS st acc (some c)).token, (stepS st acc (some c)).lexeme) :: scanS cs := by
  rw [runS, lexS_cons]
  simp [hd, hu, stepS_some_token st acc c hd]

theorem runS_cons_unget (st : StateType) (acc : List Char) (c : Char) (cs : List Char)
    (hd : (stepS st acc (some c)).state = DONE) (hu : (stepS st acc (some c)).unget = true) :
    runS st acc (c :: cs) =
      ((stepS st acc (some c)).token, (stepS st acc (some c)).lexeme) :: scanS (c :: cs) := by
  rw [runS, lexS_cons]
  simp [hd, hu, stepS_some_token st acc c hd]

theorem runS_cons_continue (st : StateType) (acc : List Char) (c : Char) (cs : List Char)
    (hd : (stepS st acc (some c)).state ≠ DONE) :
    runS st acc (c :: cs) =
      runS (stepS st acc (some c)).state (stepS st acc (some c)).lexeme cs := by
  rw [runS, lexS_cons, if_neg hd]
  rfl

theorem endState_keep (st : StateType) (acc : List Char) (c : Char) (cs : List Char)
    (hst : st ≠ DONE)
    (hd : (stepS st acc (some c)).state = DONE) (hu : (stepS st acc (some c)).unget = false) :
    endState st (c :: cs) = endState START cs := by
  cases st <;> simp only [stepS, endState, afterStart, isdigit, isalpha] at hd hu ⊢ <;>
    (try split_ifs at hd hu ⊢) <;> simp_all

theorem endState_unget (st : StateType) (acc : List Char) (c : Char) (cs : List Char)
    (hd : (stepS st acc (some c)).state = DONE) (hu : (stepS st acc (some c)).unget = true) :
    endState st (c :: cs) = endState START (c :: cs) := by
  cases st <;> simp only [stepS, endState, afterStart, isdigit, isalpha] at hd hu ⊢ <;>
    (try split_ifs at hd hu ⊢) <;> simp_all

theorem endState_continue (st : StateType) (acc : List Char) (c : Char) (cs : List Char)
    (hd : (stepS st acc (some c)).state ≠ DONE) :
    endState st (c :: cs) = endState (stepS st acc (some c)).state cs := by
  cases st <;> simp only [stepS, endState, afterStart, isdigit, isalpha] at hd ⊢ <;>
    (try split_ifs at hd ⊢) <;> simp_all

theorem stepS_continue_lexeme (st : StateType) (acc : List Char) (c : Char)
    (hacc : st = START ∨ st = INCOMMENT → acc = [])
    (h : (stepS st acc (some c)).state = START ∨ (stepS st acc (some c)).state = INCOMMENT) :
    (stepS st acc (some c)).lexeme = [] := by
  cases st <;> simp only [stepS, isdigit, isalpha] at h ⊢ <;>
    (try split_ifs at h ⊢) <;> simp_all


theorem endState_nil (st : StateType) : endState st [] = st := by
  cases st <;> rfl

theorem runS_split_base (st : StateType) (acc : List Char) (x : Char) (rest : List Char)
    (hacc : st = START ∨ st = INCOMMENT → acc = []) (hb : breaks st x) :
    runS st acc (x :: rest) = runS st acc [] ++ scanS (x :: rest) := by
  cases st with
  | START =>
    rw [hacc (Or.inl rfl), ← scanS_unfold, ← scanS_unfold, scanS_nil]
    rfl
  | INCOMMENT => exact absurd hb id
  | DONE => exact absurd hb id
  | INASSIGN =>
    have hx : x ≠ '=' := hb
    rw [runS_cons_unget _ _ _ _ (by simp [stepS, hx]) (by simp [stepS, hx]), runS_nil]
    simp [stepS, hx]
  | INNUM =>
    have hx : x.isDigit = false := hb
    rw [runS_cons_unget _ _ _ _ (by simp [stepS, isdigit, hx]) (by simp [stepS, isdigit, hx]),
      runS_nil]
    simp [stepS, isdigit, hx]
  | INID =>
    have hx : x.isAlpha = false := hb
    rw [runS_cons_unget _ _ _ _ (by simp [stepS, isalpha, hx]) (by simp [stepS, isalpha, hx]),
      runS_nil]
    simp [stepS, isalpha, hx, reservedLookup_ne_ENDFILE]

/-- A token boundary splits the token sequence: when the character `x` that follows
the characters `pre` ends whatever token is in progress after `pre`, the tokens of
`pre ++ x :: rest` are those of `pre` followed by those of `x :: rest`. -/
theorem runS_split (pre : List Char) (x : Char) (rest : List Char) :
    ∀ (st : StateType) (acc : List Char), st ≠ DONE →
    (st = START ∨ st = INCOMMENT → acc = []) → breaks (endState st pre) x →
    runS st acc (pre ++ x :: rest) = runS st acc pre ++ scanS (x :: rest) := by
  induction pre with
  | nil =>
    intro st acc _ hacc hb
    rw [endState_nil] at hb
    exact runS_split_base st acc x rest hacc hb
  | cons c cs ih =>
    have key : ∀ (st : StateType) (acc : List Char), st ≠ DONE →
        (st = START ∨ st = INCOMMENT → acc = []) → breaks (endState st (c :: cs)) x →
        ¬ ((stepS st acc (some c)).state = DONE ∧ (stepS st acc (some c)).unget = true) →
        runS st acc (c :: cs ++ x :: rest) = runS st acc (c :: cs) ++ scanS (x :: rest) := by
      intro st acc hst hacc hb hnu
      by_cases hd : (stepS st acc (some c)).state = DONE
      · have hu : (stepS st acc (some c)).unget = false := by
          cases hx : (stepS st acc (some c)).unget
          · rfl
          · exact absurd ⟨hd, hx⟩ hnu
        rw [List.cons_append, runS_cons_keep _ _ _ _ hd hu, runS_cons_keep _ _ _ _ hd hu,
          scanS_unfold, scanS_unfold cs,
          ih START [] (by decide) (fun _ => rfl) (by rw [← endState_keep st acc c cs hst hd hu]; exact hb)]
        rfl
      · rw [List.cons_append, runS_cons_continue _ _ _ _ hd, runS_cons_continue _ _ _ _ hd]
        exact ih _ _ hd (stepS_continue_lexeme st acc c hacc)
          (by rw [← endState_continue st acc c cs hd]; exact hb)
    intro st acc hst hacc hb
    by_cases hdu : (stepS st acc (some c)).state = DONE ∧ (stepS st acc (some c)).unget = true
    · obtain ⟨hd, hu⟩ := hdu
      rw [List.cons_append, runS_cons_unget _ _ _ _ hd hu, runS_cons_unget _ _ _ _ hd hu,
        scanS_unfold, scanS_unfold (c :: cs), ← List.cons_append,
        key START [] (by decide) (fun _ => rfl)
          (by rw [← endState_unget st acc c cs hd hu]; exact hb)
          (fun h => by
            rcases stepS_unget_state _ _ _ h.2 with h' | h' | h' <;> cases h')]
      rfl
    · exact key st acc hst hacc hb hdu

/-- The split of the token sequence at a token boundary, for whole texts. -/
theorem scanS_split (pre : List Char) (x : Char) (rest : List Char)
    (hb : breaks (endState START pre) x) :
    scanS (pre ++ x :: rest) = scanS pre ++ scanS (x :: rest) := by
  rw [scanS_unfold, scanS_unfold pre]
  exact runS_split pre x rest START [] (by decide) (fun _ => rfl) hb

theorem afterStart_ne_DONE (c : Char) : afterStart c ≠ DONE := by
  unfold afterStart; split_ifs <;> decide

theorem afterStart_INCOMMENT (c : Char) : afterStart c = INCOMMENT ↔ c = '{' := by
  unfold afterStart
  constructor
  · intro h
    split_ifs at h with h1 h2 h3 h4 h5
    exact h5
  · rintro rfl
    decide

theorem afterStart_INID (c : Char) (h : afterStart c = INID) : c.isAlpha = true := by
  unfold afterStart at h
  split_ifs at h with h1 h2
  exact h2

/-- The DFA state after some characters is `INCOMMENT` exactly when they end inside a
comment. -/
theorem endState_INCOMMENT (pre : List Char) : ∀ st : StateType, st ≠ DONE →
    (endState st pre ≠ DONE) ∧
    (endState st pre = INCOMMENT ↔ inComment (decide (st = INCOMMENT)) pre = true) := by
  induction pre with
  | nil =>
    intro st hst
    rw [endState_nil]
    exact ⟨hst, by simp [inComment]⟩
  | cons c cs ih =>
    intro st hst
    have hA := afterStart_INCOMMENT c
    have hA' := ih (afterStart c) (afterStart_ne_DONE c)
    have hS := ih START (by decide)
    have hgo : (endState (afterStart c) cs ≠ DONE) ∧
        (endState (afterStart c) cs = INCOMMENT ↔ inComment (decide (c = '{')) cs = true) := by
      refine ⟨hA'.1, ?_⟩
      rw [hA'.2]
      by_cases hc : c = '{'
      · subst hc
        have : afterStart '{' = INCOMMENT := by decide
        simp [this]
      · have : afterStart c ≠ INCOMMENT := fun h => hc (hA.mp h)
        simp [hc, this]
    cases st with
    | START => simpa [endState, inComment] using hgo
    | DONE => exact absurd rfl hst
    | INCOMMENT =>
      simp only [endState, inComment, decide_True]
      split_ifs with hc
      · simpa [hc] using hS
      · simpa [hc] using ih INCOMMENT (by decide)
    | INASSIGN =>
      simp only [endState, inComment]
      split_ifs with hc
      · have : ¬ c = '{' := by rw [hc]; decide
        simpa [this] using hS
      · simpa using hgo
    | INNUM =>
      simp only [endState, inComment]
      split_ifs with hc
      · have : ¬ c = '{' := by rintro rfl; simp at hc
        simpa [this] using ih INNUM (by decide)
      · simpa using hgo
    | INID =>
      simp only [endState, inComment]
      split_ifs with hc
      · have : ¬ c = '{' := by rintro rfl; simp at hc
        simpa [this] using ih INID (by decide)
      · simpa using hgo

/-- The DFA state after some characters is `INID` only when the last of them is a
letter. -/
theorem endState_INID (pre : List Char) : ∀ st : StateType,
    endState st pre = INID → (pre = [] ∧ st = INID) ∨ ∃ a ∈ pre.getLast?, a.isAlpha = true := by
  induction pre with
  | nil =>
    intro st h
    rw [endState_nil] at h
    exact Or.inl ⟨rfl, h⟩
  | cons c cs ih =>
    intro st h
    right
    have hlast : ∀ st', endState st' cs = INID → (st' = INID → c.isAlpha = true) →
        ∃ a ∈ (c :: cs).getLast?, a.isAlpha = true := by
      intro st' h' hc
      rcases ih st' h' with ⟨rfl, hst⟩ | ⟨a, ha, hal⟩
      · exact ⟨c, by simp, hc hst⟩
      · refine ⟨a, ?_, hal⟩
        cases cs with
        | nil => simp at ha
        | cons d ds => simpa [List.getLast?_cons_cons] using ha
    cases st with
    | START => exact hlast _ h (afterStart_INID c)
    | DONE => exact hlast START h (fun h => nomatch h)
    | INCOMMENT =>
      simp only [endState] at h
      split_ifs at h
      · exact hlast START h (fun h => nomatch h)
      · exact hlast INCOMMENT h (fun h => nomatch h)
    | INASSIGN =>
      simp only [endState] at h
      split_ifs at h
      · exact hlast START h (fun h => nomatch h)
      · exact hlast _ h (afterStart_INID c)
    | INNUM =>
      simp only [endState] at h
      split_ifs at h
      · exact hlast INNUM h (fun h => nomatch h)
      · exact hlast _ h (afterStart_INID c)
    | INID =>
      simp only [endState] at h
      split_ifs at h with hc
      · exact hlast INID h (fun _ => hc)
      · exact hlast _ h (afterStart_INID c)

/-- A character that is no digit, no letter and not `=` ends every token in progress
outside a comment. -/
theorem breaks_of_separator (pre : List Char) (x : Char) (hc : inComment false pre = false)
    (h1 : x.isDigit = false) (h2 : x.isAlpha = false) (h3 : x ≠ '=') :
    breaks (endState START pre) x := by
  obtain ⟨hd, hi⟩ := endState_INCOMMENT pre START (by decide)
  have hne : endState START pre ≠ INCOMMENT := by
    intro h
    have := hi.mp h
    simp [hc] at this
  cases hst : endState START pre <;> simp_all [breaks]

theorem isText_append (u v : List Char) : IsText (u ++ v) ↔ IsText u ∧ IsText v := by
  simp only [IsText, List.mem_append]
  constructor
  · intro h
    exact ⟨fun c hc => h c (Or.inl hc), fun c hc => h c (Or.inr hc)⟩
  · rintro ⟨h1, h2⟩ c (hc | hc)
    · exact h1 c hc
    · exact h2 c hc

theorem isText_cons (a : Char) (v : List Char) :
    IsText (a :: v) ↔ (a ≠ Char.ofNat 0 ∧ a.toNat < 128) ∧ IsText v := by
  simp [IsText]

/-- A comment is skipped: inside a comment everything up to the first `}` is dropped
and scanning resumes at a token boundary. -/
theorem lexS_comment (c : List Char) (s2 : List Char) (hc : '}' ∉ c) :
    lexS INCOMMENT [] (c ++ '}' :: s2) = lexS START [] s2 := by
  induction c with
  | nil =>
    rw [List.nil_append, lexS_cons]
    simp [stepS]
  | cons a as ih =>
    have ha : a ≠ '}' := fun h => hc (h ▸ List.mem_cons_self _ _)
    have has : '}' ∉ as := fun h => hc (List.mem_cons_of_mem _ h)
    rw [List.cons_append, lexS_cons]
    simp [stepS, ha, ih has]

theorem scanS_comment (c : List Char) (s2 : List Char) (hc : '}' ∉ c) :
    scanS ('{' :: (c ++ '}' :: s2)) = scanS s2 := by
  rw [scanS_unfold, scanS_unfold s2, runS, runS, lexS_cons]
  have h1 : isdigit (some '{') = false := by decide
  have h2 : isalpha (some '{') = false := by decide
  simp [stepS, h1, h2, lexS_comment c s2 hc]

theorem scanS_blank (s2 : List Char) : scanS (' ' :: s2) = scanS s2 := by
  rw [scanS_unfold, scanS_unfold s2, runS, runS, lexS_cons]
  have h1 : isdigit (some ' ') = false := by decide
  have h2 : isalpha (some ' ') = false := by decide
  simp [stepS, h1, h2]

theorem isAlpha_not_isDigit (a : Char) (h : a.isAlpha = true) : a.isDigit = false := by
  simp only [Char.isAlpha, Char.isUpper, Char.isLower, Char.isDigit, Bool.or_eq_true,
    Bool.and_eq_true, decide_eq_true_eq, Bool.and_eq_false_imp] at h ⊢
  have : ∀ x y : UInt32, x ≤ y ↔ x.toNat ≤ y.toNat := fun x y => UInt32.le_def
  simp only [this] at h ⊢
  simp only [decide_eq_false_iff_not, not_le]
  intro h1
  have e1 : (48 : UInt32).toNat = 48 := rfl
  have e2 : (57 : UInt32).toNat = 57 := rfl
  have e3 : (65 : UInt32).toNat = 65 := rfl
  have e4 : (90 : UInt32).toNat = 90 := rfl
  have e5 : (97 : UInt32).toNat = 97 := rfl
  have e6 : (122 : UInt32).toNat = 122 := rfl
  omega


theorem pushChar_short (acc : List Char) (c : Char) (h : acc.length ≤ MAXTOKENLEN) :
    pushChar acc c = acc ++ [c] := by
  simp [pushChar, h]

/-- A run of letters is scanned as one word: up to the character that ends it, which
stays unread. -/
theorem lexS_INID_run (w : List Char) : ∀ (acc rest : List Char),
    (∀ a ∈ w, a.isAlpha = true) → (∀ a ∈ rest.head?, a.isAlpha = false) →
    acc.length + w.length ≤ MAXTOKENLEN + 1 →
    lexS INID acc (w ++ rest) = (reservedLookup (acc ++ w), acc ++ w, rest) := by
  induction w with
  | nil =>
    intro acc rest _ hr _
    cases rest with
    | nil => rw [List.nil_append, lexS_nil]; simp [stepS, isalpha]
    | cons b bs =>
      have hb : b.isAlpha = false := hr b (by simp)
      rw [List.nil_append, lexS_cons]
      simp [stepS, isalpha, hb]
  | cons a as ih =>
    intro acc rest hw hr hlen
    have ha : a.isAlpha = true := hw a (List.mem_cons_self _ _)
    simp only [List.length_cons] at hlen
    rw [List.cons_append, lexS_cons]
    simp only [stepS, isalpha, ha, not_true_eq_false, if_false]
    rw [if_neg (by decide), pushChar_short _ _ (by omega),
      ih _ rest (fun b hb => hw b (List.mem_cons_of_mem _ hb)) hr
        (by simp only [List.length_append, List.length_singleton]; omega)]
    simp [toChar]

theorem scanS_word (x : Char) (w rest : List Char) (hx : x.isAlpha = true)
    (hw : ∀ a ∈ w, a.isAlpha = true) (hr : ∀ a ∈ rest.head?, a.isAlpha = false)
    (hlen : (x :: w).length ≤ MAXTOKENLEN) :
    scanS (x :: w ++ rest) = (reservedLookup (x :: w), x :: w) :: scanS rest := by
  simp only [List.length_cons] at hlen
  have hlex : lexS START [] (x :: w ++ rest) = (reservedLookup (x :: w), x :: w, rest) := by
    rw [List.cons_append, lexS_cons]
    simp only [stepS, isdigit, isalpha, isAlpha_not_isDigit x hx, hx, Bool.false_eq_true, if_false,
      if_true]
    rw [if_neg (by decide), pushChar_short _ _ (by simp [MAXTOKENLEN]),
      lexS_INID_run w _ rest hw hr (by simp [toChar]; omega)]
    simp [toChar]
  rw [scanS_unfold, runS, hlex]
  simp [reservedLookup_ne_ENDFILE]

theorem lexS_colon (rest : List Char) :
    lexS START [] (':' :: rest) =
      if rest.head? = some '=' then (ASSIGN, [':', '='], rest.tail)
      else (ERROR, [':'], rest) := by
  have h1 : isdigit (some ':') = false := by decide
  have h2 : isalpha (some ':') = false := by decide
  rw [lexS_cons]
  simp only [stepS, h1, h2, Bool.false_eq_true, if_false, if_true]
  rw [if_neg (by decide), pushChar_short _ _ (by simp [MAXTOKENLEN])]
  cases rest with
  | nil =>
    rw [lexS_nil]
    simp [stepS, toChar]
  | cons b bs =>
    rw [lexS_cons]
    by_cases hb : b = '='
    · subst hb
      simp [stepS, toChar, pushChar, MAXTOKENLEN]
    · simp [stepS, toChar, hb]

theorem scanS_colon (rest : List Char) :
    scanS (':' :: rest) =
      if rest.head? = some '=' then (ASSIGN, [':', '=']) :: scanS rest.tail
      else (ERROR, [':']) :: scanS rest := by
  rw [scanS_unfold, runS, lexS_colon]
  split_ifs <;> simp_all

theorem reservedSearch_absent (s : List Char) (tbl : List (List Char × TokenType))
    (h : s ∉ tbl.map Prod.fst) : reservedSearch s tbl = ID := by
  induction tbl with
  | nil => rfl
  | cons p tbl ih =>
    simp only [List.map_cons, List.mem_cons, not_or] at h
    simp only [reservedSearch, h.1, if_false]
    exact ih h.2



/-! ## The claims about the parser -/

/-- C1. Parser soundness: whenever `parse` returns with the error flag still clear, the
scanned token sequence of the source text up to end-of-input is derived from
`stmt-sequence` of the grammar (and the tree returned is the tree of the derivation),
no token is left unconsumed and the lookahead is `ENDFILE`. In particular the source
text is neither `x := 1 < 2 < 3` nor the empty program: on both, `parse` returns with
the error flag set. -/
theorem parse_sound (fuel : Nat) (src : List Char) (t : TreeNode) (st' : ParseState)
    (h : parseSource fuel src = some (t, st')) (herr : st'.Error = false) :
    (Derives .stmt_sequence (scanAll src) t ∧ toks st' = [] ∧ st'.token = ENDFILE) ∧
    src ≠ "x := 1 < 2 < 3".toList ∧ src ≠ [] ∧
    (parseSource 20 "x := 1 < 2 < 3".toList).map (fun r => r.2.Error) = some true ∧
    (parseSource 20 []).map (fun r => r.2.Error) = some true := by
  have e1 : (parseSource 20 "x := 1 < 2 < 3".toList).map (fun r => r.2.Error) = some true := by
    decide
  have e2 : (parseSource 20 []).map (fun r => r.2.Error) = some true := by decide
  refine ⟨parse_derives fuel src t st' h herr, ?_, ?_, e1, e2⟩
  · rintro rfl
    rw [Option.map_eq_some'] at e1
    obtain ⟨r, hr, he⟩ := e1
    have := parse_fuel_unique _ _ _ _ _ h hr
    rw [← this] at he
    simp [herr] at he
  · rintro rfl
    rw [Option.map_eq_some'] at e2
    obtain ⟨r, hr, he⟩ := e2
    have := parse_fuel_unique _ _ _ _ _ h hr
    rw [← this] at he
    simp [herr] at he

theorem parse_sound_witness :
    parseSource 20 "x := 1".toList =
      some (assignNode ⟨ID, ['x'], 1⟩ (constNode ⟨NUM, ['1'], 2⟩),
        nextToken (nextToken (nextToken (nextToken (ParseState.init "x := 1".toList))))) ∧
    Derives .stmt_sequence (scanAll "x := 1".toList)
      (assignNode ⟨ID, ['x'], 1⟩ (constNode ⟨NUM, ['1'], 2⟩)) :=
  ⟨by decide, (parse_sound 20 "x := 1".toList _
    (nextToken (nextToken (nextToken (nextToken (ParseState.init "x := 1".toList)))))
    (by decide) (by decide)).1.1⟩

/-- C3. Left-associativity: on an input `f0 op1 f1 ... opn fn` whose operators are all
`+` or `-` and whose operands are terms, `simple_exp` returns the left-nested tree
`Op(opn, Op(..., Op(op1, f0, f1) ...), fn)`; `term` does the same for the operators `*`
and `/` over factors. `x := 2 - 3 - 4` parses to the assignment of
`(2 - 3) - 4`, whose value is -5. -/
theorem left_assoc (st : ParseState) (w0 : List Token) (t0 : TreeNode)
    (ops : List (Token × List Token × TreeNode)) (rest : List Token)
    (hw : toks st = w0 ++ opsTokens ops ++ rest) :
    (Derives .term w0 t0 →
      (∀ p ∈ ops, (p.1.kind = PLUS ∨ p.1.kind = MINUS) ∧ Derives .term p.2.1 p.2.2) →
      Follow .simple_exp (hd rest) →
      ∃ st' N, toks st' = rest ∧ st'.Error = st.Error ∧
        ∀ n, N ≤ n → simple_exp n st = some (leftNest t0 ops, st')) ∧
    (Derives .factor w0 t0 →
      (∀ p ∈ ops, (p.1.kind = TIMES ∨ p.1.kind = OVER) ∧ Derives .factor p.2.1 p.2.2) →
      Follow .term (hd rest) →
      ∃ st' N, toks st' = rest ∧ st'.Error = st.Error ∧
        ∀ n, N ≤ n → term n st = some (leftNest t0 ops, st')) ∧
    (parseSource 20 "x := 2 - 3 - 4".toList).map (fun r => (r.1, r.2.Error)) =
      some (assignNode ⟨ID, ['x'], 1⟩
        (opNode ⟨MINUS, ['-'], 1⟩
          (opNode ⟨MINUS, ['-'], 1⟩ (constNode ⟨NUM, ['2'], 1⟩) (constNode ⟨NUM, ['3'], 1⟩))
          (constNode ⟨NUM, ['4'], 2⟩)), false) ∧
    value (opNode ⟨MINUS, ['-'], 1⟩
          (opNode ⟨MINUS, ['-'], 1⟩ (constNode ⟨NUM, ['2'], 1⟩) (constNode ⟨NUM, ['3'], 1⟩))
          (constNode ⟨NUM, ['4'], 2⟩)) = -5 := by
  refine ⟨?_, ?_, by decide, by decide⟩
  · intro h0 hops hF
    obtain ⟨st', N, h1, h2, _, h4⟩ := run_complete .simple_exp _ _
      (Derives.simple _ _ _ _ h0 (derives_simpleRest_ops ops t0 hops)) st rest hw hF
    exact ⟨st', N, h1, h2, h4⟩
  · intro h0 hops hF
    obtain ⟨st', N, h1, h2, _, h4⟩ := run_complete .term _ _
      (Derives.term _ _ _ _ h0 (derives_termRest_ops ops t0 hops)) st rest hw hF
    exact ⟨st', N, h1, h2, h4⟩

theorem left_assoc_witness :
    toks (nextToken (ParseState.init "2 - 3 - 4".toList)) =
      [⟨NUM, ['2'], 1⟩] ++
      opsTokens [(⟨MINUS, ['-'], 1⟩, [⟨NUM, ['3'], 1⟩], constNode ⟨NUM, ['3'], 1⟩),
                 (⟨MINUS, ['-'], 1⟩, [⟨NUM, ['4'], 2⟩], constNode ⟨NUM, ['4'], 2⟩)] ++ [] ∧
    ∃ st' N, toks st' = [] ∧
      st'.Error = (nextToken (ParseState.init "2 - 3 - 4".toList)).Error ∧
      ∀ n, N ≤ n → simple_exp n (nextToken (ParseState.init "2 - 3 - 4".toList)) =
        some (leftNest (constNode ⟨NUM, ['2'], 1⟩)
          [(⟨MINUS, ['-'], 1⟩, [⟨NUM, ['3'], 1⟩], constNode ⟨NUM, ['3'], 1⟩),
           (⟨MINUS, ['-'], 1⟩, [⟨NUM, ['4'], 2⟩], constNode ⟨NUM, ['4'], 2⟩)], st') :=
  have num : ∀ tk : Token, tk.kind = NUM → Derives .term [tk] (constNode tk) := fun tk hk =>
    Derives.term [tk] [] _ _ (Derives.num tk hk) (Derives.termNil _)
  ⟨by decide,
   (left_assoc (nextToken (ParseState.init "2 - 3 - 4".toList)) [⟨NUM, ['2'], 1⟩]
      (constNode ⟨NUM, ['2'], 1⟩)
      [(⟨MINUS, ['-'], 1⟩, [⟨NUM, ['3'], 1⟩], constNode ⟨NUM, ['3'], 1⟩),
       (⟨MINUS, ['-'], 1⟩, [⟨NUM, ['4'], 2⟩], constNode ⟨NUM, ['4'], 2⟩)] [] (by decide)).1
      (num _ rfl)
      (by
        intro p hp
        simp only [List.mem_cons, List.mem_singleton, List.not_mem_nil, or_false] at hp
        rcases hp with rfl | rfl
        · exact ⟨Or.inr rfl, num _ rfl⟩
        · exact ⟨Or.inr rfl, num _ rfl⟩)
      (by simp [Follow, hd])⟩

/-! ## The claims about the analyzer -/

/-- C7. Symbol allocation order: for the tree of an error-free parse, starting from an
empty symbol table and `location = 0`, the identifier occurrences `buildSymtab` handles
in pre-order are the identifier tokens of the source text in source order, the k-th
distinct identifier in order of first occurrence (counted from 0) gets memory location
k, so that the n distinct names get exactly the locations 0..n-1, and `location` ends
as n: a later occurrence of a known name does not allocate. For
`x := 1; y := x + 2; x := y`, `x` gets location 0 and `y` location 1. -/
theorem symbol_allocation (fuel : Nat) (src : List Char) (t : TreeNode) (st' : ParseState)
    (h : parseSource fuel src = some (t, st')) (herr : st'.Error = false) :
    (occurrences t).map Prod.fst = identifiers (scanAll src) ∧
    allocation (buildSymtab t (AnalyzeState.init st')).2.symtab =
      (firstOccurrences (identifiers (scanAll src))).zip
        (List.range (firstOccurrences (identifiers (scanAll src))).length) ∧
    (∀ (k : Nat) (hk : k < (firstOccurrences (identifiers (scanAll src))).length),
      st_lookup (buildSymtab t (AnalyzeState.init st')).2.symtab
        ((firstOccurrences (identifiers (scanAll src))).get ⟨k, hk⟩) = (k : Int)) ∧
    (buildSymtab t (AnalyzeState.init st')).2.location =
      (firstOccurrences (identifiers (scanAll src))).length ∧
    (firstOccurrences (identifiers (scanAll src))).Nodup ∧
    (∀ x, x ∈ firstOccurrences (identifiers (scanAll src)) ↔ x ∈ identifiers (scanAll src)) ∧
    (symtabOf 40 "x := 1; y := x + 2; x := y".toList).map
        (fun tab => (st_lookup tab ['x'], st_lookup tab ['y'])) = some (0, 1) := by
  have hn : (occurrences t).map Prod.fst = identifiers (scanAll src) :=
    derives_named _ _ _ (parse_derives fuel src t st' h herr).1
  have hnd : (firstOccurrences (identifiers (scanAll src))).Nodup :=
    distinctFrom_nodup _ [] List.nodup_nil
  obtain ⟨h1, h2, _, _, _⟩ := insertAll_allocation (occurrences t) (AnalyzeState.init st')
    (by simp [AnalyzeState.init, allocation]) (by simp [AnalyzeState.init])
  simp only [AnalyzeState.init, List.map_nil, hn] at h1 h2
  rw [buildSymtab_eq]
  refine ⟨hn, h1, ?_, h2, hnd, ?_, by decide⟩
  · intro k hk
    have := st_lookup_zip _ _ 0 (by rw [← List.range_eq_range']; exact h1) hnd k hk
    simpa using this
  · intro x
    rw [firstOccurrences, mem_distinctFrom]
    simp

theorem symbol_allocation_witness :
    parseSource 40 "y := x".toList =
      some (assignNode ⟨ID, ['y'], 1⟩ (idNode ⟨ID, ['x'], 2⟩),
        nextToken (nextToken (nextToken (nextToken (ParseState.init "y := x".toList))))) ∧
    allocation (buildSymtab (assignNode ⟨ID, ['y'], 1⟩ (idNode ⟨ID, ['x'], 2⟩))
      (AnalyzeState.init
        (nextToken (nextToken (nextToken (nextToken
          (ParseState.init "y := x".toList))))))).2.symtab =
      (firstOccurrences (identifiers (scanAll "y := x".toList))).zip
        (List.range (firstOccurrences (identifiers (scanAll "y := x".toList))).length) :=
  ⟨by decide, (symbol_allocation 40 "y := x".toList _
    (nextToken (nextToken (nextToken (nextToken (ParseState.init "y := x".toList)))))
    (by decide) (by decide)).2.1⟩

/-- C8 as stated fails: for `x := 1; y := x + 2; x := y` the entry of `x` holds 3 recorded
lines but the entry of `y` does not hold 1. -/
theorem reference_lines_counterexample :
    (symtabOf 40 "x := 1; y := x + 2; x := y".toList).map
        (fun tab => ((refLines tab ['x']).length, (refLines tab ['y']).length)) ≠
      some (3, 1) := by decide

/-- C8, amended. Reference-line counts: for the program `x := 1; y := x + 2; x := y`,
after `buildSymtab` the entry of `x` holds 3 recorded reference lines and the entry of
`y` holds 2: the line of its first insertion (the assignment `y := ...`) and the line
of its use in `x := y`. -/
theorem reference_lines :
    (symtabOf 40 "x := 1; y := x + 2; x := y".toList).map
        (fun tab => ((refLines tab ['x']).length, (refLines tab ['y']).length)) =
      some (3, 2) := by decide

/-- C9. A non-Boolean test is a semantic error: when the tree of an error-free parse
contains an If statement whose test, or a Repeat statement whose until-expression, is
not rooted at a comparison operator, `typeCheck` sets the error flag and reports the
diagnostic with the line of that test expression. `if 1 then write 2 end` parses
without error and `typeCheck` then sets the error flag, reporting the test. -/
theorem test_not_boolean (fuel : Nat) (src : List Char) (t : TreeNode) (st' : ParseState)
    (h : parseSource fuel src = some (t, st')) (herr : st'.Error = false)
    (a : AnalyzeState) (s : TreeNode) (hs : s ∈ postorder t)
    (htest : (s.info.kind = .StmtK IfK ∧ ¬ isComparison s.child0) ∨
      (s.info.kind = .StmtK RepeatK ∧ ¬ isComparison s.child1)) :
    (typeCheck t a).2.Error = true ∧
    (s.info.kind = .StmtK IfK →
      { line := s.child0.info.lineno, message := "if test is not Boolean" } ∈
        (typeCheck t a).2.listing) ∧
    (s.info.kind = .StmtK RepeatK →
      { line := s.child1.info.lineno, message := "repeat test is not Boolean" } ∈
        (typeCheck t a).2.listing) ∧
    (parseSource 40 "if 1 then write 2 end".toList).map (fun r => r.2.Error) = some false ∧
    (analyzeSource 40 "if 1 then write 2 end".toList).map (fun r => (r.Error, r.listing)) =
      some (true, [{ line := 1, message := "if test is not Boolean" }]) := by
  obtain ⟨hl, he, _, _⟩ := typeCheck_spec t a (parse_wellFormed fuel src t st' h herr)
  have hv : violates s = true := by
    obtain ⟨i, c0, c1, c2, sib, rfl⟩ := mem_postorder_node s t hs
    rw [info_node, child0_node, child1_node] at htest
    rw [violates_node]
    rcases htest with ⟨hk, hc⟩ | ⟨hk, hc⟩
    · rw [hk]
      simp only [decide_eq_true_eq]
      exact fun hb => hc (specType_eq_Boolean _ hb)
    · rw [hk]
      simp only [decide_eq_true_eq]
      exact fun hb => hc (specType_eq_Boolean _ hb)
  have hd : diagOf s ∈ (typeCheck t a).2.listing := by
    rw [hl]
    exact List.mem_append_right _ (List.mem_map_of_mem _ (List.mem_filter.mpr ⟨hs, hv⟩))
  refine ⟨?_, ?_, ?_, by decide, by decide⟩
  · rw [he]
    have : (postorder t).any violates = true := List.any_eq_true.mpr ⟨s, hs, hv⟩
    simp [this]
  · intro hk
    simpa [diagOf, hk] using hd
  · intro hk
    simpa [diagOf, hk] using hd


theorem test_not_boolean_witness :
    parseSource 40 "if 1 then write 2 end".toList =
      some (ifNode ⟨IF, "if".toList, 1⟩ (constNode ⟨NUM, ['1'], 1⟩)
          (writeNode ⟨WRITE, "write".toList, 1⟩ (constNode ⟨NUM, ['2'], 1⟩)) .null,
        nextToken^[7] (ParseState.init "if 1 then write 2 end".toList)) ∧
    (typeCheck (ifNode ⟨IF, "if".toList, 1⟩ (constNode ⟨NUM, ['1'], 1⟩)
          (writeNode ⟨WRITE, "write".toList, 1⟩ (constNode ⟨NUM, ['2'], 1⟩)) .null)
      (AnalyzeState.init (nextToken^[7]
        (ParseState.init "if 1 then write 2 end".toList)))).2.Error = true :=
  ⟨by decide,
   (test_not_boolean 40 "if 1 then write 2 end".toList _
      (nextToken^[7] (ParseState.init "if 1 then write 2 end".toList))
      (by decide) (by decide)
      (AnalyzeState.init (nextToken^[7] (ParseState.init "if 1 then write 2 end".toList)))
      (ifNode ⟨IF, "if".toList, 1⟩ (constNode ⟨NUM, ['1'], 1⟩)
          (writeNode ⟨WRITE, "write".toList, 1⟩ (constNode ⟨NUM, ['2'], 1⟩)) .null)
      (by decide)
      (Or.inl ⟨rfl, by unfold isComparison; decide⟩)).1⟩

/-- C10. All type errors are accumulated: on the tree of an error-free parse `typeCheck`
reports exactly the diagnostics of the violating nodes, in post-order, so their number
is the number of violating nodes, and starting with the error flag clear it sets the
flag exactly when that number is not zero. `if 1 then write 1 < 2 end` yields exactly
two diagnostics. -/
theorem type_errors_accumulated (fuel : Nat) (src : List Char) (t : TreeNode)
    (st' : ParseState) (h : parseSource fuel src = some (t, st')) (herr : st'.Error = false)
    (a : AnalyzeState) :
    (typeCheck t a).2.listing = a.listing ++ ((postorder t).filter violates).map diagOf ∧
    (typeCheck t a).2.listing.length = a.listing.length + (postorder t).countP violates ∧
    (a.Error = false →
      ((typeCheck t a).2.Error = true ↔ (postorder t).countP violates ≠ 0)) ∧
    (analyzeSource 40 "if 1 then write 1 < 2 end".toList).map
        (fun r => (r.Error, r.listing.length)) = some (true, 2) := by
  obtain ⟨hl, he, _, _⟩ := typeCheck_spec t a (parse_wellFormed fuel src t st' h herr)
  refine ⟨hl, ?_, ?_, by decide⟩
  · rw [hl, List.length_append, List.length_map, List.countP_eq_length_filter]
  · intro ha
    rw [he, ha, Bool.false_or, List.any_eq_true, Ne, List.countP_eq_zero]
    constructor
    · rintro ⟨x, hx, hv⟩ hall
      exact hall x hx hv
    · intro hall
      by_contra hne
      exact hall (fun x hx hv => hne ⟨x, hx, hv⟩)

theorem type_errors_accumulated_witness :
    parseSource 40 "write 1 < 2".toList =
      some (writeNode ⟨WRITE, "write".toList, 1⟩
          (opNode ⟨TokenType.LT, ['<'], 1⟩ (constNode ⟨NUM, ['1'], 1⟩)
            (constNode ⟨NUM, ['2'], 2⟩)),
        nextToken^[5] (ParseState.init "write 1 < 2".toList)) ∧
    (typeCheck (writeNode ⟨WRITE, "write".toList, 1⟩
          (opNode ⟨TokenType.LT, ['<'], 1⟩ (constNode ⟨NUM, ['1'], 1⟩)
            (constNode ⟨NUM, ['2'], 2⟩)))
      (AnalyzeState.init (nextToken^[5]
        (ParseState.init "write 1 < 2".toList)))).2.listing.length =
      (AnalyzeState.init (nextToken^[5] (ParseState.init "write 1 < 2".toList))).listing.length +
      (postorder (writeNode ⟨WRITE, "write".toList, 1⟩
          (opNode ⟨TokenType.LT, ['<'], 1⟩ (constNode ⟨NUM, ['1'], 1⟩)
            (constNode ⟨NUM, ['2'], 2⟩)))).countP violates :=
  ⟨by decide,
   (type_errors_accumulated 40 "write 1 < 2".toList _
      (nextToken^[5] (ParseState.init "write 1 < 2".toList))
      (by decide) (by decide)
      (AnalyzeState.init (nextToken^[5] (ParseState.init "write 1 < 2".toList)))).2.1⟩

/-! ## The claims about the scanner -/

/-- C4. Comment skipping: for all texts `s1`, `c`, `s2` where `c` contains no `}` and
`s1` does not end inside a comment, the successive calls of `getToken` on
`s1 ++ "{" ++ c ++ "}" ++ s2` yield the same sequence of (token kind, lexeme) pairs as
on `s1 ++ " " ++ s2`. `x := 1 { this : is + a (comment } ; write x` scans to
ID(x) ASSIGN NUM(1) SEMI WRITE ID(x) followed by ENDFILE. -/
theorem comment_skipping (s1 c s2 : List Char)
    (ht : IsText (s1 ++ '{' :: (c ++ '}' :: s2))) (hc : '}' ∉ c)
    (h1 : inComment false s1 = false) :
    (scanAll (s1 ++ '{' :: (c ++ '}' :: s2))).map Token.pair =
      (scanAll (s1 ++ ' ' :: s2)).map Token.pair ∧
    (getTokens 7 (ScanState.init
        "x := 1 { this : is + a (comment } ; write x".toList)).map Token.pair =
      [(ID, ['x']), (ASSIGN, [':', '=']), (NUM, ['1']), (SEMI, [';']),
       (WRITE, "write".toList), (ID, ['x']), (ENDFILE, [])] := by
  refine ⟨?_, by decide⟩
  have ht2 : IsText (s1 ++ ' ' :: s2) := by
    rw [isText_append, isText_cons, isText_append, isText_cons] at ht
    rw [isText_append, isText_cons]
    exact ⟨ht.1, by decide, ht.2.2.2.2⟩
  rw [scanAll_scanS _ ht, scanAll_scanS _ ht2,
    scanS_split s1 '{' _ (breaks_of_separator s1 '{' h1 (by decide) (by decide) (by decide)),
    scanS_split s1 ' ' _ (breaks_of_separator s1 ' ' h1 (by decide) (by decide) (by decide)),
    scanS_comment c s2 hc, scanS_blank]

theorem comment_skipping_witness :
    IsText ("a".toList ++ '{' :: ("b:".toList ++ '}' :: "c".toList)) ∧
    (scanAll ("a".toList ++ '{' :: ("b:".toList ++ '}' :: "c".toList))).map Token.pair =
      (scanAll ("a".toList ++ ' ' :: "c".toList)).map Token.pair :=
  ⟨by unfold IsText; decide,
   (comment_skipping "a".toList "b:".toList "c".toList (by unfold IsText; decide) (by decide)
      (by decide)).1⟩

/-- C5. Reserved-word classification: a maximal run `w` of 1 to 40 letters outside a
comment is returned by `getToken` as one token whose lexeme is `w`, after the tokens of
what precedes it, and the character that ended the run is not consumed: the tokens
that follow are those of the rest of the text. The token is the keyword when `w` is
exactly one of the eight reserved words and `ID` for every other `w`. -/
theorem reserved_word_classification (pre w rest : List Char)
    (ht : IsText (pre ++ (w ++ rest))) (hc : inComment false pre = false)
    (hleft : ∀ a ∈ pre.getLast?, a.isAlpha = false)
    (hw : ∀ a ∈ w, a.isAlpha = true) (h1 : 1 ≤ w.length) (h40 : w.length ≤ 40)
    (hright : ∀ a ∈ rest.head?, a.isAlpha = false) :
    (scanAll (pre ++ (w ++ rest))).map Token.pair =
      (scanAll pre).map Token.pair ++ (reservedLookup w, w) :: (scanAll rest).map Token.pair ∧
    (w = "if".toList → reservedLookup w = IF) ∧
    (w = "then".toList → reservedLookup w = THEN) ∧
    (w = "else".toList → reservedLookup w = ELSE) ∧
    (w = "end".toList → reservedLookup w = END) ∧
    (w = "repeat".toList → reservedLookup w = REPEAT) ∧
    (w = "until".toList → reservedLookup w = UNTIL) ∧
    (w = "read".toList → reservedLookup w = READ) ∧
    (w = "write".toList → reservedLookup w = WRITE) ∧
    (w ∉ ["if".toList, "then".toList, "else".toList, "end".toList, "repeat".toList,
        "until".toList, "read".toList, "write".toList] → reservedLookup w = ID) := by
  refine ⟨?_, ?_, ?_, ?_, ?_, ?_, ?_, ?_, ?_, ?_⟩
  · obtain ⟨x, w', rfl⟩ : ∃ x w', w = x :: w' := by
      cases w with
      | nil => simp at h1
      | cons x w' => exact ⟨x, w', rfl⟩
    have hx : x.isAlpha = true := hw x (List.mem_cons_self _ _)
    have ht' := ht
    rw [isText_append, isText_append] at ht'
    have hb : breaks (endState START pre) x := by
      obtain ⟨hd, hi⟩ := endState_INCOMMENT pre START (by decide)
      have hne : endState START pre ≠ INCOMMENT := by
        intro h
        have := hi.mp h
        simp [hc] at this
      have hid : endState START pre ≠ INID := by
        intro h
        rcases endState_INID pre START h with ⟨_, h'⟩ | ⟨a, ha, hal⟩
        · cases h'
        · rw [hleft a ha] at hal; cases hal
      have hdig := isAlpha_not_isDigit x hx
      have hneq : x ≠ '=' := by rintro rfl; simp at hx
      cases hst : endState START pre <;> simp_all [breaks]
    rw [scanAll_scanS _ ht, scanAll_scanS _ ht'.1, scanAll_scanS _ ht'.2.2, List.cons_append,
      scanS_split pre x _ hb, ← List.cons_append,
      scanS_word x w' rest hx (fun a ha => hw a (List.mem_cons_of_mem _ ha)) hright h40]
  all_goals first
    | (rintro rfl; decide)
    | (intro h; exact reservedSearch_absent w reservedWords (by simpa [reservedWords] using h))

theorem reserved_word_classification_witness :
    IsText ("1".toList ++ ("if".toList ++ " x".toList)) ∧
    (scanAll ("1".toList ++ ("if".toList ++ " x".toList))).map Token.pair =
      (scanAll "1".toList).map Token.pair ++
        (reservedLookup "if".toList, "if".toList) :: (scanAll " x".toList).map Token.pair :=
  ⟨by unfold IsText; decide,
   (reserved_word_classification "1".toList "if".toList " x".toList (by unfold IsText; decide)
      (by decide) (by decide) (by decide) (by decide) (by decide) (by decide)).1⟩

/-- C6. Malformed assignment operator: a `:` outside a comment gives, after the tokens
of what precedes it, `ASSIGN` with lexeme `:=` when the next character is `=`, and
otherwise `ERROR` with lexeme `:` while the character after the `:` is not consumed:
the next token starts at it. `:x` scans to ERROR(:) then ID(x); a `:` that is the last
character of the input gives ERROR then ENDFILE. -/
theorem malformed_assign (pre rest : List Char) (ht : IsText (pre ++ ':' :: rest))
    (hc : inComment false pre = false) :
    (scanAll (pre ++ ':' :: rest)).map Token.pair =
      (scanAll pre).map Token.pair ++
        (if rest.head? = some '=' then (ASSIGN, [':', '=']) :: (scanAll rest.tail).map Token.pair
         else (ERROR, [':']) :: (scanAll rest).map Token.pair) ∧
    (getTokens 3 (ScanState.init ":x".toList)).map Token.pair =
      [(ERROR, [':']), (ID, ['x']), (ENDFILE, [])] ∧
    (getTokens 2 (ScanState.init ":".toList)).map Token.pair =
      [(ERROR, [':']), (ENDFILE, [])] := by
  refine ⟨?_, by decide, by decide⟩
  have ht' := ht
  rw [isText_append, isText_cons] at ht'
  have htail : IsText rest.tail := fun a ha => ht'.2.2 a (List.mem_of_mem_tail ha)
  rw [scanAll_scanS _ ht, scanAll_scanS _ ht'.1, scanAll_scanS _ ht'.2.2,
    scanAll_scanS _ htail,
    scanS_split pre ':' _ (breaks_of_separator pre ':' hc (by decide) (by decide) (by decide)),
    scanS_colon]

theorem malformed_assign_witness :
    IsText ("x".toList ++ ':' :: "=1".toList) ∧
    (scanAll ("x".toList ++ ':' :: "=1".toList)).map Token.pair =
      (scanAll "x".toList).map Token.pair ++
        (if "=1".toList.head? = some '=' then
          (ASSIGN, [':', '=']) :: (scanAll "=1".toList.tail).map Token.pair
         else (ERROR, [':']) :: (scanAll "=1".toList).map Token.pair) :=
  ⟨by unfold IsText; decide,
   (malformed_assign "x".toList "=1".toList (by unfold IsText; decide) (by decide)).1⟩

/-! ## The emitting utilities -/

theorem raiseHigh_emitLoc (e : EmitState) : (raiseHigh e).emitLoc = e.emitLoc := by
  unfold raiseHigh; split <;> rfl

theorem raiseHigh_code (e : EmitState) : (raiseHigh e).code = e.code := by
  unfold raiseHigh; split <;> rfl

theorem raiseHigh_TraceCode (e : EmitState) : (raiseHigh e).TraceCode = e.TraceCode := by
  unfold raiseHigh; split <;> rfl

theorem raiseHigh_highEmitLoc (e : EmitState) :
    (raiseHigh e).highEmitLoc = max e.highEmitLoc e.emitLoc := by
  unfold raiseHigh; split
  · next h => show e.emitLoc = _; rw [max_eq_right (le_of_lt h)]
  · next h => rw [max_eq_left (not_lt.mp h)]

theorem emit_spec (pc : Int) (i : Emission) (e : EmitState) :
    (i.emit pc e).emitLoc = e.emitLoc + 1 ∧
    (i.emit pc e).highEmitLoc = max e.highEmitLoc (e.emitLoc + 1) ∧
    (i.emit pc e).TraceCode = e.TraceCode ∧
    ∃ l, (i.emit pc e).code = e.code ++ [l] ∧ l.location = some e.emitLoc := by
  cases i <;>
    simp only [Emission.emit, emitRO, emitRM, emitRM_Abs, raiseHigh_emitLoc, raiseHigh_code,
      raiseHigh_TraceCode, raiseHigh_highEmitLoc, true_and] <;>
    exact ⟨_, rfl, rfl⟩

theorem emitAll_nil (pc : Int) (e : EmitState) : emitAll pc [] e = e := rfl

theorem emitAll_cons (pc : Int) (i : Emission) (body : List Emission) (e : EmitState) :
    emitAll pc (i :: body) e = emitAll pc body (i.emit pc e) := rfl

theorem emitAll_spec (pc : Int) (body : List Emission) : ∀ e : EmitState, e.emitLoc ≤ e.highEmitLoc →
    (emitAll pc body e).emitLoc = e.emitLoc + body.length ∧
    (emitAll pc body e).highEmitLoc = max e.highEmitLoc (e.emitLoc + body.length) ∧
    (emitAll pc body e).TraceCode = e.TraceCode ∧
    ∃ lines, (emitAll pc body e).code = e.code ++ lines ∧
      lines.map CodeLine.location =
        (List.range body.length).map fun j : Nat => some (e.emitLoc + (j : Int)) := by
  induction body with
  | nil =>
    intro e h
    refine ⟨by simp [emitAll_nil], ?_, rfl, [], by simp [emitAll_nil], by simp⟩
    simp [emitAll_nil, h]
  | cons i body ih =>
    intro e h
    obtain ⟨h1, h2, h3, l, h4, h5⟩ := emit_spec pc i e
    have hle : (i.emit pc e).emitLoc ≤ (i.emit pc e).highEmitLoc := by
      rw [h1, h2]; exact le_max_right _ _
    obtain ⟨g1, g2, g3, lines, g4, g5⟩ := ih (i.emit pc e) hle
    rw [emitAll_cons]
    refine ⟨?_, ?_, by rw [g3, h3], l :: lines, ?_, ?_⟩
    · rw [g1, h1]; push_cast [List.length_cons]; ring
    · rw [g2, h1, h2]; push_cast [List.length_cons]
      have : e.emitLoc + 1 + (body.length : Int) = e.emitLoc + ((body.length : Int) + 1) := by ring
      rw [this]
      have h0 : (0 : Int) ≤ body.length := Int.natCast_nonneg _
      omega
    · rw [g4, h4]; simp
    · rw [List.map_cons, g5, h5, List.length_cons, List.range_succ_eq_map, List.map_cons,
        List.map_map]
      simp only [Nat.cast_zero, add_zero, List.cons.injEq, true_and]
      apply List.map_congr_left
      intro j _
      simp only [Function.comp, h1]; push_cast; congr 1; ring

/-- C14. Pc-relative conversion: with `L` the current location, `emitRM_Abs(op, r, a, c)`
writes one instruction line, at location `L`, with register `r`, base register `pc` and
offset `d = a - (L + 1)`, so that `(L + 1) + d = a`, and advances `emitLoc` to
`L + 1`. -/
theorem emitRM_Abs_pc_relative (pc : Int) (op : String) (r a : Int) (c : String)
    (e : EmitState) :
    ∃ d : Int,
      (emitRM_Abs pc op r a c e).code = e.code ++ [.instr e.emitLoc op (.mem r d pc) (traced e c)] ∧
      d = a - (e.emitLoc + 1) ∧ (e.emitLoc + 1) + d = a ∧
      (emitRM_Abs pc op r a c e).emitLoc = e.emitLoc + 1 := by
  refine ⟨a - (e.emitLoc + 1), ?_, rfl, by ring, ?_⟩
  · simp [emitRM_Abs, raiseHigh_code]
  · simp [emitRM_Abs, raiseHigh_emitLoc]

theorem emitSkip_one (e : EmitState) (h : e.emitLoc = e.highEmitLoc) :
    (emitSkip 1 e).1 = e.emitLoc ∧ (emitSkip 1 e).2.code = e.code ∧
    (emitSkip 1 e).2.emitLoc = e.emitLoc + 1 ∧ (emitSkip 1 e).2.highEmitLoc = e.emitLoc + 1 := by
  refine ⟨rfl, raiseHigh_code _, raiseHigh_emitLoc _, ?_⟩
  simp only [emitSkip, raiseHigh_highEmitLoc]
  rw [← h]; exact max_eq_right (by omega)

theorem emitBackup_ok (loc : Int) (e : EmitState) (h : ¬ loc > e.highEmitLoc) :
    emitBackup loc e = { e with emitLoc := loc } := by
  simp only [emitBackup, if_neg h]

theorem count_range_locations (k : Nat) (L x : Int) (h1 : L + 1 ≤ x) (h2 : x ≤ L + k) :
    ((List.range k).map fun j : Nat => some (L + 1 + (j : Int))).count (some x) = 1 := by
  induction k with
  | zero => simp at h2; omega
  | succ k ih =>
    rw [List.range_succ, List.map_append, List.count_append, List.map_cons, List.map_nil,
      List.count_singleton]
    by_cases hx : x = L + 1 + k
    · subst hx
      rw [List.count_eq_zero.mpr]
      · simp
      · simp only [List.mem_map, List.mem_range, Option.some.injEq, not_exists, not_and]
        intro j hj; omega
    · rw [ih (by push_cast at h2; omega)]
      have : (some (L + 1 + (k : Int)) == some x) = false := by
        simp only [beq_eq_false_iff_ne, ne_eq, Option.some.injEq]; omega
      simp [this]

/-- C15. Backpatch protocol: from a state with `emitLoc = highEmitLoc = L`, in the
sequence `s = emitSkip(1)`, the emissions of `body` (`k` of them), `emitBackup(s)`, the
emission `patch`, `emitRestore()`: `s = L` and `emitSkip` writes nothing; the body
instructions are written at `L+1 .. L+k` in order; `emitBackup` does not take its BUG
branch and writes nothing; the patched instruction is written at `L`; at the end
`emitLoc = highEmitLoc = L+1+k`; and every location in `L .. L+k` is written exactly
once. -/
theorem backpatch_protocol (pc : Int) (body : List Emission) (patch : Emission)
    (e e1 e2 e3 e4 e5 : EmitState) (s L : Int)
    (hL : e.emitLoc = L) (hH : e.highEmitLoc = L)
    (hs : s = (emitSkip 1 e).1) (h1 : e1 = (emitSkip 1 e).2) (h2 : e2 = emitAll pc body e1)
    (h3 : e3 = emitBackup s e2)
    (h4 : e4 = patch.emit pc e3) (h5 : e5 = emitRestore e4) :
    s = L ∧ e1.code = e.code ∧
    (∃ lines, e2.code = e.code ++ lines ∧
      lines.map CodeLine.location =
        (List.range body.length).map fun j : Nat => some (L + 1 + (j : Int))) ∧
    ¬ (s > e2.highEmitLoc) ∧ e3.code = e2.code ∧
    (∃ l, e4.code = e3.code ++ [l] ∧ l.location = some L) ∧
    e5.emitLoc = L + 1 + body.length ∧ e5.highEmitLoc = L + 1 + body.length ∧
    ∃ new, e5.code = e.code ++ new ∧ new.length = body.length + 1 ∧
      ∀ x : Int, L ≤ x → x ≤ L + body.length →
        (new.map CodeLine.location).count (some x) = 1 := by
  have hk : (0 : Int) ≤ body.length := Int.natCast_nonneg _
  obtain ⟨a1, a2, a3, a4⟩ := emitSkip_one e (by rw [hL, hH])
  subst hs h1
  rw [hL] at a1 a3 a4
  obtain ⟨b1, b2, _, lines, b4, b5⟩ := emitAll_spec pc body (emitSkip 1 e).2 (by rw [a3, a4])
  rw [← h2, a3] at b1
  rw [← h2, a3, a4, max_eq_right (by omega)] at b2
  rw [← h2, a2] at b4
  rw [a3] at b5
  have hno : ¬ (emitSkip 1 e).1 > e2.highEmitLoc := by rw [a1, b2]; omega
  have h3' := h3
  rw [emitBackup_ok _ _ hno] at h3'
  have c1 : e3.emitLoc = L := by rw [h3', a1]
  have c2 : e3.highEmitLoc = L + 1 + body.length := by rw [h3']; exact b2
  have c3 : e3.code = e2.code := by rw [h3']
  obtain ⟨d1, d2, _, l, d4, d5⟩ := emit_spec pc patch e3
  rw [← h4, c1] at d1
  rw [← h4, c1, c2, max_eq_left (by omega)] at d2
  rw [← h4] at d4
  rw [c1] at d5
  refine ⟨a1, a2, ⟨lines, b4, b5⟩, hno, c3, ⟨l, d4, d5⟩, ?_, ?_, lines ++ [l], ?_, ?_, ?_⟩
  · rw [h5]; exact d2
  · rw [h5]; exact d2
  · rw [h5]; show e4.code = _; rw [d4, c3, b4, List.append_assoc]
  · have := congrArg List.length b5
    simp only [List.length_map, List.length_range] at this
    simp [this]
  · intro x hx1 hx2
    rw [List.map_append, b5, List.map_cons, List.map_nil, d5]
    rw [List.count_append, List.count_singleton]
    rcases eq_or_lt_of_le hx1 with h | h
    · subst h
      rw [List.count_eq_zero.mpr]
      · simp
      · simp only [List.mem_map, List.mem_range, Option.some.injEq, not_exists, not_and]
        intro j _; omega
    · rw [count_range_locations body.length L x (by omega) hx2]
      have : (some L == some x) = false := by
        simp only [beq_eq_false_iff_ne, ne_eq, Option.some.injEq]; omega
      simp [this]

theorem backpatch_protocol_witness :
    (emitRestore ((Emission.RM_Abs "JEQ" 0 3 "jmp").emit 7
      (emitBackup (emitSkip 1 ⟨0, 0, true, []⟩).1
        (emitAll 7 [.RO "ADD" 0 1 0 "", .RM "LD" 0 0 5 ""]
          (emitSkip 1 ⟨0, 0, true, []⟩).2)))).emitLoc = 0 + 1 + (2 : Nat) :=
  (backpatch_protocol 7 [.RO "ADD" 0 1 0 "", .RM "LD" 0 0 5 ""] (.RM_Abs "JEQ" 0 3 "jmp")
    ⟨0, 0, true, []⟩ _ _ _ _ _ _ 0 rfl rfl rfl rfl rfl rfl rfl rfl).2.2.2.2.2.2.1

/-! ## Termination of the parser -/

theorem unread_nextToken_le (st : ParseState) : (nextToken st).unread ≤ st.unread := by
  unfold ParseState.unread nextToken
  dsimp only
  by_cases h : (getToken st.scan).1 = ENDFILE
  · have := getToken_remaining_le st.scan
    rw [if_pos h]; omega
  · have := getToken_remaining_lt st.scan h
    rw [if_neg h]; split <;> omega

theorem unread_nextToken_lt (st : ParseState) (h : st.token ≠ ENDFILE) :
    (nextToken st).unread < st.unread := by
  unfold ParseState.unread nextToken
  dsimp only
  rw [if_neg h]
  by_cases h' : (getToken st.scan).1 = ENDFILE
  · have := getToken_remaining_le st.scan
    rw [if_pos h']; omega
  · have := getToken_remaining_lt st.scan h'
    rw [if_neg h']; omega

theorem unread_syntaxError (m : String) (st : ParseState) :
    (syntaxError m st).unread = st.unread := rfl

theorem unread_match_le (e : TokenType) (st : ParseState) : (match_ e st).unread ≤ st.unread := by
  unfold match_
  split
  · exact unread_nextToken_le st
  · exact le_of_eq (unread_syntaxError _ st)

theorem unread_match_lt (e : TokenType) (st : ParseState) (h : st.token = e)
    (he : e ≠ ENDFILE) : (match_ e st).unread < st.unread := by
  unfold match_
  rw [if_pos h]
  exact unread_nextToken_lt st (h ▸ he)

theorem token_syntaxError (m : String) (st : ParseState) : (syntaxError m st).token = st.token :=
  rfl

theorem run_total (n : Nat) : ∀ (nt : NT) (st : ParseState), 4 * st.unread + nt.rank ≤ n →
    ∃ r, run nt n st = some r ∧ r.2.unread ≤ st.unread ∧
      ((nt = .statement ∨ nt = .factor) → st.token ≠ ENDFILE → r.2.unread < st.unread) := by
  induction n using Nat.strong_induction_on with
  | _ n ih =>
    intro nt st hn
    cases n with
    | zero => cases nt <;> simp [NT.rank] at hn
    | succ n =>
      have ihn := ih n (Nat.lt_succ_self n)
      cases nt with
      | factor =>
        simp only [run, factor]
        split
        · rename_i hk
          exact ⟨_, rfl, unread_match_le _ _, fun _ _ => unread_match_lt _ _ hk (by decide)⟩
        · rename_i hk
          exact ⟨_, rfl, unread_match_le _ _, fun _ _ => unread_match_lt _ _ hk (by decide)⟩
        · rename_i hk
          have h1 := unread_match_lt LPAREN st hk (by decide)
          obtain ⟨r, hr, hle, _⟩ := ihn .exp (match_ LPAREN st) (by simp only [NT.rank] at hn ⊢; omega)
          have h2 := unread_match_le RPAREN r.2
          refine ⟨(r.1, match_ RPAREN r.2), ?_, by dsimp only; omega, fun _ _ => by dsimp only; omega⟩
          simp only [run] at hr
          rw [hr]; rfl
        · refine ⟨_, rfl, ?_, fun _ h => ?_⟩
          · exact le_trans (unread_nextToken_le _) (le_of_eq (unread_syntaxError _ _))
          · exact lt_of_lt_of_le (unread_nextToken_lt _ (by rw [token_syntaxError]; exact h))
              (le_of_eq (unread_syntaxError _ _))
      | term =>
        simp only [run, term]
        obtain ⟨r, hr, hle, _⟩ := ihn .factor st (by simp only [NT.rank] at hn ⊢; omega)
        obtain ⟨r', hr', hle', _⟩ := ihn (.termRest r.1) r.2 (by simp only [NT.rank] at hn ⊢; omega)
        refine ⟨r', ?_, by omega, fun h => by simp at h⟩
        simp only [run] at hr hr'; rw [hr]; exact hr'
      | termRest acc =>
        simp only [run, term_loop]
        split_ifs with hc
        · have h1 := unread_match_lt st.token st rfl (by rcases hc with hc | hc <;> simp [hc])
          obtain ⟨r, hr, hle, _⟩ := ihn .factor (match_ st.token st)
            (by simp only [NT.rank] at hn ⊢; omega)
          obtain ⟨r', hr', hle', _⟩ := ihn (.termRest
            ((((newExpNode OpK st.scan.lineno).setChild0 acc).setAttr (.op st.token)).setChild1 r.1))
            r.2 (by simp only [NT.rank] at hn ⊢; omega)
          refine ⟨r', ?_, by omega, fun h => by simp at h⟩
          simp only [run] at hr hr'; rw [hr]; exact hr'
        · exact ⟨_, rfl, le_refl _, fun h => by simp at h⟩
      | simple_exp =>
        simp only [run, simple_exp]
        obtain ⟨r, hr, hle, _⟩ := ihn .term st (by simp only [NT.rank] at hn ⊢; omega)
        obtain ⟨r', hr', hle', _⟩ := ihn (.simpleRest r.1) r.2 (by simp only [NT.rank] at hn ⊢; omega)
        refine ⟨r', ?_, by omega, fun h => by simp at h⟩
        simp only [run] at hr hr'; rw [hr]; exact hr'
      | simpleRest acc =>
        simp only [run, simple_exp_loop]
        split_ifs with hc
        · have h1 := unread_match_lt st.token st rfl (by rcases hc with hc | hc <;> simp [hc])
          obtain ⟨r, hr, hle, _⟩ := ihn .term (match_ st.token st)
            (by simp only [NT.rank] at hn ⊢; omega)
          obtain ⟨r', hr', hle', _⟩ := ihn (.simpleRest
            ((((newExpNode OpK st.scan.lineno).setChild0 acc).setAttr (.op st.token)).setChild1 r.1))
            r.2 (by simp only [NT.rank] at hn ⊢; omega)
          refine ⟨r', ?_, by omega, fun h => by simp at h⟩
          simp only [run] at hr hr'; rw [hr]; exact hr'
        · exact ⟨_, rfl, le_refl _, fun h => by simp at h⟩
      | exp =>
        simp only [run, exp]
        obtain ⟨r, hr, hle, _⟩ := ihn .simple_exp st (by simp only [NT.rank] at hn ⊢; omega)
        simp only [run] at hr
        rw [hr]
        simp only [Option.some_bind]
        split_ifs with hc
        · have h1 := unread_match_lt r.2.token r.2 rfl (by rcases hc with hc | hc <;> simp [hc])
          obtain ⟨r', hr', hle', _⟩ := ihn .simple_exp (match_ r.2.token r.2)
            (by simp only [NT.rank] at hn ⊢; omega)
          simp only [run] at hr'
          rw [hr']
          exact ⟨_, rfl, by dsimp only; omega, fun h => by simp at h⟩
        · exact ⟨_, rfl, hle, fun h => by simp at h⟩
      | stmt_sequence =>
        simp only [run, stmt_sequence]
        obtain ⟨r, hr, hle, _⟩ := ihn .statement st (by simp only [NT.rank] at hn ⊢; omega)
        obtain ⟨r', hr', hle', _⟩ := ihn (.seqRest r.1) r.2 (by simp only [NT.rank] at hn ⊢; omega)
        refine ⟨r', ?_, by omega, fun h => by simp at h⟩
        simp only [run] at hr hr'; rw [hr]; exact hr'
      | seqRest acc =>
        simp only [run, stmt_sequence_loop]
        split_ifs with hc
        · have h0 := unread_match_le SEMI st
          have hlt : ∀ r : TreeNode × ParseState,
              (r.2.unread ≤ (match_ SEMI st).unread ∧
                ((match_ SEMI st).token ≠ ENDFILE → r.2.unread < (match_ SEMI st).unread)) →
              r.2.unread < st.unread := by
            intro r ⟨a, b⟩
            by_cases hs : st.token = SEMI
            · have := unread_match_lt SEMI st hs (by decide); omega
            · have : match_ SEMI st = syntaxError "unexpected token -> " st := by
                unfold match_; rw [if_neg hs]
              rw [this, token_syntaxError, unread_syntaxError] at b
              exact b hc.1
          obtain ⟨r, hr, hle, hp⟩ := ihn .statement (match_ SEMI st)
            (by simp only [NT.rank] at hn ⊢; omega)
          have h1 := hlt r ⟨hle, hp (Or.inl rfl)⟩
          obtain ⟨r', hr', hle', _⟩ := ihn (.seqRest (linkStmt acc r.1)) r.2
            (by simp only [NT.rank] at hn ⊢; omega)
          refine ⟨r', ?_, by omega, fun h => by simp at h⟩
          simp only [run] at hr hr'; rw [hr]; exact hr'
        · exact ⟨_, rfl, le_refl _, fun h => by simp at h⟩
      | statement =>
        simp only [run, statement]
        cases n with
        | zero => simp only [NT.rank] at hn; omega
        | succ m =>
          have ihm := ih m (by omega)
          simp only [NT.rank] at hn
          split
          · -- if
            rename_i hk
            simp only [if_stmt]
            have h1 := unread_match_lt IF st hk (by decide)
            obtain ⟨r0, hr0, hle0, _⟩ := ihm .exp (match_ IF st) (by simp only [NT.rank]; omega)
            have h2 := unread_match_le THEN r0.2
            obtain ⟨r1, hr1, hle1, _⟩ := ihm .stmt_sequence (match_ THEN r0.2)
              (by simp only [NT.rank]; omega)
            simp only [run] at hr0 hr1
            rw [hr0]; simp only [Option.some_bind]
            rw [hr1]; simp only [Option.some_bind]
            split_ifs with hc
            · have h3 := unread_match_le ELSE r1.2
              obtain ⟨r2, hr2, hle2, _⟩ := ihm .stmt_sequence (match_ ELSE r1.2)
                (by simp only [NT.rank]; omega)
              simp only [run] at hr2
              rw [hr2]
              have h4 := unread_match_le END r2.2
              exact ⟨_, rfl, by dsimp only; omega, fun _ _ => by dsimp only; omega⟩
            · have h4 := unread_match_le END r1.2
              exact ⟨_, rfl, by dsimp only; omega, fun _ _ => by dsimp only; omega⟩
          · -- repeat
            rename_i hk
            simp only [repeat_stmt]
            have h1 := unread_match_lt REPEAT st hk (by decide)
            obtain ⟨r0, hr0, hle0, _⟩ := ihm .stmt_sequence (match_ REPEAT st)
              (by simp only [NT.rank]; omega)
            have h2 := unread_match_le UNTIL r0.2
            obtain ⟨r1, hr1, hle1, _⟩ := ihm .exp (match_ UNTIL r0.2)
              (by simp only [NT.rank]; omega)
            simp only [run] at hr0 hr1
            rw [hr0]; simp only [Option.some_bind]
            rw [hr1]
            exact ⟨_, rfl, by dsimp only; omega, fun _ _ => by dsimp only; omega⟩
          · -- assign
            rename_i hk
            simp only [assign_stmt]
            have h1 := unread_match_lt ID st hk (by decide)
            have h2 := unread_match_le ASSIGN (match_ ID st)
            obtain ⟨r0, hr0, hle0, _⟩ := ihm .exp (match_ ASSIGN (match_ ID st))
              (by simp only [NT.rank]; omega)
            simp only [run] at hr0
            rw [hr0]
            exact ⟨_, rfl, by dsimp only; omega, fun _ _ => by dsimp only; omega⟩
          · -- read
            rename_i hk
            simp only [read_stmt]
            have h1 := unread_match_lt READ st hk (by decide)
            have h2 := unread_match_le ID (match_ READ st)
            exact ⟨_, rfl, by dsimp only; omega, fun _ _ => by dsimp only; omega⟩
          · -- write
            rename_i hk
            simp only [write_stmt]
            have h1 := unread_match_lt WRITE st hk (by decide)
            obtain ⟨r0, hr0, hle0, _⟩ := ihm .exp (match_ WRITE st)
              (by simp only [NT.rank]; omega)
            simp only [run] at hr0
            rw [hr0]
            exact ⟨_, rfl, by dsimp only; omega, fun _ _ => by dsimp only; omega⟩
          · refine ⟨_, rfl, ?_, fun _ h => ?_⟩
            · exact le_trans (unread_nextToken_le _) (le_of_eq (unread_syntaxError _ _))
            · exact lt_of_lt_of_le (unread_nextToken_lt _ (by rw [token_syntaxError]; exact h))
                (le_of_eq (unread_syntaxError _ _))

theorem run_unread (nt : NT) (n : Nat) (st : ParseState) (r : TreeNode × ParseState)
    (h : run nt n st = some r) :
    r.2.unread ≤ st.unread ∧
    ((nt = .statement ∨ nt = .factor) → st.token ≠ ENDFILE → r.2.unread < st.unread) := by
  obtain ⟨r', hr', h1, h2⟩ :=
    run_total (max n (4 * st.unread + nt.rank)) nt st (le_max_right _ _)
  have := run_mono nt st r n (max n (4 * st.unread + nt.rank)) (le_max_left _ _) h
  rw [this] at hr'
  obtain rfl := Option.some.inj hr'
  exact ⟨h1, h2⟩

theorem unread_init (src : List Char) : (ParseState.init src).unread = src.length := by
  simp [ParseState.unread, ParseState.init, ScanState.init, ScanState.remaining]

theorem parse_total (st : ParseState) :
    ∃ r, ∀ fuel, 4 * st.unread + 4 ≤ fuel → parse fuel st = some r := by
  have hle := unread_nextToken_le st
  obtain ⟨r, hr, _⟩ := run_total (4 * st.unread + 4) .stmt_sequence (nextToken st)
    (by simp only [NT.rank]; omega)
  refine ⟨if r.2.token ≠ ENDFILE then (r.1, syntaxError "Code ends before file\n" r.2) else r,
    fun fuel hf => ?_⟩
  have := run_mono _ _ _ _ fuel hf hr
  simp only [run] at this
  unfold parse
  rw [this]
  simp only [Option.some_bind]
  split_ifs <;> rfl

theorem parseSource_total (src : List Char) :
    ∃ r, ∀ fuel, parseFuel src ≤ fuel → parseSource fuel src = some r := by
  obtain ⟨r, hr⟩ := parse_total (ParseState.init src)
  rw [unread_init] at hr
  exact ⟨r, fun fuel hf => hr fuel hf⟩

/-! ## After the end of the file -/

theorem charValue_eq_none (c : Char) : charValue c = none ↔ c = Char.ofNat 255 := by
  unfold charValue
  split_ifs with h <;> simp [h]

theorem readLine_head (k : Nat) (a : Char) (l : List Char) :
    (readLine (k + 1) (a :: l)).getD 0 (Char.ofNat 0) = a := by
  simp only [readLine]
  split <;> rfl

theorem getNextChar_none_eof (s : ScanState) (hn : s.NoFF) (h : (getNextChar s).1 = none) :
    ¬ (s.linepos < s.bufsize) ∧ s.source = [] ∧
    (getNextChar s).2 = { s with lineno := s.lineno + 1, EOF_flag := true } := by
  obtain ⟨n1, n2⟩ := hn
  by_cases hc : s.linepos < s.bufsize
  · simp only [getNextChar, hc, not_true_eq_false, if_false, charValue_eq_none] at h
    exfalso
    by_cases hl : s.linepos < s.lineBuf.length
    · rw [List.getD_eq_getElem?_getD, List.getElem?_eq_getElem hl] at h
      exact n1 _ (List.getElem_mem hl) h
    · rw [List.getD_eq_getElem?_getD, List.getElem?_eq_none (by omega)] at h
      revert h; decide
  · cases hs : s.source with
    | nil => simp [getNextChar, fgets, hs, hc]
    | cons a l =>
      exfalso
      have hk : BUFLEN - 1 - 1 = 253 + 1 := by decide
      simp only [getNextChar, hc, not_false_eq_true, if_true, hs, fgets, charValue_eq_none,
        hk, readLine_head] at h
      exact n2 a (by rw [hs]; exact List.mem_cons_self _ _) h

theorem getNextChar_noFF (s : ScanState) (hn : s.NoFF) : (getNextChar s).2.NoFF := by
  obtain ⟨n1, n2⟩ := hn
  unfold getNextChar
  by_cases hc : s.linepos < s.bufsize
  · simp only [hc, not_true_eq_false, if_false]
    exact ⟨n1, n2⟩
  · simp only [hc, not_false_eq_true, if_true]
    cases hs : s.source with
    | nil => simp only [fgets]; exact ⟨n1, by simp [hs]⟩
    | cons a l =>
      simp only [fgets]
      exact ⟨fun c h => n2 c (by rw [hs]; exact readLine_subset _ _ c h),
        fun c h => n2 c (by rw [hs]; exact List.mem_of_mem_drop h)⟩

theorem ungetNextChar_noFF (s : ScanState) (hn : s.NoFF) : (ungetNextChar s).NoFF := by
  unfold ungetNextChar
  split
  · exact hn
  · exact hn

theorem getNextChar_eof (s : ScanState) (h1 : ¬ (s.linepos < s.bufsize)) (h2 : s.source = []) :
    getNextChar s = (none, { s with lineno := s.lineno + 1, EOF_flag := true }) := by
  unfold getNextChar
  rw [if_pos h1]
  simp [fgets, h2]

theorem getToken_eof (s : ScanState) (h1 : ¬ (s.linepos < s.bufsize)) (h2 : s.source = []) :
    getToken s =
      (ENDFILE, { s with lineno := s.lineno + 1, EOF_flag := true, tokenString := [] }) := by
  unfold getToken
  simp only [getTokenLoop]
  rw [if_neg (by simp)]
  have : loopBody ⟨START, ERROR, true, { s with tokenString := [] }⟩ =
      ⟨DONE, ENDFILE, false,
        { s with lineno := s.lineno + 1, EOF_flag := true, tokenString := [] }⟩ := by
    have hg := getNextChar_eof { s with tokenString := [] } h1 h2
    simp only [loopBody, hg]
    simp [switchState, isdigit, isalpha, startToken, saveChar, finishToken]
  rw [this, getTokenLoop_DONE _ _ rfl]

theorem switchState_ENDFILE (c : Option Char) (l : LoopState) (hl : l.state ≠ DONE) :
    ((switchState c l).state ≠ DONE → (switchState c l).currentToken = l.currentToken) ∧
    ((switchState c l).state = DONE → (switchState c l).currentToken = ENDFILE →
      c = none ∧ (switchState c l).scan = l.scan) := by
  obtain ⟨state, cur, save, scan⟩ := l
  have hst := startToken_none_iff c
  cases state
  · simp only [switchState]
    cases c <;> split_ifs <;> simp_all [isdigit, isalpha]
  · simp only [switchState]
    cases c <;> split_ifs <;> simp_all
  · simp only [switchState]
    cases c <;> split_ifs <;> simp_all
  · simp only [switchState]
    cases c <;> split_ifs <;> simp_all [isdigit]
  · simp only [switchState]
    cases c <;> split_ifs <;> simp_all [isalpha]
  · simp at hl

theorem saveChar_scan (c : Option Char) (l : LoopState) :
    (saveChar c l).scan.linepos = l.scan.linepos ∧ (saveChar c l).scan.bufsize = l.scan.bufsize ∧
    (saveChar c l).scan.source = l.scan.source := by
  unfold saveChar; split <;> simp

theorem saveChar_noFF (c : Option Char) (l : LoopState) (hn : l.scan.NoFF) :
    (saveChar c l).scan.NoFF := by
  unfold saveChar
  split
  · exact hn
  · exact hn

theorem switchState_noFF (c : Option Char) (l : LoopState) (hn : l.scan.NoFF) :
    (switchState c l).scan.NoFF := by
  by_cases hl : l.state = DONE
  · have : (switchState c l).scan = l.scan := by
      obtain ⟨state, cur, save, scan⟩ := l
      simp only at hl
      subst hl
      rfl
    rw [this]; exact hn
  · rcases (switchState_scan c l hl).1 with h | h
    · rw [h]; exact hn
    · rw [h]; exact ungetNextChar_noFF _ hn

theorem loopBody_noFF (l : LoopState) (hn : l.scan.NoFF) : (loopBody l).scan.NoFF := by
  simp only [loopBody, finishToken_scan]
  exact saveChar_noFF _ _ (switchState_noFF _ _ (getNextChar_noFF _ hn))

theorem getTokenLoop_noFF (fuel : Nat) : ∀ l : LoopState, l.scan.NoFF →
    (getTokenLoop fuel l).scan.NoFF := by
  induction fuel with
  | zero => intro l hn; exact hn
  | succ n ih =>
    intro l hn
    simp only [getTokenLoop]
    split_ifs
    · exact hn
    · exact ih _ (loopBody_noFF l hn)

theorem getToken_noFF (s : ScanState) (hn : s.NoFF) : (getToken s).2.NoFF :=
  getTokenLoop_noFF _ _ hn

theorem noFF_init (src : List Char) (h : ∀ c ∈ src, c ≠ Char.ofNat 255) :
    (ScanState.init src).NoFF :=
  ⟨fun c hc => by simp [ScanState.init] at hc, h⟩

theorem loopBody_ENDFILE (l : LoopState) (hl : l.state ≠ DONE) (hn : l.scan.NoFF) :
    ((loopBody l).state ≠ DONE → (loopBody l).currentToken = l.currentToken) ∧
    ((loopBody l).state = DONE → (loopBody l).currentToken = ENDFILE →
      ¬ ((loopBody l).scan.linepos < (loopBody l).scan.bufsize) ∧ (loopBody l).scan.source = []) := by
  obtain ⟨h1, h2⟩ := switchState_ENDFILE (getNextChar l.scan).1
    { l with save := true, scan := (getNextChar l.scan).2 } hl
  obtain ⟨s1, s2, s3⟩ := saveChar_scan (getNextChar l.scan).1
    (switchState (getNextChar l.scan).1 { l with save := true, scan := (getNextChar l.scan).2 })
  simp only [loopBody, finishToken_state, saveChar_state, finishToken_scan,
    finishToken_ENDFILE, saveChar_currentToken]
  refine ⟨fun hd => ?_, fun hd htok => ?_⟩
  · rw [finishToken_not_DONE _ (by rw [saveChar_state]; exact hd), saveChar_currentToken]
    exact h1 hd
  · obtain ⟨hc, hsc⟩ := h2 hd htok
    obtain ⟨e1, e2, e3⟩ := getNextChar_none_eof l.scan hn hc
    rw [s1, s2, s3, hsc]
    dsimp only
    rw [e3]
    exact ⟨e1, e2⟩

theorem getTokenLoop_ENDFILE (fuel : Nat) : ∀ l : LoopState, l.state ≠ DONE → l.scan.NoFF →
    l.currentToken ≠ ENDFILE → (getTokenLoop fuel l).currentToken = ENDFILE →
    ¬ ((getTokenLoop fuel l).scan.linepos < (getTokenLoop fuel l).scan.bufsize) ∧
    (getTokenLoop fuel l).scan.source = [] := by
  induction fuel with
  | zero => intro l _ _ h1 h2; exact absurd h2 h1
  | succ n ih =>
    intro l hl hn h1 h2
    obtain ⟨a, b⟩ := loopBody_ENDFILE l hl hn
    simp only [getTokenLoop, hl, if_false] at h2 ⊢
    by_cases hd : (loopBody l).state = DONE
    · rw [getTokenLoop_DONE _ _ hd] at h2 ⊢
      exact b hd h2
    · exact ih (loopBody l) hd (loopBody_noFF l hn) (by rw [a hd]; exact h1) h2

/-- When no byte `0xFF` is to come, `getToken` returns `ENDFILE` only at the end of the
file. -/
theorem getToken_ENDFILE_eof (s : ScanState) (hn : s.NoFF) (h : (getToken s).1 = ENDFILE) :
    ¬ ((getToken s).2.linepos < (getToken s).2.bufsize) ∧ (getToken s).2.source = [] :=
  getTokenLoop_ENDFILE _ _ (by simp) hn (by simp) h

/-- At the end of the file every call of `getToken` returns `ENDFILE`. -/
theorem getTokens_eof (n : Nat) : ∀ s : ScanState, ¬ (s.linepos < s.bufsize) → s.source = [] →
    ∀ tk ∈ getTokens n s, tk.kind = ENDFILE := by
  induction n with
  | zero => intro s _ _ tk h; simp [getTokens] at h
  | succ n ih =>
    intro s h1 h2 tk h
    have e := getToken_eof s h1 h2
    simp only [getTokens, List.mem_cons] at h
    rcases h with rfl | h
    · show (getToken s).1 = ENDFILE
      rw [e]
    · rw [e] at h
      exact ih _ (by exact h1) (by exact h2) tk h

/-- When no byte `0xFF` is to come, every token that successive calls of `getToken`
return after an `ENDFILE` is `ENDFILE`. -/
theorem getTokens_ENDFILE (n : Nat) : ∀ (s : ScanState) (pre post : List Token) (tk : Token),
    s.NoFF → getTokens n s = pre ++ tk :: post → tk.kind = ENDFILE →
    ∀ t ∈ post, t.kind = ENDFILE := by
  induction n with
  | zero => intro s pre post tk _ h; simp [getTokens] at h
  | succ n ih =>
    intro s pre post tk hn h hk
    simp only [getTokens] at h
    cases pre with
    | nil =>
      simp only [List.nil_append, List.cons.injEq] at h
      obtain ⟨h1, h2⟩ := h
      have hE : (getToken s).1 = ENDFILE := by rw [← hk, ← h1]
      obtain ⟨e1, e2⟩ := getToken_ENDFILE_eof s hn hE
      rw [← h2]
      exact getTokens_eof n _ e1 e2
    | cons p pre =>
      simp only [List.cons_append, List.cons.injEq] at h
      exact ih _ pre post tk (getToken_noFF s hn) h.2 hk

/-- C19. Parser termination: for every source text `parse` returns, whatever the text,
once the bound on its recursion is at least `parseFuel`. Every iteration of the loops of
`stmt_sequence`, `simple_exp` and `term` consumes input, and `statement` and `factor`
consume input unless the lookahead is `ENDFILE`. In a text without the byte `0xFF` every
token that successive calls of `getToken` return after an `ENDFILE` is an `ENDFILE`.
With that byte it is not so: `getNextChar` returns an element of `lineBuf`, a plain
`char`, as an `int`, so the byte `0xFF` is returned as `EOF`. In the text `x := 1`, byte
`0xFF`, `; y := 2` the calls of `getToken` return `ENDFILE` for that byte and then `;`,
`y`, `:=`, `2`, and `parse` returns the tree of `x := 1` alone and reports no error. -/
theorem parser_terminates (src : List Char) :
    (∃ r, ∀ fuel, parseFuel src ≤ fuel → parseSource fuel src = some r) ∧
    (∀ (n : Nat) (st : ParseState) (r : TreeNode × ParseState),
      (st.token ≠ ENDFILE ∧ st.token ≠ END ∧ st.token ≠ ELSE ∧ st.token ≠ UNTIL) →
      statement n (match_ SEMI st) = some r → r.2.unread < st.unread) ∧
    (∀ (n : Nat) (st : ParseState) (r : TreeNode × ParseState),
      (st.token = PLUS ∨ st.token = MINUS) →
      term n (match_ st.token st) = some r → r.2.unread < st.unread) ∧
    (∀ (n : Nat) (st : ParseState) (r : TreeNode × ParseState),
      (st.token = TIMES ∨ st.token = OVER) →
      factor n (match_ st.token st) = some r → r.2.unread < st.unread) ∧
    (∀ (n : Nat) (st : ParseState) (r : TreeNode × ParseState),
      statement n st = some r → st.token ≠ ENDFILE → r.2.unread < st.unread) ∧
    (∀ (n : Nat) (st : ParseState) (r : TreeNode × ParseState),
      factor n st = some r → st.token ≠ ENDFILE → r.2.unread < st.unread) ∧
    ((∀ c ∈ src, c ≠ Char.ofNat 255) →
      ∀ (n : Nat) (pre post : List Token) (tk : Token),
        getTokens n (ScanState.init src) = pre ++ tk :: post → tk.kind = ENDFILE →
        ∀ t ∈ post, t.kind = ENDFILE) ∧
    (getTokens 9 (ScanState.init "x := 1\xff; y := 2".toList)).map Token.pair =
      [(ID, ['x']), (ASSIGN, [':', '=']), (NUM, ['1']), (ENDFILE, []), (SEMI, [';']),
       (ID, ['y']), (ASSIGN, [':', '=']), (NUM, ['2']), (ENDFILE, [])] ∧
    ((parseSource (parseFuel "x := 1\xff; y := 2".toList) "x := 1\xff; y := 2".toList).map
        fun r => (r.1, r.2.Error, r.2.listing)) =
      some (assignNode ⟨ID, ['x'], 1⟩
        (.node { kind := .ExpK ConstK, attr := .val 1, lineno := 1, type := Void }
          .null .null .null .null), false, []) := by
  refine ⟨parseSource_total src, ?_, ?_, ?_, ?_, ?_, fun hsrc n pre post tk h hk =>
    getTokens_ENDFILE n _ pre post tk (noFF_init src hsrc) h hk, by decide, by decide⟩
  · intro n st r hc h
    obtain ⟨h1, h2⟩ := run_unread .statement n (match_ SEMI st) r h
    by_cases hs : st.token = SEMI
    · have := unread_match_lt SEMI st hs (by decide); omega
    · have e : match_ SEMI st = syntaxError "unexpected token -> " st := by
        unfold match_; rw [if_neg hs]
      rw [e, token_syntaxError, unread_syntaxError] at h2
      exact h2 (Or.inl rfl) hc.1
  · intro n st r hc h
    have h1 := (run_unread .term n _ r h).1
    have := unread_match_lt st.token st rfl (by rcases hc with hc | hc <;> simp [hc])
    omega
  · intro n st r hc h
    have h1 := (run_unread .factor n _ r h).1
    have := unread_match_lt st.token st rfl (by rcases hc with hc | hc <;> simp [hc])
    omega
  · intro n st r h hne
    exact (run_unread .statement n st r h).2 (Or.inl rfl) hne
  · intro n st r h hne
    exact (run_unread .factor n st r h).2 (Or.inr rfl) hne

/-! ## The error flag -/

theorem run_Error_mono (nt : NT) (n : Nat) (st : ParseState) (r : TreeNode × ParseState)
    (h : run nt n st = some r) (he : st.Error = true) : r.2.Error = true := by
  by_contra hc
  have hf : r.2.Error = false := by simpa using hc
  have := (run_sound n nt st r.1 r.2 h hf).1
  rw [he] at this
  exact absurd this (by decide)

theorem parse_Error_mono (n : Nat) (st : ParseState) (r : TreeNode × ParseState)
    (h : parse n st = some r) (he : st.Error = true) : r.2.Error = true := by
  unfold parse at h
  rw [Option.bind_eq_some] at h
  obtain ⟨r0, h0, h⟩ := h
  have := run_Error_mono .stmt_sequence n (nextToken st) r0 h0 he
  split_ifs at h
  · obtain rfl := Option.some.inj h
    rfl
  · obtain rfl := Option.some.inj h
    exact this

theorem match_Error_mono (e : TokenType) (st : ParseState) (he : st.Error = true) :
    (match_ e st).Error = true := by
  unfold match_; split
  · exact he
  · rfl

theorem insertName_Error (name : List Char) (line : Nat) (a : AnalyzeState) :
    (insertName name line a).Error = a.Error := by
  unfold insertName; split <;> rfl

theorem insertAll_Error (l : List (List Char × Nat)) : ∀ a : AnalyzeState,
    (insertAll l a).Error = a.Error := by
  induction l with
  | nil => intro a; rfl
  | cons p l ih => intro a; rw [insertAll_cons, ih, insertName_Error]

theorem buildSymtab_Error (t : TreeNode) (a : AnalyzeState) :
    (buildSymtab t a).2.Error = a.Error := by
  rw [buildSymtab_eq]; exact insertAll_Error _ a

theorem checkNode_Error_mono (t : TreeNode) (a : AnalyzeState) (he : a.Error = true) :
    (checkNode t a).2.Error = true := by
  unfold checkNode
  split <;> (try split_ifs) <;> first | exact he | rfl

theorem traverse_preserves {σ : Type} (P : σ → Prop) (pre post : TreeNode → σ → NodeInfo × σ)
    (hpre : ∀ t a, P a → P (pre t a).2) (hpost : ∀ t a, P a → P (post t a).2)
    (t : TreeNode) : ∀ a, P a → P (traverse pre post t a).2 := by
  induction t with
  | null => intro a h; exact h
  | node i c0 c1 c2 sib ih0 ih1 ih2 ihs =>
    intro a h
    rw [traverse_node]
    exact ihs _ (hpost _ _ (ih2 _ (ih1 _ (ih0 _ (hpre _ _ h)))))

theorem typeCheck_Error_mono (t : TreeNode) (a : AnalyzeState) (he : a.Error = true) :
    (typeCheck t a).2.Error = true :=
  traverse_preserves (fun a => a.Error = true) nullProc checkNode (fun _ _ h => h)
    checkNode_Error_mono t a he

/-- C11. Error containment: for every source text `main` calls `buildSymtab` and
`typeCheck` iff the flag `Error` is clear after `parse`, and it calls `codeGen` iff the
flag is clear after `parse` and still clear after `buildSymtab` and `typeCheck` (and the
code file could be opened; otherwise `main` exits). So `codeGen` is not called when the
flag is set at the end. No operation of the scanner, the parser or the analyzer resets
the flag: `getToken` leaves it alone, `syntaxError` sets it, and `match`, the parsing
functions, `parse`, `buildSymtab` and `typeCheck` return with the flag set when they
are entered with the flag set. -/
theorem error_containment (codeOpens : Bool) (src : List Char) :
    (∃ t st r, parseSource (parseFuel src) src = some (t, st) ∧ main codeOpens src = some r ∧
      (Phase.buildSymtab ∈ r.calls ↔ st.Error = false) ∧
      (Phase.typeCheck ∈ r.calls ↔ st.Error = false) ∧
      (Phase.codeGen ∈ r.calls ↔
        st.Error = false ∧
        (typeCheck (buildSymtab t (AnalyzeState.init st)).1
          (buildSymtab t (AnalyzeState.init st)).2).2.Error = false ∧
        codeOpens = true) ∧
      (r.Error = true → Phase.codeGen ∉ r.calls)) ∧
    (∀ st : ParseState, (nextToken st).Error = st.Error) ∧
    (∀ (m : String) (st : ParseState), (syntaxError m st).Error = true) ∧
    (∀ (e : TokenType) (st : ParseState), st.Error = true → (match_ e st).Error = true) ∧
    (∀ (nt : NT) (n : Nat) (st : ParseState) (r : TreeNode × ParseState),
      run nt n st = some r → st.Error = true → r.2.Error = true) ∧
    (∀ (n : Nat) (st : ParseState) (r : TreeNode × ParseState),
      parse n st = some r → st.Error = true → r.2.Error = true) ∧
    (∀ (t : TreeNode) (a : AnalyzeState), a.Error = true → (buildSymtab t a).2.Error = true) ∧
    (∀ (t : TreeNode) (a : AnalyzeState), a.Error = true → (typeCheck t a).2.Error = true) := by
  refine ⟨?_, fun _ => rfl, fun _ _ => rfl, match_Error_mono, run_Error_mono, parse_Error_mono,
    fun t a h => by rw [buildSymtab_Error]; exact h, typeCheck_Error_mono⟩
  obtain ⟨⟨t, st⟩, hr⟩ := parseSource_total src
  have hp := hr (parseFuel src) (le_refl _)
  have hp' : parse (parseFuel src) (ParseState.init src) = some (t, st) := hp
  refine ⟨t, st, _, hp, by unfold main; rw [hp']; rfl, ?_⟩
  have hinit : (AnalyzeState.init st).Error = st.Error := rfl
  cases h1 : st.Error
  · cases h2 : (typeCheck (buildSymtab t (AnalyzeState.init st)).1
        (buildSymtab t (AnalyzeState.init st)).2).2.Error
    · cases codeOpens <;> simp [h1, h2, hinit]
    · cases codeOpens <;> simp [h1, h2, hinit]
  · simp [h1, hinit]

theorem main_calls_examples :
    ((main true "x := 1 +".toList).map fun r => r.calls) = some [Phase.parse] ∧
    ((main true "x := 1 + (2 < 3)".toList).map fun r => r.calls) =
      some [Phase.parse, Phase.buildSymtab, Phase.typeCheck] ∧
    ((main true "x := 1 + 2".toList).map fun r => r.calls) =
      some [Phase.parse, Phase.buildSymtab, Phase.typeCheck, Phase.codeGen] := by
  refine ⟨?_, ?_, ?_⟩ <;> decide

/-! ## Tokens after a statement sequence -/

theorem parseSource_at_parseFuel (src : List Char) (fuel : Nat) (r : TreeNode × ParseState)
    (h : parseSource fuel src = some r) :
    ∀ n, parseFuel src ≤ n → parseSource n src = some r := by
  obtain ⟨r', hr'⟩ := parseSource_total src
  intro n hn
  rw [hr' n hn]
  exact congrArg some (parse_fuel_unique _ _ _ _ _ (hr' n hn) h)

/-- C12 fails as stated: the tokens of `x := 1` form a complete statement sequence, and
in the text that has `)` after them `parse` reports two `unexpected token` errors but not
the final `Code ends before file` error: `statement` consumes the `)` and the loop of
`stmt_sequence` ends at `ENDFILE`. -/
theorem trailing_tokens_counterexample :
    (∃ t, Derives .stmt_sequence (scanAll "x := 1\n".toList) t) ∧
    scanAll "x := 1\n)".toList =
      scanAll "x := 1\n".toList ++ [{ kind := RPAREN, str := [')'], line := 2 }] ∧
    ((parseSource (parseFuel "x := 1\n)".toList) "x := 1\n)".toList).map
      fun r => (r.2.Error, r.2.listing)) =
      some (true, [{ line := 2, message := "unexpected token -> " },
                   { line := 2, message := "unexpected token -> " }]) := by
  refine ⟨?_, by decide, by decide⟩
  have h : ((parseSource 20 "x := 1\n".toList).map fun r => r.2.Error) = some false := by decide
  cases hp : parseSource 20 "x := 1\n".toList with
  | none => rw [hp] at h; simp at h
  | some r =>
    rw [hp] at h
    exact ⟨r.1, (parse_derives 20 _ r.1 r.2 hp (by simpa using h)).1⟩

/-! ## Lexical errors -/

theorem derives_no_ERROR (nt : NT) (w : List Token) (t : TreeNode) (h : Derives nt w t) :
    ∀ tk ∈ w, tk.kind ≠ ERROR := by
  induction h <;> intro tk htk <;>
    (try simp only [List.mem_cons, List.mem_append, List.mem_singleton, List.not_mem_nil,
      or_false, false_or] at htk) <;> aesop

/-- C13. Lexical errors surface as syntax errors: when the token sequence of a source
text contains an `ERROR` token, `parse` returns with the error flag set. -/
theorem lexical_error_surfaces (src : List Char) (h : ∃ tk ∈ scanAll src, tk.kind = ERROR) :
    ∃ t st', (∀ fuel, parseFuel src ≤ fuel → parseSource fuel src = some (t, st')) ∧
      st'.Error = true := by
  obtain ⟨⟨t, st'⟩, hr⟩ := parseSource_total src
  refine ⟨t, st', hr, ?_⟩
  by_contra hc
  have hf : st'.Error = false := by simpa using hc
  obtain ⟨tk, htk, hk⟩ := h
  exact derives_no_ERROR _ _ _ (parse_derives _ src t st' (hr _ (le_refl _)) hf).1 tk htk hk

theorem lexical_error_surfaces_witness :
    (∃ tk ∈ scanAll "x := 1 ? 2; y : 3".toList, tk.kind = ERROR) ∧
    ∃ t st', (∀ fuel, parseFuel "x := 1 ? 2; y : 3".toList ≤ fuel →
        parseSource fuel "x := 1 ? 2; y : 3".toList = some (t, st')) ∧ st'.Error = true :=
  ⟨by decide, lexical_error_surfaces "x := 1 ? 2; y : 3".toList (by decide)⟩

/-! ## The function `match` -/

/-- C18. The function `match` does not consume on a mismatch: when the lookahead is the
expected token, `match` replaces it by the next token of the scanner and leaves the error
flag and the listing as they are; otherwise it sets the error flag, reports one syntax
error with the current line and leaves the lookahead and the scanner globals as they
are. -/
theorem match_frame (e : TokenType) (st : ParseState) :
    (st.token = e →
      (match_ e st).token = (getToken st.scan).1 ∧ (match_ e st).scan = (getToken st.scan).2 ∧
      (match_ e st).Error = st.Error ∧ (match_ e st).listing = st.listing) ∧
    (st.token ≠ e →
      (match_ e st).Error = true ∧
      (match_ e st).listing =
        st.listing ++ [{ line := st.scan.lineno, message := "unexpected token -> " }] ∧
      (match_ e st).token = st.token ∧ (match_ e st).scan = st.scan) := by
  constructor
  · intro h
    simp only [match_, if_pos h]
    exact ⟨rfl, rfl, rfl, rfl⟩
  · intro h
    simp only [match_, if_neg h]
    exact ⟨rfl, rfl, rfl, rfl⟩

theorem match_frame_witness :
    (match_ SEMI (nextToken (ParseState.init "x y".toList))).token = ID ∧
    (match_ SEMI (nextToken (ParseState.init "x y".toList))).scan =
      (nextToken (ParseState.init "x y".toList)).scan ∧
    (match_ ID (nextToken (ParseState.init "x y".toList))).Error = false :=
  ⟨by
    rw [((match_frame SEMI (nextToken (ParseState.init "x y".toList))).2 (by decide)).2.2.1]
    decide,
   ((match_frame SEMI (nextToken (ParseState.init "x y".toList))).2 (by decide)).2.2.2,
   by
    rw [((match_frame ID (nextToken (ParseState.init "x y".toList))).1 (by decide)).2.2.1]
    decide⟩

/-! ## The length of the lexeme -/

theorem saveChar_length (c : Option Char) (l : LoopState)
    (h : l.scan.tokenString.length ≤ MAXTOKENLEN + 1) :
    (saveChar c l).scan.tokenString.length ≤ MAXTOKENLEN + 1 := by
  unfold saveChar
  split
  · next hc => simp only [List.length_append, List.length_singleton]; omega
  · exact h

theorem switchState_tokenString (c : Option Char) (l : LoopState) :
    (switchState c l).scan.tokenString = l.scan.tokenString := by
  unfold switchState
  split <;> (try split_ifs) <;> first | rfl | exact ungetNextChar_tokenString _

theorem getNextChar_tokenString (s : ScanState) :
    (getNextChar s).2.tokenString = s.tokenString := by
  unfold getNextChar
  split_ifs
  · rfl
  · dsimp only; split <;> rfl

theorem loopBody_length (l : LoopState) (h : l.scan.tokenString.length ≤ MAXTOKENLEN + 1) :
    (loopBody l).scan.tokenString.length ≤ MAXTOKENLEN + 1 := by
  simp only [loopBody, finishToken_scan]
  apply saveChar_length
  rw [switchState_tokenString]
  dsimp only
  rw [getNextChar_tokenString]
  exact h

theorem getTokenLoop_length (fuel : Nat) : ∀ l : LoopState,
    l.scan.tokenString.length ≤ MAXTOKENLEN + 1 →
    (getTokenLoop fuel l).scan.tokenString.length ≤ MAXTOKENLEN + 1 := by
  induction fuel with
  | zero => intro l h; exact h
  | succ n ih =>
    intro l h
    simp only [getTokenLoop]
    split_ifs
    · exact h
    · exact ih _ (loopBody_length l h)

theorem getToken_length (s : ScanState) :
    (getToken s).2.tokenString.length ≤ MAXTOKENLEN + 1 :=
  getTokenLoop_length _ _ (by simp)

/-- C17, evaluated at a run of 41 letters: `getToken` stores all 41 characters, at the
indices 0 to 40 of `tokenString`, so that the terminating NUL is stored at index 41, one
past the end of the buffer of `MAXTOKENLEN + 1 = 41` elements. For every input at most
`MAXTOKENLEN + 1` characters are stored. -/
theorem lexeme_overflow :
    (getToken (ScanState.init (List.replicate 41 'a'))).1 = ID ∧
    (getToken (ScanState.init (List.replicate 41 'a'))).2.tokenString = List.replicate 41 'a' ∧
    ¬ ((getToken (ScanState.init (List.replicate 41 'a'))).2.tokenString.length ≤ MAXTOKENLEN) ∧
    ∀ s : ScanState, (getToken s).2.tokenString.length ≤ MAXTOKENLEN + 1 := by
  refine ⟨by decide, by decide, by decide, getToken_length⟩

/-! ## The typing rule -/

theorem checkNode_info (i : NodeInfo) (c0 c1 c2 sib : TreeNode) (a : AnalyzeState) :
    (checkNode (.node i c0 c1 c2 sib) a).1 = typedInfo i := by
  obtain ⟨kind, attr, lineno, type⟩ := i
  rcases kind with k | k <;> cases k <;> simp only [checkNode, typedInfo, info_node] <;>
    (try split_ifs) <;> rfl

theorem typeCheck_typed (t : TreeNode) : ∀ a : AnalyzeState, (typeCheck t a).1 = typed t := by
  unfold typeCheck
  induction t with
  | null => intro a; rfl
  | node i c0 c1 c2 sib ih0 ih1 ih2 ihs =>
    intro a
    rw [traverse_node]
    simp only [ih0, ih1, ih2, ihs, checkNode_info, typed, nullProc, info_node]

theorem postorder_typed (t : TreeNode) : postorder (typed t) = (postorder t).map typed := by
  induction t with
  | null => rfl
  | node i c0 c1 c2 sib ih0 ih1 ih2 ihs =>
    simp only [typed, postorder, ih0, ih1, ih2, ihs, List.map_append, List.map_cons, List.map_nil]

theorem sameButExpTypes_typed (t : TreeNode) : SameButExpTypes t (typed t) := by
  induction t with
  | null => trivial
  | node i c0 c1 c2 sib ih0 ih1 ih2 ihs =>
    simp only [typed, SameButExpTypes]
    refine ⟨?_, ?_, ?_, ?_, ih0, ih1, ih2, ihs⟩ <;>
      (unfold typedInfo; split <;> simp_all)

/-- C20. Typing rule: in the tree `typeCheck` leaves, every Const node and every Id node
has type Integer and every operator node has type Boolean when its operator is `=` or
`<` and type Integer when it is `+`, `-`, `*` or `/`, whatever was reported at the node;
the tree has the structure it had and its nodes the fields they had, except for the type
field of expression nodes. This holds for every tree, so for the tree of an error-free
parse after `buildSymtab`. -/
theorem typing_rule (t : TreeNode) (a : AnalyzeState) :
    (typeCheck t a).1 = typed t ∧
    SameButExpTypes t (typeCheck t a).1 ∧
    (typeCheck (buildSymtab t a).1 (buildSymtab t a).2).1 = (typeCheck t a).1 ∧
    ∀ s ∈ postorder (typeCheck t a).1,
      (s.info.kind = .ExpK ConstK → s.type = Integer) ∧
      (s.info.kind = .ExpK IdK → s.type = Integer) ∧
      (s.info.kind = .ExpK OpK →
        (s.info.attr = .op TokenType.EQ ∨ s.info.attr = .op TokenType.LT → s.type = Boolean) ∧
        (s.info.attr = .op PLUS ∨ s.info.attr = .op MINUS ∨ s.info.attr = .op TIMES ∨
          s.info.attr = .op OVER → s.type = Integer)) := by
  refine ⟨typeCheck_typed t a, ?_, ?_, ?_⟩
  · rw [typeCheck_typed]; exact sameButExpTypes_typed t
  · rw [typeCheck_typed, typeCheck_typed, buildSymtab_eq]
  · rw [typeCheck_typed, postorder_typed]
    intro s hs
    obtain ⟨s', hs', rfl⟩ := List.mem_map.mp hs
    obtain ⟨i, c0, c1, c2, sib, rfl⟩ := mem_postorder_node s' t hs'
    simp only [typed, info_node, type_node]
    refine ⟨?_, ?_, ?_⟩
    · intro hk
      have : i.kind = .ExpK ConstK := by unfold typedInfo at hk; split at hk <;> simp_all
      simp [typedInfo, this]
    · intro hk
      have : i.kind = .ExpK IdK := by unfold typedInfo at hk; split at hk <;> simp_all
      simp [typedInfo, this]
    · intro hk
      have : i.kind = .ExpK OpK := by unfold typedInfo at hk; split at hk <;> simp_all
      simp only [typedInfo, this]
      constructor
      · intro h; rw [if_pos h]
      · intro h
        rw [if_neg]
        rcases h with h | h | h | h <;> rw [h] <;> decide

theorem operand_error_types_example :
    ((analyzeSource 20 "x := 1 + (2 < 3)".toList).map fun a => a.Error) = some true ∧
    ((parseSource 20 "x := 1 + (2 < 3)".toList).map fun r =>
      ((typeCheck r.1 (AnalyzeState.init r.2)).1.child0.type,
       (typeCheck r.1 (AnalyzeState.init r.2)).1.child0.child1.type)) =
      some (Integer, Boolean) := by
  constructor <;> decide

/-! ## Line numbers of tokens -/

theorem fitsLines_split (src : List Char) : ∀ k, fitsLines k src = true → src ≠ [] →
    ∃ body rest, src = body ++ '\n' :: rest ∧ '\n' ∉ body ∧
      (body = [] ∨ k + body.length + 3 ≤ BUFLEN) ∧ fitsLines 0 rest = true := by
  induction src with
  | nil => intro k _ h; exact absurd rfl h
  | cons c cs ih =>
    intro k h _
    simp only [fitsLines] at h
    by_cases hc : c = '\n'
    · rw [if_pos hc] at h
      exact ⟨[], cs, by simp [hc], by simp, Or.inl rfl, h⟩
    · rw [if_neg hc, Bool.and_eq_true, decide_eq_true_eq] at h
      have hne : cs ≠ [] := by
        rintro rfl
        simp [fitsLines] at h
      obtain ⟨body, rest, h1, h2, h3, h4⟩ := ih (k + 1) h.2 hne
      refine ⟨c :: body, rest, by simp [h1], ?_, Or.inr ?_, h4⟩
      · simp only [List.mem_cons, not_or]
        exact ⟨fun h => hc h.symm, h2⟩
      · rcases h3 with rfl | h3
        · simp only [List.length_cons, List.length_nil]; omega
        · simp only [List.length_cons]; omega

theorem readLine_line (body rest : List Char) : ∀ n, body.length < n → '\n' ∉ body →
    readLine n (body ++ '\n' :: rest) = body ++ ['\n'] := by
  induction body with
  | nil =>
    intro n hn _
    cases n with
    | zero => simp at hn
    | succ n => simp [readLine]
  | cons b body ih =>
    intro n hn hb
    cases n with
    | zero => simp at hn
    | succ n =>
      simp only [List.mem_cons, not_or] at hb
      simp only [List.cons_append, readLine, if_neg (Ne.symm hb.1), List.cons.injEq, true_and]
      exact ih n (by simpa using hn) hb.2

theorem lineInv_def (T : Nat) (s : ScanState) :
    s.LineInv T ↔
      fitsLines 0 s.source = true ∧
      (s.linepos < s.bufsize → ∃ body, s.lineBuf.drop s.linepos = body ++ ['\n'] ∧ '\n' ∉ body) ∧
      s.lineOf + s.pending.count '\n' = T + 1 := Iff.rfl

theorem getNextChar_line (T : Nat) (s : ScanState) (c : Char) (r : List Char) (hI : s.Inv)
    (hL : s.LineInv T) (hp : s.pending = c :: r) :
    (getNextChar s).2.LineInv T ∧ (getNextChar s).2.lineno + (c :: r).count '\n' = T + 1 ∧
    (c ≠ '\n' → (getNextChar s).2.linepos < (getNextChar s).2.bufsize) ∧
    (s.linepos < s.bufsize → ungetNextChar (getNextChar s).2 = s) := by
  obtain ⟨_, _, g3, _⟩ := getNextChar_cons s c r hI hp
  obtain ⟨h1, h2, h3, h4, _⟩ := hI
  obtain ⟨l1, l2, l3⟩ := hL
  have hE : s.EOF_flag = false := by
    cases hf : s.EOF_flag
    · rfl
    · rw [h3 hf] at hp; simp at hp
  rw [lineInv_def, g3]
  rw [hp] at l3
  by_cases hlt : s.linepos < s.bufsize
  · obtain ⟨body, hb, hnb⟩ := l2 hlt
    have hs' : (getNextChar s).2 = { s with linepos := s.linepos + 1 } := by
      simp [getNextChar, hlt]
    have hpend : body ++ '\n' :: s.source = c :: r := by
      rw [← hp]; simp [ScanState.pending, hb]
    have hdrop : s.lineBuf.drop (s.linepos + 1) = (body ++ ['\n']).drop 1 := by
      rw [← hb, List.drop_drop, Nat.add_comm]
    simp only [ScanState.lineOf, hlt, if_true] at l3
    have hun : ungetNextChar { s with linepos := s.linepos + 1 } = s := by
      cases s
      simp only [ungetNextChar] at hE ⊢
      simp [hE]
    rw [hs']
    simp only [ScanState.lineOf]
    cases body with
    | nil =>
      simp only [List.nil_append, List.cons.injEq] at hpend
      obtain ⟨rfl, rfl⟩ := hpend
      simp only [List.nil_append, List.drop_one, List.tail_cons, List.drop_eq_nil_iff] at hdrop
      have hge : ¬ (s.linepos + 1 < s.bufsize) := by omega
      simp only [List.count_cons_self] at l3
      refine ⟨⟨l1, fun h => absurd h hge, ?_⟩, ?_, fun h => absurd rfl h, fun _ => ?_⟩
      · rw [if_neg hge]; omega
      · simp only [List.count_cons_self]; omega
      · exact hun
    | cons b body =>
      simp only [List.cons_append, List.cons.injEq] at hpend
      obtain ⟨rfl, rfl⟩ := hpend
      simp only [List.mem_cons, not_or] at hnb
      simp only [List.cons_append, List.drop_one, List.tail_cons] at hdrop
      have hlt' : s.linepos + 1 < s.bufsize := by
        rw [h1]
        by_contra hc
        rw [List.drop_eq_nil_of_le (by omega)] at hdrop
        simp at hdrop
      have hcount : (b :: (body ++ '\n' :: s.source)).count '\n' =
          (body ++ '\n' :: s.source).count '\n' := by
        rw [List.count_cons_of_ne hnb.1]
      refine ⟨⟨l1, fun _ => ⟨body, hdrop, hnb.2⟩, ?_⟩, ?_, fun _ => hlt', fun _ => ?_⟩
      · rw [if_pos hlt']; omega
      · exact l3
      · exact hun
  · have hge : s.lineBuf.length ≤ s.linepos := by omega
    have hsrc : s.source = c :: r := by
      simpa [ScanState.pending, List.drop_eq_nil_of_le hge] using hp
    obtain ⟨body, rest, e1, e2, e3, e4⟩ := fitsLines_split s.source 0 l1 (by rw [hsrc]; simp)
    have hbl : body.length < BUFLEN - 1 - 1 := by
      rcases e3 with rfl | e3
      · simp [BUFLEN]
      · simp only [BUFLEN] at e3 ⊢; omega
    have hrl : readLine (BUFLEN - 1 - 1) s.source = body ++ ['\n'] := by
      rw [e1]; exact readLine_line body rest _ hbl e2
    have hnul : ∀ x ∈ body ++ ['\n'], x ≠ Char.ofNat 0 := by
      intro x hx
      apply h4
      rw [e1]
      simp only [List.mem_append, List.mem_singleton, List.mem_cons] at hx ⊢
      tauto
    have hdr : List.drop (body.length + 1) s.source = rest := by
      rw [e1]; simp
    have hfg : fgets (BUFLEN - 1) s.source = some (body ++ ['\n']) := by
      rw [← hrl, hsrc]; rfl
    have hs' : (getNextChar s).2 =
        { s with lineno := s.lineno + 1, source := rest, lineBuf := body ++ ['\n'],
                 bufsize := body.length + 1, linepos := 1 } := by
      simp only [getNextChar, hlt, not_false_eq_true, if_true, hfg, hdr,
        strlen_eq_length _ hnul, List.length_append, List.length_singleton]
    have hcr : c :: r = body ++ '\n' :: rest := by rw [← hsrc, e1]
    simp only [ScanState.lineOf, hlt, if_false] at l3
    rw [hs']
    simp only [ScanState.lineOf]
    cases body with
    | nil =>
      simp only [List.nil_append, List.cons.injEq] at hcr
      obtain ⟨rfl, rfl⟩ := hcr
      simp only [List.count_cons_self] at l3 ⊢
      simp only [List.length_nil, Nat.zero_add, lt_self_iff_false, if_false]
      exact ⟨⟨e4, fun h => absurd h (by simp), by omega⟩, by omega, fun h => absurd rfl h,
        fun h => absurd h hlt⟩
    | cons b body =>
      simp only [List.cons_append, List.cons.injEq] at hcr
      obtain ⟨rfl, rfl⟩ := hcr
      simp only [List.mem_cons, not_or] at e2
      have hcount : (c :: (body ++ '\n' :: rest)).count '\n' =
          (body ++ '\n' :: rest).count '\n' := by
        rw [List.count_cons_of_ne e2.1]
      have hlt' : 1 < (c :: body).length + 1 := by simp
      refine ⟨⟨e4, fun _ => ⟨body, by simp, e2.2⟩, ?_⟩, by omega, fun _ => hlt',
        fun h => absurd h hlt⟩
      rw [if_pos hlt']; omega

theorem lineInv_tokenString (T : Nat) (s : ScanState) (ts : List Char) :
    ({ s with tokenString := ts } : ScanState).LineInv T ↔ s.LineInv T := Iff.rfl

theorem stepS_inToken (st : StateType) (acc : List Char) (c : Char)
    (hst : st = INNUM ∨ st = INID ∨ st = INASSIGN) :
    ((stepS st acc (some c)).state = st ∧ (stepS st acc (some c)).unget = false ∧ c ≠ '\n') ∨
    ((stepS st acc (some c)).state = DONE ∧
      ((stepS st acc (some c)).unget = true ∨
        ((stepS st acc (some c)).unget = false ∧ c ≠ '\n'))) := by
  rcases hst with rfl | rfl | rfl
  · by_cases h : c.isDigit = true
    · left
      refine ⟨by simp [stepS, isdigit, h], by simp [stepS, isdigit, h], ?_⟩
      rintro rfl
      exact absurd h (by decide)
    · right
      exact ⟨by simp [stepS, isdigit, h], Or.inl (by simp [stepS, isdigit, h])⟩
  · by_cases h : c.isAlpha = true
    · left
      refine ⟨by simp [stepS, isalpha, h], by simp [stepS, isalpha, h], ?_⟩
      rintro rfl
      exact absurd h (by decide)
    · right
      exact ⟨by simp [stepS, isalpha, h], Or.inl (by simp [stepS, isalpha, h])⟩
  · by_cases h : c = '='
    · right
      refine ⟨by simp [stepS, h], Or.inr ⟨by simp [stepS, h], ?_⟩⟩
      rw [h]; decide
    · right
      exact ⟨by simp [stepS, h], Or.inl (by simp [stepS, h])⟩

theorem pending_of_inside (T : Nat) (s : ScanState) (hL : s.LineInv T)
    (hin : s.linepos < s.bufsize) : ∃ c r, s.pending = c :: r := by
  obtain ⟨body, hb, _⟩ := hL.2.1 hin
  cases body with
  | nil => exact ⟨'\n', s.source, by simp [ScanState.pending, hb]⟩
  | cons b body => exact ⟨b, body ++ '\n' :: s.source, by simp [ScanState.pending, hb]⟩

theorem lineOf_inside (s : ScanState) (hin : s.linepos < s.bufsize) : s.lineOf = s.lineno := by
  simp [ScanState.lineOf, hin]

/-- Once a token has been started on a line that fits into `lineBuf`, the loop of
`getToken` ends on that line: `lineno` is the same when the token is returned. -/
theorem getTokenLoop_inToken (T : Nat) (fuel : Nat) : ∀ l : LoopState,
    (l.state = INNUM ∨ l.state = INID ∨ l.state = INASSIGN) → l.scan.Inv → l.scan.LineInv T →
    l.scan.linepos < l.scan.bufsize → l.scan.pending.length + 1 ≤ fuel →
    (getTokenLoop fuel l).scan.lineno = l.scan.lineno ∧
    (getTokenLoop fuel l).scan.LineInv T := by
  induction fuel with
  | zero => intro l _ _ _ _ h; omega
  | succ n ih =>
    intro l hst hI hL hin hf
    have hl : l.state ≠ DONE := by rcases hst with h | h | h <;> rw [h] <;> decide
    obtain ⟨c, r, hp⟩ := pending_of_inside T l.scan hL hin
    obtain ⟨b1, _, b3⟩ := loopBody_stepS l hl
    obtain ⟨g1, g2, g3, _, _, g6, _⟩ := getNextChar_cons l.scan c r hI hp
    obtain ⟨k1, k2, k3, k4⟩ := getNextChar_line T l.scan c r hI hL hp
    have hno : (getNextChar l.scan).2.lineno = l.scan.lineno := by
      have := hL.2.2
      rw [lineOf_inside _ hin, hp] at this
      omega
    rw [g1, g6] at b1 b3
    simp only [getTokenLoop, hl, if_false]
    rcases stepS_inToken l.state l.scan.tokenString c hst with ⟨s1, s2, s3⟩ | ⟨s1, s2⟩
    · rw [s2] at b3
      simp only [Bool.false_eq_true, if_false] at b3
      rw [s1] at b1
      have hsc : (loopBody l).scan.lineno = l.scan.lineno := by rw [b3]; exact hno
      have := ih (loopBody l) (by rw [b1]; exact hst) (by rw [b3]; exact g2)
        (by rw [b3]; exact k1) (by rw [b3]; exact k3 s3)
        (by
          have : (loopBody l).scan.pending = r := by rw [b3]; exact g3
          rw [this]; rw [hp] at hf; simp only [List.length_cons] at hf; omega)
      rw [hsc] at this
      exact this
    · rw [s1] at b1
      rw [getTokenLoop_DONE _ _ b1, b3]
      rcases s2 with s2 | ⟨s2, s3⟩
      · rw [s2, if_pos rfl, k4 hin]
        exact ⟨rfl, hL⟩
      · rw [s2]
        simp only [Bool.false_eq_true, if_false]
        exact ⟨hno, k1⟩

theorem stepS_START_cases (acc : List Char) (c : Char) (r : List Char) :
    ((stepS START acc (some c)).state = START ∧ (stepS START acc (some c)).unget = false ∧
      layout false (c :: r) = layout false r + 1) ∨
    ((stepS START acc (some c)).state = INCOMMENT ∧ (stepS START acc (some c)).unget = false ∧
      layout false (c :: r) = layout true r + 1) ∨
    (((stepS START acc (some c)).state = INNUM ∨ (stepS START acc (some c)).state = INID ∨
        (stepS START acc (some c)).state = INASSIGN ∨ (stepS START acc (some c)).state = DONE) ∧
      (stepS START acc (some c)).unget = false ∧ layout false (c :: r) = 0 ∧ c ≠ '\n') := by
  by_cases hw : c = ' ' ∨ c = '\t' ∨ c = '\n'
  · left
    have hd : c.isDigit = false := by rcases hw with rfl | rfl | rfl <;> decide
    have ha : c.isAlpha = false := by rcases hw with rfl | rfl | rfl <;> decide
    have hc : c ≠ ':' := by rcases hw with rfl | rfl | rfl <;> decide
    simp [stepS, isdigit, isalpha, hd, ha, hc, hw, layout]
  · by_cases hb : c = '{'
    · right; left
      subst hb
      simp [stepS, isdigit, isalpha, layout]
    · right; right
      have hn : c ≠ '\n' := fun h => hw (Or.inr (Or.inr h))
      refine ⟨?_, ?_, by simp [layout, hw, hb], hn⟩
      · simp only [stepS]
        split_ifs <;> simp_all
      · simp only [stepS]
        split_ifs <;> simp_all

theorem stepS_INCOMMENT_cases (acc : List Char) (c : Char) (r : List Char) :
    ((stepS INCOMMENT acc (some c)).state = START ∧
      (stepS INCOMMENT acc (some c)).unget = false ∧
      layout true (c :: r) = layout false r + 1) ∨
    ((stepS INCOMMENT acc (some c)).state = INCOMMENT ∧
      (stepS INCOMMENT acc (some c)).unget = false ∧
      layout true (c :: r) = layout true r + 1) := by
  by_cases h : c = '}'
  · left; simp [stepS, layout, h]
  · right; simp [stepS, layout, h]

/-- The loop of `getToken` on a text whose lines fit into `lineBuf`: when a token other
than `ENDFILE` is returned, `lineno` is the line of the first character after the white
space and comments in front of the token. -/
theorem getTokenLoop_start (T : Nat) (fuel : Nat) : ∀ (l : LoopState) (inC : Bool),
    l.state = (if inC = true then INCOMMENT else START) → l.scan.Inv → l.scan.LineInv T →
    l.scan.pending.length + 1 ≤ fuel → (getTokenLoop fuel l).currentToken ≠ ENDFILE →
    (getTokenLoop fuel l).scan.lineno +
      (l.scan.pending.drop (layout inC l.scan.pending)).count '\n' = T + 1 ∧
    (getTokenLoop fuel l).scan.LineInv T := by
  induction fuel with
  | zero => intro l _ _ _ _ h; omega
  | succ n ih =>
    intro l inC hst hI hL hf htok
    have hst' : l.state = START ∨ l.state = INCOMMENT := by
      cases inC
      · left; simpa using hst
      · right; simpa using hst
    have hl : l.state ≠ DONE := by rcases hst' with h | h <;> rw [h] <;> decide
    obtain ⟨b1, b2, b3⟩ := loopBody_stepS l hl
    simp only [getTokenLoop, hl, if_false] at htok ⊢
    cases hp : l.scan.pending with
    | nil =>
      exfalso
      obtain ⟨g1, _, _, _, g5⟩ := getNextChar_nil l.scan hI hp
      rw [g1, g5] at b1 b2
      have hd := stepS_none_DONE l.state l.scan.tokenString
      rw [hd] at b1
      rw [getTokenLoop_DONE _ _ b1, b2 hd] at htok
      exact htok (stepS_none_token _ _ hst')
    | cons c r =>
      obtain ⟨g1, g2, g3, _, _, g6, _⟩ := getNextChar_cons l.scan c r hI hp
      obtain ⟨k1, k2, k3, _⟩ := getNextChar_line T l.scan c r hI hL hp
      rw [g1, g6] at b1 b3
      have hlen : r.length + 1 ≤ n := by
        rw [hp] at hf; simp only [List.length_cons] at hf; omega
      have key : ∀ (inC' : Bool),
          (stepS l.state l.scan.tokenString (some c)).state =
            (if inC' = true then INCOMMENT else START) →
          (stepS l.state l.scan.tokenString (some c)).unget = false →
          layout inC (c :: r) = layout inC' r + 1 →
          (getTokenLoop n (loopBody l)).scan.lineno +
            ((c :: r).drop (layout inC (c :: r))).count '\n' = T + 1 ∧
          (getTokenLoop n (loopBody l)).scan.LineInv T := by
        intro inC' s1 s2 s3
        rw [s2] at b3
        simp only [Bool.false_eq_true, if_false] at b3
        have hpend : (loopBody l).scan.pending = r := by rw [b3]; exact g3
        have := ih (loopBody l) inC' (by rw [b1]; exact s1) (by rw [b3]; exact g2)
          (by rw [b3]; exact k1) (by rw [hpend]; exact hlen) htok
        rw [hpend] at this
        rw [s3, List.drop_succ_cons]
        exact this
      cases inC with
      | false =>
        have hs : l.state = START := by simpa using hst
        rw [hs] at b1 b3 key
        rcases stepS_START_cases l.scan.tokenString c r with
          ⟨s1, s2, s3⟩ | ⟨s1, s2, s3⟩ | ⟨s1, s2, s3, s4⟩
        · exact key false (by simpa using s1) s2 s3
        · exact key true (by simpa using s1) s2 s3
        · rw [s2] at b3
          simp only [Bool.false_eq_true, if_false] at b3
          rw [s3, List.drop_zero]
          have hno : (loopBody l).scan.lineno = (getNextChar l.scan).2.lineno := by rw [b3]
          rcases s1 with s1 | s1 | s1 | s1
          · have := getTokenLoop_inToken T n (loopBody l) (Or.inl (by rw [b1]; exact s1))
              (by rw [b3]; exact g2) (by rw [b3]; exact k1) (by rw [b3]; exact k3 s4)
              (by rw [b3]; show (getNextChar l.scan).2.pending.length + 1 ≤ n
                  rw [g3]; exact hlen)
            rw [this.1, hno]
            exact ⟨k2, this.2⟩
          · have := getTokenLoop_inToken T n (loopBody l) (Or.inr (Or.inl (by rw [b1]; exact s1)))
              (by rw [b3]; exact g2) (by rw [b3]; exact k1) (by rw [b3]; exact k3 s4)
              (by rw [b3]; show (getNextChar l.scan).2.pending.length + 1 ≤ n
                  rw [g3]; exact hlen)
            rw [this.1, hno]
            exact ⟨k2, this.2⟩
          · have := getTokenLoop_inToken T n (loopBody l) (Or.inr (Or.inr (by rw [b1]; exact s1)))
              (by rw [b3]; exact g2) (by rw [b3]; exact k1) (by rw [b3]; exact k3 s4)
              (by rw [b3]; show (getNextChar l.scan).2.pending.length + 1 ≤ n
                  rw [g3]; exact hlen)
            rw [this.1, hno]
            exact ⟨k2, this.2⟩
          · rw [s1] at b1
            rw [getTokenLoop_DONE _ _ b1, hno]
            exact ⟨k2, by rw [b3]; exact k1⟩
      | true =>
        have hs : l.state = INCOMMENT := by simpa using hst
        rw [hs] at b1 b3 key
        rcases stepS_INCOMMENT_cases l.scan.tokenString c r with ⟨s1, s2, s3⟩ | ⟨s1, s2, s3⟩
        · exact key false (by simpa using s1) s2 s3
        · exact key true (by simpa using s1) s2 s3

/-- On a text whose lines fit into `lineBuf`, a token other than `ENDFILE` is returned
with `lineno` the line of its first character. -/
theorem getToken_line (T : Nat) (s : ScanState) (hI : s.Inv) (hL : s.LineInv T)
    (htok : (getToken s).1 ≠ ENDFILE) :
    (getToken s).2.lineno + (s.pending.drop (layout false s.pending)).count '\n' = T + 1 ∧
    (getToken s).2.LineInv T :=
  getTokenLoop_start T (s.remaining + 1)
    { state := START, currentToken := ERROR, save := true, scan := { s with tokenString := [] } }
    false rfl hI hL (by rw [pending_tokenString, pending_remaining s hI]) htok

/-! ## The lexeme and the first character of a token -/

theorem lexS_suffix (cs : List Char) : ∀ (st : StateType) (acc : List Char),
    (lexS st acc cs).2.2 <:+ cs := by
  induction cs with
  | nil => intro st acc; rw [lexS_nil]
  | cons c cs ih =>
    intro st acc
    rw [lexS_cons]
    split_ifs
    · exact List.suffix_refl _
    · exact List.suffix_cons _ _
    · exact (ih _ _).trans (List.suffix_cons _ _)

theorem pushChar_cases (acc : List Char) (c : Char) :
    (acc.length ≤ MAXTOKENLEN ∧ pushChar acc c = acc ++ [c]) ∨
    (MAXTOKENLEN < acc.length ∧ pushChar acc c = acc) := by
  unfold pushChar
  by_cases h : acc.length ≤ MAXTOKENLEN
  · left; exact ⟨h, if_pos h⟩
  · right; exact ⟨by omega, if_neg h⟩

theorem stepS_inToken_lexeme (st : StateType) (acc : List Char) (c : Option Char)
    (hst : st = INNUM ∨ st = INID ∨ st = INASSIGN) :
    ((stepS st acc c).state = DONE ∧ (stepS st acc c).lexeme = acc) ∨
    ∃ ch, c = some ch ∧ (stepS st acc c).lexeme = pushChar acc ch ∧
      ((stepS st acc c).state = st ∨ (stepS st acc c).state = DONE) := by
  rcases hst with rfl | rfl | rfl
  · cases c with
    | none => left; simp [stepS, isdigit]
    | some ch =>
      by_cases h : ch.isDigit = true
      · right; exact ⟨ch, rfl, by simp [stepS, isdigit, h, toChar]⟩
      · left; simp [stepS, isdigit, h]
  · cases c with
    | none => left; simp [stepS, isalpha]
    | some ch =>
      by_cases h : ch.isAlpha = true
      · right; exact ⟨ch, rfl, by simp [stepS, isalpha, h, toChar]⟩
      · left; simp [stepS, isalpha, h]
  · cases c with
    | none => left; simp [stepS]
    | some ch =>
      by_cases h : ch = '='
      · right; exact ⟨ch, rfl, by simp [stepS, h, toChar]⟩
      · left; simp [stepS, h]

/-- The lexeme of a token in progress: the characters stored so far followed by
characters of the stream, and nothing more once `MAXTOKENLEN + 1` are stored. -/
theorem lexS_inToken_lexeme (cs : List Char) : ∀ (st : StateType) (acc : List Char),
    (st = INNUM ∨ st = INID ∨ st = INASSIGN) →
    acc <+: (lexS st acc cs).2.1 ∧ (lexS st acc cs).2.1 <+: acc ++ cs ∧
    (MAXTOKENLEN < acc.length → (lexS st acc cs).2.1 = acc) := by
  induction cs with
  | nil =>
    intro st acc hst
    rw [lexS_nil]
    show acc <+: (stepS st acc none).lexeme ∧ (stepS st acc none).lexeme <+: acc ++ [] ∧
      (MAXTOKENLEN < acc.length → (stepS st acc none).lexeme = acc)
    rcases stepS_inToken_lexeme st acc none hst with ⟨_, h⟩ | ⟨ch, h, _⟩
    · rw [h, List.append_nil]
      exact ⟨List.prefix_refl _, List.prefix_refl _, fun _ => rfl⟩
    · simp at h
  | cons c cs ih =>
    intro st acc hst
    rw [lexS_cons]
    have hpc := pushChar_cases acc c
    have hdone : ∀ lex, (lex = acc ∨ lex = pushChar acc c) →
        acc <+: lex ∧ lex <+: acc ++ c :: cs ∧ (MAXTOKENLEN < acc.length → lex = acc) := by
      intro lex hlex
      rcases hlex with rfl | rfl
      · exact ⟨List.prefix_refl _, List.prefix_append _ _, fun _ => rfl⟩
      · rcases hpc with ⟨hl, e⟩ | ⟨hl, e⟩
        · rw [e]
          refine ⟨List.prefix_append _ _, ?_, fun h => by exfalso; omega⟩
          rw [show acc ++ c :: cs = (acc ++ [c]) ++ cs by simp]
          exact List.prefix_append _ _
        · rw [e]
          exact ⟨List.prefix_refl _, List.prefix_append _ _, fun _ => rfl⟩
    by_cases hd : (stepS st acc (some c)).state = DONE
    · rw [if_pos hd]
      show acc <+: (stepS st acc (some c)).lexeme ∧ _
      apply hdone
      rcases stepS_inToken_lexeme st acc (some c) hst with ⟨_, h⟩ | ⟨ch, hch, h, _⟩
      · exact Or.inl h
      · obtain rfl := Option.some.inj hch
        exact Or.inr h
    · rw [if_neg hd]
      rcases stepS_inToken_lexeme st acc (some c) hst with ⟨h, _⟩ | ⟨ch, hch, h, hs⟩
      · exact absurd h hd
      · obtain rfl := Option.some.inj hch
        have hs' : (stepS st acc (some c)).state = st := by
          rcases hs with hs | hs
          · exact hs
          · exact absurd hs hd
        rw [hs', h]
        obtain ⟨i1, i2, i3⟩ := ih st (pushChar acc c) hst
        rcases hpc with ⟨hl, e⟩ | ⟨hl, e⟩
        · rw [e] at i1 i2 ⊢
          exact ⟨(List.prefix_append _ _).trans i1, by simpa using i2,
            fun h => by exfalso; omega⟩
        · rw [e] at i1 i2 i3 ⊢
          rw [i3 hl]
          exact ⟨List.prefix_refl _, List.prefix_append _ _, fun _ => rfl⟩

theorem stepS_START_lexeme (acc : List Char) (c : Char) (r : List Char) :
    ((stepS START acc (some c)).state = START ∧ (stepS START acc (some c)).lexeme = acc ∧
      layout false (c :: r) = layout false r + 1) ∨
    ((stepS START acc (some c)).state = INCOMMENT ∧ (stepS START acc (some c)).lexeme = acc ∧
      layout false (c :: r) = layout true r + 1) ∨
    (((stepS START acc (some c)).state = INNUM ∨ (stepS START acc (some c)).state = INID ∨
        (stepS START acc (some c)).state = INASSIGN ∨ (stepS START acc (some c)).state = DONE) ∧
      (stepS START acc (some c)).lexeme = pushChar acc c ∧ layout false (c :: r) = 0) := by
  by_cases hw : c = ' ' ∨ c = '\t' ∨ c = '\n'
  · left
    have hd : c.isDigit = false := by rcases hw with rfl | rfl | rfl <;> decide
    have ha : c.isAlpha = false := by rcases hw with rfl | rfl | rfl <;> decide
    have hc : c ≠ ':' := by rcases hw with rfl | rfl | rfl <;> decide
    simp [stepS, isdigit, isalpha, hd, ha, hc, hw, layout]
  · by_cases hb : c = '{'
    · right; left
      subst hb
      simp [stepS, isdigit, isalpha, layout]
    · right; right
      refine ⟨?_, ?_, by simp [layout, hw, hb]⟩
      · simp only [stepS]
        split_ifs <;> simp_all
      · have hsave : (startToken (some c)).2 = true := by
          simp only [startToken]; split_ifs <;> rfl
        by_cases hd : c.isDigit = true
        · simp [stepS, isdigit, hd, toChar]
        · by_cases ha : c.isAlpha = true
          · simp [stepS, isdigit, isalpha, hd, ha, toChar]
          · by_cases hc : c = ':'
            · simp [stepS, isdigit, isalpha, hd, ha, hc, toChar]
            · simp [stepS, isdigit, isalpha, hd, ha, hc, hw, hb, hsave, toChar]

/-- The lexeme `lexS` returns for the next token lies in the stream right after the
white space and comments in front of it, and is not empty unless the token is
`ENDFILE`. -/
theorem lexS_start_lexeme (cs : List Char) : ∀ inC : Bool,
    (lexS (if inC = true then INCOMMENT else START) [] cs).2.1 <+: cs.drop (layout inC cs) ∧
    ((lexS (if inC = true then INCOMMENT else START) [] cs).1 ≠ ENDFILE →
      (lexS (if inC = true then INCOMMENT else START) [] cs).2.1 ≠ []) := by
  induction cs with
  | nil =>
    intro inC
    rw [lexS_nil]
    cases inC <;> simp [stepS, isdigit, isalpha, startToken]
  | cons c cs ih =>
    intro inC
    rw [lexS_cons]
    cases inC with
    | false =>
      simp only [Bool.false_eq_true, if_false]
      rcases stepS_START_lexeme [] c cs with ⟨s1, s2, s3⟩ | ⟨s1, s2, s3⟩ | ⟨s1, s2, s3⟩
      · rw [s1, s2, s3, if_neg (by decide), List.drop_succ_cons]
        exact ih false
      · rw [s1, s2, s3, if_neg (by decide), List.drop_succ_cons]
        exact ih true
      · have hpc : pushChar [] c = [c] := by simp [pushChar, MAXTOKENLEN]
        rw [s2, s3, hpc, List.drop_zero]
        by_cases hd : (stepS START [] (some c)).state = DONE
        · rw [if_pos hd]
          exact ⟨by simp, fun _ => by simp⟩
        · rw [if_neg hd]
          have hst : (stepS START [] (some c)).state = INNUM ∨
              (stepS START [] (some c)).state = INID ∨
              (stepS START [] (some c)).state = INASSIGN := by
            rcases s1 with h | h | h | h
            · exact Or.inl h
            · exact Or.inr (Or.inl h)
            · exact Or.inr (Or.inr h)
            · exact absurd h hd
          obtain ⟨i1, i2, _⟩ := lexS_inToken_lexeme cs _ [c] hst
          refine ⟨by simpa using i2, fun _ h => ?_⟩
          rw [h] at i1
          simp at i1
    | true =>
      simp only [if_true]
      rcases stepS_INCOMMENT_cases [] c cs with ⟨s1, _, s3⟩ | ⟨s1, _, s3⟩
      · have s2 : (stepS INCOMMENT [] (some c)).lexeme = [] := by
          simp only [stepS]; split_ifs <;> rfl
        rw [s1, s2, s3, if_neg (by decide), List.drop_succ_cons]
        exact ih false
      · have s2 : (stepS INCOMMENT [] (some c)).lexeme = [] := by
          simp only [stepS]; split_ifs <;> rfl
        rw [s1, s2, s3, if_neg (by decide), List.drop_succ_cons]
        exact ih true

theorem lineInv_init (src : List Char) (h : fitsLines 0 src = true) :
    (ScanState.init src).LineInv (src.count '\n') := by
  refine ⟨h, fun hlt => ?_, ?_⟩
  · simp [ScanState.init] at hlt
  · simp [ScanState.lineOf, ScanState.init, ScanState.pending]
    omega

/-- The line numbers of the tokens of the rest of a text whose lines fit into
`lineBuf`. -/
theorem scanRest_lines (src : List Char) (n : Nat) :
    ∀ (s : ScanState) (pre : List Char) (fuel : Nat), s.Inv → s.LineInv (src.count '\n') →
    src = pre ++ s.pending → s.remaining ≤ n → s.pending.length + 1 ≤ fuel →
    List.Forall₂ (fun tk p => tk.line = lineAt src p ∧ tk.str ≠ [] ∧ tk.str <+: src.drop p)
      (scanRest s) (offsetsS fuel pre.length s.pending) := by
  induction n with
  | zero =>
    intro s pre fuel hI hL hsrc hn hf
    have hp : s.pending = [] := by
      have := pending_remaining s hI
      exact List.length_eq_zero.mp (by omega)
    obtain ⟨g1, _⟩ := getToken_lexS s hI
    rw [scanRest_unfold, g1, hp, lexS_nil]
    cases fuel with
    | zero => omega
    | succ fuel =>
      simp [offsetsS, lexS_nil, stepS, isdigit, isalpha, startToken]
  | succ n ih =>
    intro s pre fuel hI hL hsrc hn hf
    obtain ⟨g1, g2, g3, g4⟩ := getToken_lexS s hI
    cases fuel with
    | zero => omega
    | succ fuel =>
      rw [scanRest_unfold]
      simp only [offsetsS]
      by_cases htok : (getToken s).1 = ENDFILE
      · rw [if_pos htok, if_pos (g1 ▸ htok)]
        exact List.Forall₂.nil
      · rw [if_neg htok, if_neg (g1 ▸ htok)]
        obtain ⟨k1, k2⟩ := getToken_line _ s hI hL htok
        obtain ⟨p1, p2⟩ := lexS_start_lexeme s.pending false
        simp only [Bool.false_eq_true, if_false] at p1 p2
        obtain ⟨u, hu⟩ := lexS_suffix s.pending START []
        rw [← g3] at hu
        have hlen := (lexS_length s.pending START []).2 (Or.inl rfl) (g1 ▸ htok)
        rw [← g3] at hlen ⊢
        have hdrop : src.drop (pre.length + layout false s.pending) =
            s.pending.drop (layout false s.pending) := by
          rw [hsrc, List.drop_append]
        refine List.Forall₂.cons ⟨?_, ?_, ?_⟩ ?_
        · show (getToken s).2.lineno = _
          have h1 := List.take_append_drop (pre.length + layout false s.pending) src
          have h2 := congrArg (List.count '\n') h1
          rw [List.count_append, hdrop] at h2
          unfold lineAt
          omega
        · rw [g2]; exact p2 (g1 ▸ htok)
        · rw [g2, hdrop]; exact p1
        · have hpre : pre.length + (s.pending.length - (getToken s).2.pending.length) =
              (pre ++ u).length := by
            have := congrArg List.length hu
            simp only [List.length_append] at this ⊢
            omega
          rw [hpre]
          exact ih (getToken s).2 (pre ++ u) fuel g4 k2
            (by rw [hsrc, ← hu, List.append_assoc])
            (by have := getToken_remaining_lt s htok; omega)
            (by omega)

set_option maxRecDepth 100000 in
/-- C16 fails as stated. In the text `x` without a newline the token `x` lies on line 1,
but `getToken` returns it with `lineno = 2`: the lookahead after `x` meets the end of the
file and `getNextChar` counts a line for it. In the text of 253 blanks, `x` and a newline
the token `x` lies on line 1 as well, but the line does not fit into `lineBuf`: `fgets`
delivers it in two parts, `getNextChar` counts two lines, and `x` is returned with
`lineno = 2`. -/
theorem token_line_counterexample :
    (scanAll "x".toList = [{ kind := ID, str := ['x'], line := 2 }] ∧
      tokenOffsets "x".toList = [0] ∧ lineAt "x".toList 0 = 1) ∧
    (scanAll (List.replicate 253 ' ' ++ "x\n".toList) =
        [{ kind := ID, str := ['x'], line := 2 }] ∧
      tokenOffsets (List.replicate 253 ' ' ++ "x\n".toList) = [253] ∧
      lineAt (List.replicate 253 ' ' ++ "x\n".toList) 253 = 1) := by
  refine ⟨⟨?_, ?_, ?_⟩, ⟨?_, ?_, ?_⟩⟩ <;> decide

/-- C16, amended. In a text (ASCII, no NUL) in which every line ends with a newline and
has at most `BUFLEN - 3 = 253` characters before it, every token other than `ENDFILE`
is returned with `lineno` the 1-based number of the line on which its first character
lies, one more than the number of newline characters before that character; the lexeme
is not empty and lies in the text from that character on. -/
theorem token_line_number (src : List Char) (htext : IsText src)
    (hlines : fitsLines 0 src = true) :
    List.Forall₂ (fun tk p => tk.line = lineAt src p ∧ tk.str ≠ [] ∧ tk.str <+: src.drop p)
      (scanAll src) (tokenOffsets src) :=
  scanRest_lines src src.length (ScanState.init src) [] (src.length + 1) (inv_init src htext)
    (lineInv_init src hlines) rfl
    (by simp [ScanState.remaining, ScanState.init])
    (by simp [ScanState.pending, ScanState.init])

theorem token_line_number_witness :
    IsText "x := 1;\n\x7b c\n \x7d\nyy := x\n".toList ∧
    fitsLines 0 "x := 1;\n\x7b c\n \x7d\nyy := x\n".toList = true ∧
    List.Forall₂
      (fun tk p => tk.line = lineAt "x := 1;\n\x7b c\n \x7d\nyy := x\n".toList p ∧ tk.str ≠ [] ∧
        tk.str <+: "x := 1;\n\x7b c\n \x7d\nyy := x\n".toList.drop p)
      (scanAll "x := 1;\n\x7b c\n \x7d\nyy := x\n".toList)
      (tokenOffsets "x := 1;\n\x7b c\n \x7d\nyy := x\n".toList) :=
  ⟨by unfold IsText; decide, by decide,
   token_line_number "x := 1;\n\x7b c\n \x7d\nyy := x\n".toList (by unfold IsText; decide)
     (by decide)⟩

theorem lines_of_tokens_example :
    (scanAll "x := 1;\n\x7b c\n \x7d\nyy := x\n".toList).map Token.line = [1, 1, 1, 1, 4, 4, 4] ∧
    tokenOffsets "x := 1;\n\x7b c\n \x7d\nyy := x\n".toList = [0, 2, 5, 6, 15, 18, 21] := by
  constructor <;> decide

/-! ## The two condition checks -/

theorem typed_type (t : TreeNode) (h : t.isExp = true) : (typed t).type = specType t := by
  cases t with
  | null => simp [TreeNode.isExp] at h
  | node i c0 c1 c2 sib =>
    obtain ⟨kind, attr, lineno, type⟩ := i
    rcases kind with k | k
    · simp [TreeNode.isExp] at h
    · cases k <;> simp only [typed, type_node, typedInfo, specType]

theorem checkNodeNotBoolean_info (i : NodeInfo) (c0 c1 c2 sib : TreeNode) (a : AnalyzeState) :
    (checkNodeNotBoolean (.node i c0 c1 c2 sib) a).1 = typedInfo i := by
  have h := checkNode_info i c0 c1 c2 sib a
  obtain ⟨kind, attr, lineno, type⟩ := i
  rcases kind with k | k <;> cases k <;>
    exact h

theorem typeCheckNotBoolean_typed (t : TreeNode) : ∀ a : AnalyzeState,
    (typeCheckNotBoolean t a).1 = typed t := by
  unfold typeCheckNotBoolean
  induction t with
  | null => intro a; rfl
  | node i c0 c1 c2 sib ih0 ih1 ih2 ihs =>
    intro a
    rw [traverse_node]
    simp only [ih0, ih1, ih2, ihs, checkNodeNotBoolean_info, typed, nullProc, info_node]

/-- At a node whose test is an expression the two checks do the same. -/
theorem checkNodeNotBoolean_eq (i : NodeInfo) (c0 c1 c2 sib : TreeNode) (a : AnalyzeState)
    (h : NodeOK i c0 c1) :
    checkNodeNotBoolean (.node i (typed c0) (typed c1) c2 sib) a =
      checkNode (.node i (typed c0) (typed c1) c2 sib) a := by
  obtain ⟨kind, attr, lineno, type⟩ := i
  rcases kind with k | k <;> cases k <;> try rfl
  · -- IfK
    simp only [NodeOK] at h
    have ht := typed_type c0 h
    rcases specType_isExp c0 h with hs | hs <;>
      simp [checkNodeNotBoolean, checkNode, info_node, child0_node, ht, hs]
  · -- RepeatK
    simp only [NodeOK] at h
    have ht := typed_type c1 h
    rcases specType_isExp c1 h with hs | hs <;>
      simp [checkNodeNotBoolean, checkNode, info_node, child1_node, ht, hs]

theorem typeCheckNotBoolean_eq (t : TreeNode) : ∀ a : AnalyzeState, WellFormed t →
    typeCheckNotBoolean t a = typeCheck t a := by
  induction t with
  | null => intro a _; rfl
  | node i c0 c1 c2 sib ih0 ih1 ih2 ihs =>
    intro a hw
    obtain ⟨w0, w1, w2, ws, hok⟩ := (wellFormed_node i c0 c1 c2 sib).mp hw
    have e0 := ih0 a w0
    have e1 := ih1 (typeCheck c0 a).2 w1
    have e2 := ih2 (typeCheck c1 (typeCheck c0 a).2).2 w2
    unfold typeCheckNotBoolean typeCheck at *
    rw [traverse_node, traverse_node]
    simp only [nullProc, info_node]
    rw [e0, e1, e2]
    have t0 := typeCheck_typed c0 a
    have t1 := typeCheck_typed c1 (typeCheck c0 a).2
    unfold typeCheck at t0 t1
    rw [t0, t1, checkNodeNotBoolean_eq _ _ _ _ _ _ hok]
    have es := ihs (checkNode (.node i (typed c0) (typed c1)
      (traverse nullProc checkNode c2 (traverse nullProc checkNode c1
        (traverse nullProc checkNode c0 a).2).2).1 sib)
      (traverse nullProc checkNode c2 (traverse nullProc checkNode c1
        (traverse nullProc checkNode c0 a).2).2).2).2 ws
    rw [es]

theorem wellFormed_postorder (t : TreeNode) : WellFormed t → ∀ s ∈ postorder t, WellFormed s := by
  induction t with
  | null => intro _ s hs; simp [postorder] at hs
  | node i c0 c1 c2 sib ih0 ih1 ih2 ihs =>
    intro hw s hs
    obtain ⟨w0, w1, w2, ws, _⟩ := (wellFormed_node i c0 c1 c2 sib).mp hw
    simp only [postorder, List.mem_append, List.mem_singleton] at hs
    rcases hs with (((hs | hs) | hs) | hs) | hs
    · exact ih0 w0 s hs
    · exact ih1 w1 s hs
    · exact ih2 w2 s hs
    · rw [hs]; exact hw
    · exact ihs ws s hs

theorem nodeOK_of_mem_postorder (t : TreeNode) (hw : WellFormed t) (s : TreeNode)
    (hs : s ∈ postorder t) :
    ∃ i c0 c1 c2 sib, s = .node i c0 c1 c2 sib ∧ NodeOK i c0 c1 := by
  obtain ⟨i, c0, c1, c2, sib, rfl⟩ := mem_postorder_node s t hs
  exact ⟨i, c0, c1, c2, sib, rfl,
    ((wellFormed_node i c0 c1 c2 sib).mp (wellFormed_postorder t hw _ hs)).2.2.2.2⟩

/-- C21. Equivalence of the two condition checks: on the tree of an error-free parse the
type checker as written (the test of an If or Repeat is an error when its type is
Integer) and the variant that tests for a type other than Boolean return the same tree
and the same globals, so the same diagnostics, error flag and types, also after
`buildSymtab`; and when an If or Repeat node is checked its test has type Integer or
Boolean, never the unresolved type. -/
theorem condition_checks_equivalent (fuel : Nat) (src : List Char) (t : TreeNode)
    (st' : ParseState) (h : parseSource fuel src = some (t, st')) (herr : st'.Error = false)
    (a : AnalyzeState) :
    typeCheckNotBoolean t a = typeCheck t a ∧
    typeCheckNotBoolean (buildSymtab t a).1 (buildSymtab t a).2 =
      typeCheck (buildSymtab t a).1 (buildSymtab t a).2 ∧
    ∀ s ∈ postorder (typeCheck t a).1,
      (s.info.kind = .StmtK IfK → s.child0.type = Integer ∨ s.child0.type = Boolean) ∧
      (s.info.kind = .StmtK RepeatK → s.child1.type = Integer ∨ s.child1.type = Boolean) := by
  have hw := parse_wellFormed fuel src t st' h herr
  refine ⟨typeCheckNotBoolean_eq t a hw, ?_, ?_⟩
  · rw [buildSymtab_eq]
    exact typeCheckNotBoolean_eq t _ hw
  · rw [typeCheck_typed, postorder_typed]
    intro s hs
    obtain ⟨s', hs', rfl⟩ := List.mem_map.mp hs
    obtain ⟨i, c0, c1, c2, sib, rfl, hok⟩ := nodeOK_of_mem_postorder t hw s' hs'
    simp only [typed, info_node, child0_node, child1_node]
    constructor
    · intro hk
      have hk' : i.kind = .StmtK IfK := by
        unfold typedInfo at hk; split at hk <;> simp_all
      simp only [NodeOK, hk'] at hok
      rw [typed_type c0 hok]
      exact specType_isExp c0 hok
    · intro hk
      have hk' : i.kind = .StmtK RepeatK := by
        unfold typedInfo at hk; split at hk <;> simp_all
      simp only [NodeOK, hk'] at hok
      rw [typed_type c1 hok]
      exact specType_isExp c1 hok

theorem condition_checks_equivalent_witness :
    parseSource 40 "if 1 then write 2 end".toList =
      some (ifNode ⟨IF, "if".toList, 1⟩ (constNode ⟨NUM, ['1'], 1⟩)
          (writeNode ⟨WRITE, "write".toList, 1⟩ (constNode ⟨NUM, ['2'], 1⟩)) .null,
        nextToken^[7] (ParseState.init "if 1 then write 2 end".toList)) ∧
    typeCheckNotBoolean (ifNode ⟨IF, "if".toList, 1⟩ (constNode ⟨NUM, ['1'], 1⟩)
          (writeNode ⟨WRITE, "write".toList, 1⟩ (constNode ⟨NUM, ['2'], 1⟩)) .null)
        (AnalyzeState.init (nextToken^[7] (ParseState.init "if 1 then write 2 end".toList))) =
      typeCheck (ifNode ⟨IF, "if".toList, 1⟩ (constNode ⟨NUM, ['1'], 1⟩)
          (writeNode ⟨WRITE, "write".toList, 1⟩ (constNode ⟨NUM, ['2'], 1⟩)) .null)
        (AnalyzeState.init (nextToken^[7] (ParseState.init "if 1 then write 2 end".toList))) :=
  ⟨by decide,
   (condition_checks_equivalent 40 "if 1 then write 2 end".toList _
      (nextToken^[7] (ParseState.init "if 1 then write 2 end".toList))
      (by decide) (by decide)
      (AnalyzeState.init (nextToken^[7] (ParseState.init "if 1 then write 2 end".toList)))).1⟩

/-! ## The nodes the analyzer dereferences -/

theorem setLastSibling_ne_null (acc q : TreeNode) (h : acc ≠ .null) :
    acc.setLastSibling q ≠ .null := by
  cases acc with
  | null => exact absurd rfl h
  | node i c0 c1 c2 sib => simp [TreeNode.setLastSibling]

theorem derives_ne_null (nt : NT) (w : List Token) (t : TreeNode) (h : Derives nt w t) :
    (∀ acc, nt = .seqRest acc → acc ≠ .null → t ≠ .null) ∧
    (nt = .statement → t ≠ .null) ∧ (nt = .stmt_sequence → t ≠ .null) := by
  induction h with
  | seq w0 w1 s t _ _ ih1 ih2 =>
    exact ⟨fun _ h => (by cases h), fun h => (by cases h),
      fun _ => ih2.1 s rfl (ih1.2.1 rfl)⟩
  | seqNil acc =>
    refine ⟨fun acc' h hne => ?_, fun h => (by cases h), fun h => (by cases h)⟩
    cases h; exact hne
  | seqCons acc semi w w1 q t _ _ _ _ ih2 =>
    refine ⟨fun acc' h hne => ?_, fun h => (by cases h), fun h => (by cases h)⟩
    cases h
    exact ih2.1 _ rfl (setLastSibling_ne_null _ _ hne)
  | ifThen => exact ⟨fun _ h => (by cases h), fun _ => (by simp [ifNode]), fun h => (by cases h)⟩
  | ifElse => exact ⟨fun _ h => (by cases h), fun _ => (by simp [ifNode]), fun h => (by cases h)⟩
  | repeatUntil =>
    exact ⟨fun _ h => (by cases h), fun _ => (by simp [repeatNode]), fun h => (by cases h)⟩
  | assign => exact ⟨fun _ h => (by cases h), fun _ => (by simp [assignNode]), fun h => (by cases h)⟩
  | read => exact ⟨fun _ h => (by cases h), fun _ => (by simp [readNode]), fun h => (by cases h)⟩
  | write => exact ⟨fun _ h => (by cases h), fun _ => (by simp [writeNode]), fun h => (by cases h)⟩
  | _ => exact ⟨fun _ h => (by cases h), fun h => (by cases h), fun h => (by cases h)⟩

theorem isExp_ne_null (t : TreeNode) (h : t.isExp = true) : t ≠ .null := by
  rintro rfl
  simp [TreeNode.isExp] at h

theorem typed_eq_null (t : TreeNode) : typed t = .null ↔ t = .null := by
  cases t <;> simp [typed]

/-- C23. Analysis never dereferences an absent node: when `parse` returns with the error
flag clear, the tree is not null and at every node reachable in it (through children and
siblings) an operator node has `child[0]` and `child[1]`, an If, Assign or Write node has
`child[0]`, a Repeat node has `child[1]`, and an Assign, Read or Id node has its name
set. These are the pointers `checkNode` dereferences and the names `insertNode` reads;
`buildSymtab` leaves the tree as it is and `typeCheck` hands `checkNode` a node with a
child present wherever the tree has one. -/
theorem analysis_nodes_present (fuel : Nat) (src : List Char) (t : TreeNode) (st' : ParseState)
    (h : parseSource fuel src = some (t, st')) (herr : st'.Error = false) :
    t ≠ .null ∧
    (∀ s ∈ postorder t,
      (s.info.kind = .ExpK OpK → s.child0 ≠ .null ∧ s.child1 ≠ .null) ∧
      (s.info.kind = .StmtK IfK ∨ s.info.kind = .StmtK AssignK ∨ s.info.kind = .StmtK WriteK →
        s.child0 ≠ .null) ∧
      (s.info.kind = .StmtK RepeatK → s.child1 ≠ .null) ∧
      (s.info.kind = .StmtK AssignK ∨ s.info.kind = .StmtK ReadK ∨ s.info.kind = .ExpK IdK →
        ∃ name, s.info.attr = .name name)) ∧
    (∀ a : AnalyzeState, (buildSymtab t a).1 = t) ∧
    (∀ c : TreeNode, typed c = .null ↔ c = .null) := by
  have hd := (parse_derives fuel src t st' h herr).1
  have hw := parse_wellFormed fuel src t st' h herr
  refine ⟨(derives_ne_null _ _ _ hd).2.2 rfl, ?_, fun a => by rw [buildSymtab_eq],
    typed_eq_null⟩
  intro s hs
  obtain ⟨i, c0, c1, c2, sib, rfl, hok⟩ := nodeOK_of_mem_postorder t hw s hs
  simp only [info_node, child0_node, child1_node]
  refine ⟨?_, ?_, ?_, ?_⟩
  · intro hk
    simp only [NodeOK, hk] at hok
    exact ⟨isExp_ne_null _ hok.1, isExp_ne_null _ hok.2.1⟩
  · rintro (hk | hk | hk) <;> simp only [NodeOK, hk] at hok
    · exact isExp_ne_null _ hok
    · exact isExp_ne_null _ hok.1
    · exact isExp_ne_null _ hok
  · intro hk
    simp only [NodeOK, hk] at hok
    exact isExp_ne_null _ hok
  · rintro (hk | hk | hk) <;> simp only [NodeOK, hk] at hok
    · exact hok.2
    · exact hok
    · exact hok

theorem analysis_nodes_present_witness :
    parseSource 40 "if 1 then write 2 end".toList =
      some (ifNode ⟨IF, "if".toList, 1⟩ (constNode ⟨NUM, ['1'], 1⟩)
          (writeNode ⟨WRITE, "write".toList, 1⟩ (constNode ⟨NUM, ['2'], 1⟩)) .null,
        nextToken^[7] (ParseState.init "if 1 then write 2 end".toList)) ∧
    ifNode ⟨IF, "if".toList, 1⟩ (constNode ⟨NUM, ['1'], 1⟩)
      (writeNode ⟨WRITE, "write".toList, 1⟩ (constNode ⟨NUM, ['2'], 1⟩)) .null ≠ .null :=
  ⟨by decide,
   (analysis_nodes_present 40 "if 1 then write 2 end".toList _
      (nextToken^[7] (ParseState.init "if 1 then write 2 end".toList))
      (by decide) (by decide)).1⟩

/-! ## The high-water mark -/

/-- One admissible call: `highEmitLoc` does not decrease, stays at least `emitLoc`, and
is its old value or the new `emitLoc`. -/
theorem run_step (pc : Int) (op : EmitOp) (e : EmitState) (ha : op.Admissible e) :
    (op.run pc e).emitLoc ≤ (op.run pc e).highEmitLoc ∧
    e.highEmitLoc ≤ (op.run pc e).highEmitLoc ∧
    ((op.run pc e).highEmitLoc = e.highEmitLoc ∨
      (op.run pc e).highEmitLoc = (op.run pc e).emitLoc) := by
  cases op with
  | emit i =>
    obtain ⟨h1, h2, _⟩ := emit_spec pc i e
    show (i.emit pc e).emitLoc ≤ (i.emit pc e).highEmitLoc ∧
      e.highEmitLoc ≤ (i.emit pc e).highEmitLoc ∧
      ((i.emit pc e).highEmitLoc = e.highEmitLoc ∨
        (i.emit pc e).highEmitLoc = (i.emit pc e).emitLoc)
    rw [h1, h2]
    refine ⟨le_max_right _ _, le_max_left _ _, ?_⟩
    rcases le_total (e.emitLoc + 1) e.highEmitLoc with h | h
    · left; exact max_eq_left h
    · right; exact max_eq_right h
  | skip n =>
    simp only [EmitOp.Admissible] at ha
    simp only [EmitOp.run, emitSkip, raiseHigh_emitLoc, raiseHigh_highEmitLoc]
    refine ⟨le_max_right _ _, le_max_left _ _, ?_⟩
    rcases le_total (e.emitLoc + n) e.highEmitLoc with h | h
    · left; exact max_eq_left h
    · right; exact max_eq_right h
  | backup loc =>
    simp only [EmitOp.Admissible] at ha
    simp only [EmitOp.run]
    rw [emitBackup_ok loc e (by omega)]
    exact ⟨ha.2, le_refl _, Or.inl rfl⟩
  | restore =>
    exact ⟨le_refl _, le_refl _, Or.inl rfl⟩

theorem emitRun_nil (pc : Int) (e : EmitState) : emitRun pc [] e = e := rfl

theorem emitRun_cons (pc : Int) (op : EmitOp) (ops : List EmitOp) (e : EmitState) :
    emitRun pc (op :: ops) e = emitRun pc ops (op.run pc e) := rfl

theorem emitRun_invariant (pc : Int) (ops : List EmitOp) : ∀ e : EmitState,
    AdmissibleOps pc ops e → e.emitLoc ≤ e.highEmitLoc →
    (emitRun pc ops e).emitLoc ≤ (emitRun pc ops e).highEmitLoc ∧
    (∀ x ∈ emitTrace pc ops e,
      x.emitLoc ≤ (emitRun pc ops e).highEmitLoc ∧ e.highEmitLoc ≤ x.highEmitLoc ∧
      x.highEmitLoc ≤ (emitRun pc ops e).highEmitLoc) ∧
    ((emitRun pc ops e).highEmitLoc = e.highEmitLoc ∨
      ∃ x ∈ emitTrace pc ops e, x.emitLoc = (emitRun pc ops e).highEmitLoc) ∧
    (emitTrace pc ops e).Pairwise (fun x y => x.highEmitLoc ≤ y.highEmitLoc) ∧
    emitRun pc ops e ∈ emitTrace pc ops e := by
  induction ops with
  | nil =>
    intro e _ hle
    refine ⟨hle, ?_, Or.inl rfl, List.pairwise_singleton _ _, List.mem_singleton.mpr rfl⟩
    intro x hx
    obtain rfl := List.mem_singleton.mp hx
    exact ⟨hle, le_refl _, le_refl _⟩
  | cons op ops ih =>
    intro e hadm hle
    obtain ⟨s1, s2, s3⟩ := run_step pc op e hadm.1
    obtain ⟨i1, i2, i3, i4, i5⟩ := ih (op.run pc e) hadm.2 s1
    have hfin := (i2 _ i5).2.1
    rw [emitRun_cons]
    simp only [emitTrace, List.mem_cons, List.pairwise_cons]
    refine ⟨i1, ?_, ?_, ⟨fun x hx => le_trans s2 (i2 x hx).2.1, i4⟩, Or.inr i5⟩
    · rintro x (rfl | hx)
      · exact ⟨by omega, le_refl _, by omega⟩
      · exact ⟨(i2 x hx).1, le_trans s2 (i2 x hx).2.1, (i2 x hx).2.2⟩
    · rcases i3 with h | ⟨x, hx, h⟩
      · rcases s3 with h' | h'
        · left; rw [h, h']
        · right
          refine ⟨op.run pc e, Or.inr ?_, by rw [h, h']⟩
          cases ops <;> simp [emitTrace]
      · exact Or.inr ⟨x, Or.inr hx, h⟩

theorem mem_emitTrace_self (pc : Int) (ops : List EmitOp) (e : EmitState) :
    e ∈ emitTrace pc ops e := by
  cases ops <;> simp [emitTrace]

/-- C22. High-water-mark invariant: starting from `emitLoc = highEmitLoc = 0`, after
every sequence of calls of `emitRO`, `emitRM`, `emitRM_Abs`, `emitSkip(n)` with `n >= 0`,
`emitRestore` and `emitBackup(loc)` with `0 <= loc <= highEmitLoc`, `highEmitLoc` is the
maximum of the values `emitLoc` has held (no value held exceeds it and one of them equals
it), so `emitLoc <= highEmitLoc`; `highEmitLoc` never decreases in the course of the
sequence; and each of `emitRO`, `emitRM` and `emitRM_Abs` increases `emitLoc` by exactly
1. -/
theorem high_water_mark (pc : Int) (ops : List EmitOp) (e0 : EmitState)
    (h0 : e0.emitLoc = 0) (h1 : e0.highEmitLoc = 0) (hadm : AdmissibleOps pc ops e0) :
    (∀ x ∈ emitTrace pc ops e0, x.emitLoc ≤ (emitRun pc ops e0).highEmitLoc) ∧
    (∃ x ∈ emitTrace pc ops e0, x.emitLoc = (emitRun pc ops e0).highEmitLoc) ∧
    (emitRun pc ops e0).emitLoc ≤ (emitRun pc ops e0).highEmitLoc ∧
    (emitTrace pc ops e0).Pairwise (fun x y => x.highEmitLoc ≤ y.highEmitLoc) ∧
    (∀ (op : String) (r s t : Int) (c : String) (e : EmitState),
      (emitRO op r s t c e).emitLoc = e.emitLoc + 1) ∧
    (∀ (op : String) (r d s : Int) (c : String) (e : EmitState),
      (emitRM op r d s c e).emitLoc = e.emitLoc + 1) ∧
    (∀ (op : String) (r a : Int) (c : String) (e : EmitState),
      (emitRM_Abs pc op r a c e).emitLoc = e.emitLoc + 1) := by
  obtain ⟨i1, i2, i3, i4, _⟩ := emitRun_invariant pc ops e0 hadm (by rw [h0, h1])
  refine ⟨fun x hx => (i2 x hx).1, ?_, i1, i4,
    fun op r s t c e => (emit_spec pc (.RO op r s t c) e).1,
    fun op r d s c e => (emit_spec pc (.RM op r d s c) e).1,
    fun op r a c e => (emit_spec pc (.RM_Abs op r a c) e).1⟩
  rcases i3 with h | h
  · exact ⟨e0, mem_emitTrace_self pc ops e0, by rw [h, h0, h1]⟩
  · exact h

theorem high_water_mark_witness :
    (emitRun 7 [.skip 1, .emit (.RO "ADD" 0 1 0 ""), .backup 0, .emit (.RM_Abs "JEQ" 0 2 ""),
        .restore] ⟨0, 0, true, []⟩).emitLoc ≤
      (emitRun 7 [.skip 1, .emit (.RO "ADD" 0 1 0 ""), .backup 0, .emit (.RM_Abs "JEQ" 0 2 ""),
        .restore] ⟨0, 0, true, []⟩).highEmitLoc :=
  (high_water_mark 7 [.skip 1, .emit (.RO "ADD" 0 1 0 ""), .backup 0,
      .emit (.RM_Abs "JEQ" 0 2 ""), .restore] ⟨0, 0, true, []⟩ rfl rfl
    ⟨(by simp only [EmitOp.Admissible]; decide), trivial,
      (by simp only [EmitOp.Admissible]; decide), trivial, trivial, trivial⟩).2.2.1

theorem emit_trace_example :
    (emitTrace 7 [.skip 1, .emit (.RO "ADD" 0 1 0 ""), .backup 0, .emit (.RM_Abs "JEQ" 0 2 ""),
        .restore] ⟨0, 0, true, []⟩).map (fun e => (e.emitLoc, e.highEmitLoc)) =
      [(0, 0), (1, 1), (2, 2), (0, 2), (1, 2), (2, 2)] := by
  decide

/-! ## Tokens after a statement sequence: the final error -/

/-- In a text whose lines fit into `lineBuf`, the token that follows the tokens `w` is
returned with the number of the line on which its first character lies. -/
theorem line_of_token_after (src : List Char) (w rest : List Token) (a : Token)
    (hsrc : scanAll src = w ++ a :: rest) (htext : IsText src)
    (hlines : fitsLines 0 src = true) :
    ∃ p, (tokenOffsets src)[w.length]? = some p ∧ a.line = lineAt src p := by
  have h := scanRest_lines src src.length (ScanState.init src) [] (src.length + 1)
    (inv_init src htext) (lineInv_init src hlines) rfl
    (by simp [ScanState.remaining, ScanState.init])
    (by simp [ScanState.pending, ScanState.init])
  have h' : List.Forall₂ (fun tk p => tk.line = lineAt src p ∧ tk.str ≠ [] ∧ tk.str <+: src.drop p)
      (scanAll src) (tokenOffsets src) := h
  have hlen := h'.length_eq
  have hi : w.length < (scanAll src).length := by rw [hsrc]; simp
  have hj : w.length < (tokenOffsets src).length := by omega
  refine ⟨(tokenOffsets src).get ⟨w.length, hj⟩, by simp [List.getElem?_eq_getElem hj], ?_⟩
  have := (h'.get hi hj).1
  have ha : (scanAll src).get ⟨w.length, hi⟩ = a := by
    rw [List.get_eq_getElem, List.getElem_of_eq hsrc hi]
    rw [List.getElem_append_right (le_refl _)]
    simp
  rw [ha] at this
  exact this

/-- C12, amended. When the tokens of a source text are a complete statement sequence
followed by a token of kind `END`, `ELSE` or `UNTIL` (and any tokens after it), `parse`
returns the tree of the statement sequence, sets the error flag and reports exactly one
syntax error, the final `Code ends before file`. The error carries the value of `lineno`
in force when `getToken` returned that token; in a text (ASCII, no NUL) in which every
line ends with a newline and has at most 253 characters before it, that is the number of
the line on which the first character of that token lies. -/
theorem trailing_tokens (src : List Char) (w rest : List Token) (a : Token) (t : TreeNode)
    (hsrc : scanAll src = w ++ a :: rest) (hw : Derives .stmt_sequence w t)
    (ha : a.kind = END ∨ a.kind = ELSE ∨ a.kind = UNTIL) :
    ∃ st', (∀ fuel, parseFuel src ≤ fuel → parseSource fuel src = some (t, st')) ∧
      st'.Error = true ∧
      st'.listing = [{ line := a.line, message := "Code ends before file\n" }] ∧
      (IsText src → fitsLines 0 src = true →
        ∃ p, (tokenOffsets src)[w.length]? = some p ∧ a.line = lineAt src p) := by
  have htoks : toks (nextToken (ParseState.init src)) = w ++ a :: rest := by
    rw [toks_init, hsrc]
  obtain ⟨st1, N, h1, h2, h3, h4⟩ := run_complete .stmt_sequence w t hw
    (nextToken (ParseState.init src)) (a :: rest) htoks
    (by simp only [Follow, hd]; exact Or.inr ha)
  obtain ⟨k1, k2, _⟩ := toks_cons_inv st1 a rest h1
  have hne : st1.token ≠ ENDFILE := by
    rw [k1]; rcases ha with h | h | h <;> rw [h] <;> decide
  refine ⟨syntaxError "Code ends before file\n" st1, ?_, rfl, ?_,
    fun htext hlines => line_of_token_after src w rest a hsrc htext hlines⟩
  · apply parseSource_at_parseFuel src N
    have := h4 N (le_refl _)
    simp only [run] at this
    unfold parseSource parse
    rw [this]
    simp only [Option.some_bind]
    rw [if_pos hne]
  · have hl : st1.listing = [] := by rw [h3]; rfl
    have hline : st1.scan.lineno = a.line := by rw [← k2]; rfl
    simp only [syntaxError, hl, hline, List.nil_append]

theorem trailing_tokens_witness :
    ∃ st', (∀ fuel, parseFuel "x := 1\nend\n".toList ≤ fuel →
        parseSource fuel "x := 1\nend\n".toList =
          some (assignNode ⟨ID, ['x'], 1⟩ (constNode ⟨NUM, ['1'], 1⟩), st')) ∧
      st'.Error = true ∧
      st'.listing = [{ line := 2, message := "Code ends before file\n" }] ∧
      (∃ p, (tokenOffsets "x := 1\nend\n".toList)[3]? = some p ∧
        2 = lineAt "x := 1\nend\n".toList p) ∧
      (tokenOffsets "x := 1\nend\n".toList)[3]? = some 7 ∧
      lineAt "x := 1\nend\n".toList 7 = 2 := by
  obtain ⟨st', h1, h2, h3, h4⟩ := trailing_tokens "x := 1\nend\n".toList
    [⟨ID, ['x'], 1⟩, ⟨ASSIGN, [':', '='], 1⟩, ⟨NUM, ['1'], 1⟩] [] ⟨END, ['e', 'n', 'd'], 2⟩
    (assignNode ⟨ID, ['x'], 1⟩ (constNode ⟨NUM, ['1'], 1⟩))
    (by decide)
    (Derives.seq [⟨ID, ['x'], 1⟩, ⟨ASSIGN, [':', '='], 1⟩, ⟨NUM, ['1'], 1⟩] [] _ _
      (Derives.assign _ _ _ _ rfl rfl
        (Derives.expSimple _ _
          (Derives.simple [⟨NUM, ['1'], 1⟩] [] _ _
            (Derives.term [⟨NUM, ['1'], 1⟩] [] _ _ (Derives.num _ rfl) (Derives.termNil _))
            (Derives.simpleNil _))))
      (Derives.seqNil _))
    (Or.inl rfl)
  exact ⟨st', h1, h2, h3, h4 (by unfold IsText; decide) (by decide), by decide, by decide⟩

/-! ## The parser builds the syntax tree of the specification -/

theorem foldl_decimal (s : List Char) : ∀ a : Nat,
    s.foldl (fun acc c => 10 * acc + (c.toNat - 48)) a = a * 10 ^ s.length + decimal s := by
  induction s with
  | nil => intro a; simp [decimal]
  | cons c cs ih =>
    intro a
    have h48 : '0'.toNat = 48 := rfl
    simp only [List.foldl_cons, ih, decimal, List.length_cons, h48]
    ring

/-- On a numeral whose value fits the type `int`, `atoi` returns the value. -/
theorem atoi_eq_decimal (s : List Char) (hd : ∀ c ∈ s, c.isDigit = true)
    (hv : (decimal s : Int) ≤ INT_MAX) : atoi s = (decimal s : Int) := by
  have ht : s.takeWhile Char.isDigit = s := List.takeWhile_eq_self_iff.mpr hd
  have hf := foldl_decimal s 0
  simp only [Nat.zero_mul, Nat.zero_add] at hf
  unfold atoi strtol toInt
  rw [ht, hf]
  simp only [INT_MAX, LONG_MAX] at hv ⊢
  have h0 : (0 : Int) ≤ (decimal s : Int) := Int.ofNat_nonneg _
  rw [min_eq_left (by omega)]
  omega

/-- Whatever the lexeme, `atoi` returns a value of the type `int`. -/
theorem atoi_range (s : List Char) : -INT_MAX - 1 ≤ atoi s ∧ atoi s ≤ INT_MAX := by
  unfold atoi toInt INT_MAX
  omega

theorem setLastSibling_assoc (a b c : TreeNode) :
    (a.setLastSibling b).setLastSibling c = a.setLastSibling (b.setLastSibling c) := by
  induction a with
  | null => rfl
  | node i c0 c1 c2 sib _ _ _ ih => simp only [TreeNode.setLastSibling, ih]

theorem seqRest_prefix (nt : NT) (w : List Token) (t : TreeNode) (h : Derives nt w t) :
    ∀ s, nt = .seqRest s → ∀ acc : TreeNode,
      Derives (.seqRest (acc.setLastSibling s)) w (acc.setLastSibling t) := by
  induction h with
  | seqNil acc0 =>
    intro s hs acc
    cases hs
    exact Derives.seqNil _
  | seqCons acc0 semi w w1 q t hsemi hq _ _ ih =>
    intro s hs acc
    cases hs
    have := ih _ rfl acc
    rw [← setLastSibling_assoc] at this
    exact Derives.seqCons _ semi w w1 q _ hsemi hq this
  | _ => intro s hs; cases hs

/-- A statement in front of a statement sequence: the sequence is chained to the
statement by `sibling`. -/
theorem derives_seq_cons (w0 w1 : List Token) (semi : Token) (i : NodeInfo)
    (c0 c1 c2 rest : TreeNode) (h0 : Derives .statement w0 (.node i c0 c1 c2 .null))
    (hsemi : semi.kind = SEMI) (h1 : Derives .stmt_sequence w1 rest) :
    Derives .stmt_sequence (w0 ++ semi :: w1) (.node i c0 c1 c2 rest) := by
  cases h1 with
  | seq wa wb q r hq hr =>
    have := seqRest_prefix _ _ _ hr q rfl (.node i c0 c1 c2 .null)
    exact Derives.seq w0 (semi :: wa ++ wb) _ _ h0
      (Derives.seqCons _ semi wa wb q _ hsemi hq this)

theorem termRest_snoc (nt : NT) (w : List Token) (t : TreeNode) (h : Derives nt w t) :
    ∀ acc, nt = .termRest acc → ∀ (o : Token) (w1 : List Token) (r : TreeNode),
      (o.kind = TIMES ∨ o.kind = OVER) → Derives .factor w1 r →
      Derives (.termRest acc) (w ++ o :: w1) (opNode o t r) := by
  induction h with
  | termNil acc0 =>
    intro acc hs o w1 r ho hr
    cases hs
    have := Derives.termCons acc0 o w1 [] r _ ho hr (Derives.termNil _)
    simpa using this
  | termCons acc0 o0 w0 w2 f t ho0 hf _ _ ih =>
    intro acc hs o w1 r ho hr
    cases hs
    have := Derives.termCons acc0 o0 w0 (w2 ++ o :: w1) f _ ho0 hf (ih _ rfl o w1 r ho hr)
    simpa using this
  | _ => intro acc hs; cases hs

theorem derives_term_snoc (w0 w1 : List Token) (o : Token) (l r : TreeNode)
    (h0 : Derives .term w0 l) (ho : o.kind = TIMES ∨ o.kind = OVER)
    (h1 : Derives .factor w1 r) : Derives .term (w0 ++ o :: w1) (opNode o l r) := by
  cases h0 with
  | term wa wb f t hf ht =>
    have := Derives.term wa (wb ++ o :: w1) f _ hf (termRest_snoc _ _ _ ht f rfl o w1 r ho h1)
    simpa using this

theorem simpleRest_snoc (nt : NT) (w : List Token) (t : TreeNode) (h : Derives nt w t) :
    ∀ acc, nt = .simpleRest acc → ∀ (o : Token) (w1 : List Token) (r : TreeNode),
      (o.kind = PLUS ∨ o.kind = MINUS) → Derives .term w1 r →
      Derives (.simpleRest acc) (w ++ o :: w1) (opNode o t r) := by
  induction h with
  | simpleNil acc0 =>
    intro acc hs o w1 r ho hr
    cases hs
    have := Derives.simpleCons acc0 o w1 [] r _ ho hr (Derives.simpleNil _)
    simpa using this
  | simpleCons acc0 o0 w0 w2 f t ho0 hf _ _ ih =>
    intro acc hs o w1 r ho hr
    cases hs
    have := Derives.simpleCons acc0 o0 w0 (w2 ++ o :: w1) f _ ho0 hf (ih _ rfl o w1 r ho hr)
    simpa using this
  | _ => intro acc hs; cases hs

theorem derives_simple_snoc (w0 w1 : List Token) (o : Token) (l r : TreeNode)
    (h0 : Derives .simple_exp w0 l) (ho : o.kind = PLUS ∨ o.kind = MINUS)
    (h1 : Derives .term w1 r) : Derives .simple_exp (w0 ++ o :: w1) (opNode o l r) := by
  cases h0 with
  | simple wa wb f t hf ht =>
    have := Derives.simple wa (wb ++ o :: w1) f _ hf
      (simpleRest_snoc _ _ _ ht f rfl o w1 r ho h1)
    simpa using this

/-- The tree the specification describes is the tree of the derivation, when `atoi`
returns the value of every numeral. -/
theorem ast_derives (nt : NT) (w : List Token) (t : TreeNode) (h : Ast nt w t) :
    (∀ tk ∈ w, tk.kind = NUM → atoi tk.str = (decimal tk.str : Int)) → Derives nt w t := by
  induction h with
  | num tk hk =>
    intro hn
    have := Derives.num tk hk
    simp only [constNode, hn tk (List.mem_singleton_self _) hk] at this
    exact this
  | ident tk hk => intro _; exact Derives.ident tk hk
  | paren l r w e hl _ hr ih =>
    intro hn
    exact Derives.paren l r w e hl (ih fun tk h => hn tk (by simp [h])) hr
  | termFactor w t _ ih =>
    intro hn
    have := Derives.term w [] t t (ih hn) (Derives.termNil _)
    simpa using this
  | termOp w0 w1 o l r _ ho _ ih0 ih1 =>
    intro hn
    exact derives_term_snoc w0 w1 o l r (ih0 fun tk h => hn tk (by simp [h])) ho
      (ih1 fun tk h => hn tk (by simp [h]))
  | simpleTerm w t _ ih =>
    intro hn
    have := Derives.simple w [] t t (ih hn) (Derives.simpleNil _)
    simpa using this
  | simpleOp w0 w1 o l r _ ho _ ih0 ih1 =>
    intro hn
    exact derives_simple_snoc w0 w1 o l r (ih0 fun tk h => hn tk (by simp [h])) ho
      (ih1 fun tk h => hn tk (by simp [h]))
  | expSimple w t _ ih => intro hn; exact Derives.expSimple w t (ih hn)
  | expRel w0 w1 o l r _ ho _ ih0 ih1 =>
    intro hn
    exact Derives.expRel w0 w1 o l r (ih0 fun tk h => hn tk (by simp [h])) ho
      (ih1 fun tk h => hn tk (by simp [h]))
  | ifThen i th en we ws e s hi _ hth _ hen ihe ihs =>
    intro hn
    exact Derives.ifThen i th en we ws e s hi (ihe fun tk h => hn tk (by simp [h])) hth
      (ihs fun tk h => hn tk (by simp [h])) hen
  | ifElse i th el en we ws wf e s f hi _ hth _ hel _ hen ihe ihs ihf =>
    intro hn
    exact Derives.ifElse i th el en we ws wf e s f hi (ihe fun tk h => hn tk (by simp [h])) hth
      (ihs fun tk h => hn tk (by simp [h])) hel (ihf fun tk h => hn tk (by simp [h])) hen
  | repeatUntil r u ws we s e hr _ hu _ ihs ihe =>
    intro hn
    exact Derives.repeatUntil r u ws we s e hr (ihs fun tk h => hn tk (by simp [h])) hu
      (ihe fun tk h => hn tk (by simp [h]))
  | assign i a w e hi ha _ ih =>
    intro hn
    exact Derives.assign i a w e hi ha (ih fun tk h => hn tk (by simp [h]))
  | read r i hr hi => intro _; exact Derives.read r i hr hi
  | write wr w e hw _ ih =>
    intro hn
    exact Derives.write wr w e hw (ih fun tk h => hn tk (by simp [h]))
  | seqOne w s _ ih =>
    intro hn
    have := Derives.seq w [] s s (ih hn) (Derives.seqNil _)
    simpa using this
  | seqMore w0 w1 semi i c0 c1 c2 rest _ hsemi _ ih0 ih1 =>
    intro hn
    exact derives_seq_cons w0 w1 semi i c0 c1 c2 rest (ih0 fun tk h => hn tk (by simp [h]))
      hsemi (ih1 fun tk h => hn tk (by simp [h]))

/-! ## The lexeme of a number -/

theorem startToken_ne_NUM (c : Option Char) : (startToken c).1 ≠ NUM := by
  cases c with
  | none => simp [startToken]
  | some ch =>
    simp only [startToken]
    split_ifs <;> simp

theorem reservedLookup_ne_NUM (s : List Char) : reservedLookup s ≠ NUM := by
  simp only [reservedLookup, reservedWords, reservedSearch]
  split_ifs <;> simp

theorem pushChar_digits (acc : List Char) (c : Char) (h : ∀ x ∈ acc, x.isDigit = true)
    (hc : c.isDigit = true) : ∀ x ∈ pushChar acc c, x.isDigit = true := by
  intro x hx
  rcases pushChar_cases acc c with ⟨_, e⟩ | ⟨_, e⟩
  · rw [e, List.mem_append, List.mem_singleton] at hx
    rcases hx with hx | rfl
    · exact h x hx
    · exact hc
  · rw [e] at hx; exact h x hx

theorem isdigit_toChar (c : Option Char) (h : isdigit c = true) : (toChar c).isDigit = true := by
  cases c with
  | none => simp [isdigit] at h
  | some ch => exact h

/-- One iteration of the loop of `getToken` keeps the lexeme empty in front of a token
and inside a comment, and a string of digits while a number is read. -/
theorem stepS_digits (st : StateType) (acc : List Char) (c : Option Char) (hst : st ≠ DONE)
    (h1 : st = START ∨ st = INCOMMENT → acc = [])
    (h2 : st = INNUM → ∀ x ∈ acc, x.isDigit = true) :
    ((stepS st acc c).state = START ∨ (stepS st acc c).state = INCOMMENT →
      (stepS st acc c).lexeme = []) ∧
    ((stepS st acc c).state = INNUM → ∀ x ∈ (stepS st acc c).lexeme, x.isDigit = true) ∧
    ((stepS st acc c).state = DONE → (stepS st acc c).token = NUM →
      ∀ x ∈ (stepS st acc c).lexeme, x.isDigit = true) := by
  have hn := startToken_ne_NUM c
  have hr := reservedLookup_ne_NUM acc
  cases st with
  | START =>
    have e : acc = [] := h1 (Or.inl rfl)
    subst e
    simp only [stepS]
    by_cases hd : isdigit c = true
    · have := pushChar_digits [] (toChar c) (by simp) (isdigit_toChar c hd)
      simp only [hd, if_true, not_true_eq_false, if_false]
      simpa using this
    · simp only [hd, Bool.false_eq_true, if_false]
      split_ifs <;> simp_all
  | INCOMMENT =>
    have e : acc = [] := h1 (Or.inr rfl)
    subst e
    simp only [stepS]
    split_ifs <;> simp
  | INASSIGN =>
    simp only [stepS]
    split_ifs <;> simp
  | INNUM =>
    have hacc := h2 rfl
    simp only [stepS]
    by_cases hd : isdigit c = true
    · have := pushChar_digits acc (toChar c) hacc (isdigit_toChar c hd)
      simp only [hd, if_true, not_true_eq_false, if_false]
      simpa using this
    · simp only [hd, Bool.false_eq_true, not_false_eq_true, if_true]
      simpa using hacc
  | INID =>
    simp only [stepS]
    split_ifs <;> simp [hr]
  | DONE => exact absurd rfl hst

theorem getTokenLoop_digits (fuel : Nat) : ∀ l : LoopState,
    (l.state = START ∨ l.state = INCOMMENT → l.scan.tokenString = []) →
    (l.state = INNUM → ∀ x ∈ l.scan.tokenString, x.isDigit = true) →
    (l.state = DONE → l.currentToken = NUM → ∀ x ∈ l.scan.tokenString, x.isDigit = true) →
    (getTokenLoop fuel l).state = DONE → (getTokenLoop fuel l).currentToken = NUM →
    ∀ x ∈ (getTokenLoop fuel l).scan.tokenString, x.isDigit = true := by
  induction fuel with
  | zero => intro l _ _ h3 hd hk; exact h3 hd hk
  | succ n ih =>
    intro l h1 h2 h3 hd hk
    by_cases hl : l.state = DONE
    · rw [getTokenLoop_DONE _ _ hl] at hd hk ⊢
      exact h3 hd hk
    · simp only [getTokenLoop, hl, if_false] at hd hk ⊢
      obtain ⟨b1, b2, b3⟩ := loopBody_stepS l hl
      rw [getNextChar_tokenString] at b1 b2 b3
      obtain ⟨s1, s2, s3⟩ := stepS_digits l.state l.scan.tokenString (getNextChar l.scan).1 hl h1 h2
      have hts : (loopBody l).scan.tokenString =
          (stepS l.state l.scan.tokenString (getNextChar l.scan).1).lexeme := by rw [b3]
      refine ih (loopBody l) ?_ ?_ ?_ hd hk
      · rw [b1, hts]; exact s1
      · rw [b1, hts]; exact s2
      · intro h4 h5
        rw [hts]
        rw [b1] at h4
        exact s3 h4 (by rw [← b2 h4]; exact h5)

/-- The lexeme of a `NUM` token is a string of digits, whatever the text. -/
theorem getToken_NUM_digits (s : ScanState) (h : (getToken s).1 = NUM) :
    ∀ x ∈ (getToken s).2.tokenString, x.isDigit = true := by
  have hd := (getTokenLoop_remaining (s.remaining + 1)
    { state := START, currentToken := ERROR, save := true, scan := { s with tokenString := [] } }
    (by simp) (le_refl _)).1
  exact getTokenLoop_digits _ _ (fun _ => rfl) (by simp) (by simp) hd h

theorem scanTokens_NUM_digits (fuel : Nat) : ∀ (s : ScanState), ∀ tk ∈ scanTokens fuel s,
    tk.kind = NUM → ∀ x ∈ tk.str, x.isDigit = true := by
  induction fuel with
  | zero => intro s tk h; simp [scanTokens] at h
  | succ n ih =>
    intro s tk h hk
    rw [scanTokens_succ] at h
    split_ifs at h with he
    · simp at h
    · rw [List.mem_cons] at h
      rcases h with rfl | h
      · exact getToken_NUM_digits s hk
      · exact ih _ tk h hk

theorem scanAll_NUM_digits (src : List Char) : ∀ tk ∈ scanAll src,
    tk.kind = NUM → ∀ x ∈ tk.str, x.isDigit = true :=
  scanTokens_NUM_digits _ _

/-! ## Every derivation has the tree of the specification -/

theorem ast_statement_node (w : List Token) (q : TreeNode) (h : Ast .statement w q) :
    ∃ i c0 c1 c2, q = .node i c0 c1 c2 .null := by
  cases h <;> exact ⟨_, _, _, _, rfl⟩

theorem ast_seq_snoc (nt : NT) (w0 : List Token) (acc : TreeNode) (h : Ast nt w0 acc) :
    nt = .stmt_sequence → ∀ (semi : Token) (w : List Token) (q : TreeNode),
      semi.kind = SEMI → Ast .statement w q →
      Ast .stmt_sequence (w0 ++ semi :: w) (acc.setLastSibling q) := by
  induction h with
  | seqOne w s hs _ =>
    intro _ semi w1 q hsemi hq
    obtain ⟨i, c0, c1, c2, rfl⟩ := ast_statement_node w s hs
    exact Ast.seqMore w w1 semi i c0 c1 c2 q hs hsemi (Ast.seqOne w1 q hq)
  | seqMore wa wb semi0 i c0 c1 c2 rest h0 hs0 _ _ ih1 =>
    intro _ semi w1 q hsemi hq
    have := Ast.seqMore wa (wb ++ semi :: w1) semi0 i c0 c1 c2 _ h0 hs0
      (ih1 rfl semi w1 q hsemi hq)
    simpa [TreeNode.setLastSibling] using this
  | _ => intro hnt; cases hnt

/-- The tree of a derivation is the tree the specification describes, when `atoi`
returns the value of every numeral; for a repetition the tree built from what precedes
it is carried along. -/
theorem derives_ast (nt : NT) (w : List Token) (t : TreeNode) (h : Derives nt w t) :
    (∀ tk ∈ w, tk.kind = NUM → atoi tk.str = (decimal tk.str : Int)) →
    match nt with
    | .termRest acc => ∀ w0, Ast .term w0 acc → Ast .term (w0 ++ w) t
    | .simpleRest acc => ∀ w0, Ast .simple_exp w0 acc → Ast .simple_exp (w0 ++ w) t
    | .seqRest acc => ∀ w0, Ast .stmt_sequence w0 acc → Ast .stmt_sequence (w0 ++ w) t
    | nt => Ast nt w t := by
  induction h with
  | num tk hk =>
    intro hn
    have := Ast.num tk hk
    rw [← hn tk (List.mem_singleton_self _) hk] at this
    exact this
  | ident tk hk => intro _; exact Ast.ident tk hk
  | paren l r w e hl _ hr ih =>
    intro hn
    exact Ast.paren l r w e hl (ih fun tk h => hn tk (by simp [h])) hr
  | term w0 w1 f t _ _ ihf ihr =>
    intro hn
    exact ihr (fun tk h => hn tk (by simp [h])) w0
      (Ast.termFactor w0 f (ihf fun tk h => hn tk (by simp [h])))
  | termNil acc => intro _ w0 h0; simpa using h0
  | termCons acc o w w1 f t ho _ _ ihf ihr =>
    intro hn w0 h0
    have := ihr (fun tk h => hn tk (by simp [h])) (w0 ++ o :: w)
      (Ast.termOp w0 w o acc f h0 ho (ihf fun tk h => hn tk (by simp [h])))
    simpa using this
  | simple w0 w1 f t _ _ ihf ihr =>
    intro hn
    exact ihr (fun tk h => hn tk (by simp [h])) w0
      (Ast.simpleTerm w0 f (ihf fun tk h => hn tk (by simp [h])))
  | simpleNil acc => intro _ w0 h0; simpa using h0
  | simpleCons acc o w w1 f t ho _ _ ihf ihr =>
    intro hn w0 h0
    have := ihr (fun tk h => hn tk (by simp [h])) (w0 ++ o :: w)
      (Ast.simpleOp w0 w o acc f h0 ho (ihf fun tk h => hn tk (by simp [h])))
    simpa using this
  | expSimple w t _ ih => intro hn; exact Ast.expSimple w t (ih hn)
  | expRel w0 w1 o l r _ ho _ ih0 ih1 =>
    intro hn
    exact Ast.expRel w0 w1 o l r (ih0 fun tk h => hn tk (by simp [h])) ho
      (ih1 fun tk h => hn tk (by simp [h]))
  | ifThen i th en we ws e s hi _ hth _ hen ihe ihs =>
    intro hn
    exact Ast.ifThen i th en we ws e s hi (ihe fun tk h => hn tk (by simp [h])) hth
      (ihs fun tk h => hn tk (by simp [h])) hen
  | ifElse i th el en we ws wf e s f hi _ hth _ hel _ hen ihe ihs ihf =>
    intro hn
    exact Ast.ifElse i th el en we ws wf e s f hi (ihe fun tk h => hn tk (by simp [h])) hth
      (ihs fun tk h => hn tk (by simp [h])) hel (ihf fun tk h => hn tk (by simp [h])) hen
  | repeatUntil r u ws we s e hr _ hu _ ihs ihe =>
    intro hn
    exact Ast.repeatUntil r u ws we s e hr (ihs fun tk h => hn tk (by simp [h])) hu
      (ihe fun tk h => hn tk (by simp [h]))
  | assign i a w e hi ha _ ih =>
    intro hn
    exact Ast.assign i a w e hi ha (ih fun tk h => hn tk (by simp [h]))
  | read r i hr hi => intro _; exact Ast.read r i hr hi
  | write wr w e hw _ ih =>
    intro hn
    exact Ast.write wr w e hw (ih fun tk h => hn tk (by simp [h]))
  | seq w0 w1 s t _ _ ihs ihr =>
    intro hn
    exact ihr (fun tk h => hn tk (by simp [h])) w0
      (Ast.seqOne w0 s (ihs fun tk h => hn tk (by simp [h])))
  | seqNil acc => intro _ w0 h0; simpa using h0
  | seqCons acc semi w w1 q t hsemi _ _ ihq ihr =>
    intro hn w0 h0
    have := ihr (fun tk h => hn tk (by simp [h])) (w0 ++ semi :: w)
      (ast_seq_snoc _ w0 acc h0 rfl semi w q hsemi (ihq fun tk h => hn tk (by simp [h])))
    simpa using this

/-- For a token sequence whose numerals `atoi` returns the value of, the trees of the
derivations of a statement sequence are the trees the specification describes. -/
theorem derives_iff_ast (w : List Token) (t : TreeNode)
    (hn : ∀ tk ∈ w, tk.kind = NUM → atoi tk.str = (decimal tk.str : Int)) :
    Derives .stmt_sequence w t ↔ Ast .stmt_sequence w t :=
  ⟨fun h => derives_ast _ _ _ h hn, fun h => ast_derives _ _ _ h hn⟩

/-- C2 fails as stated: the tokens of `x := 2147483648` are a statement sequence of the
grammar, whose tree stores the value 2147483648 of the numeral in its `ConstK` node.
The field `attr.val` is a C `int`, which holds at most `INT_MAX = 2147483647`: `parse`
records no error and returns a tree whose `ConstK` node stores -2147483648, and for no
bound on the recursion does it return the tree of the derivation. -/
theorem parse_complete_counterexample :
    Ast .stmt_sequence (scanAll "x := 2147483648".toList)
      (.node { kind := .StmtK AssignK, attr := .name ['x'], lineno := 1, type := Void }
        (.node { kind := .ExpK ConstK, attr := .val 2147483648, lineno := 2, type := Void }
          .null .null .null .null)
        .null .null .null) ∧
    ((parseSource (parseFuel "x := 2147483648".toList) "x := 2147483648".toList).map
        fun r => (r.1, r.2.Error, r.2.listing)) =
      some (.node { kind := .StmtK AssignK, attr := .name ['x'], lineno := 1, type := Void }
        (.node { kind := .ExpK ConstK, attr := .val (-2147483648), lineno := 2, type := Void }
          .null .null .null .null)
        .null .null .null, false, []) ∧
    ∀ (fuel : Nat) (st' : ParseState), parseSource fuel "x := 2147483648".toList ≠
      some (.node { kind := .StmtK AssignK, attr := .name ['x'], lineno := 1, type := Void }
        (.node { kind := .ExpK ConstK, attr := .val 2147483648, lineno := 2, type := Void }
          .null .null .null .null)
        .null .null .null, st') := by
  have hev : ((parseSource (parseFuel "x := 2147483648".toList) "x := 2147483648".toList).map
        fun r => (r.1, r.2.Error, r.2.listing)) =
      some (.node { kind := .StmtK AssignK, attr := .name ['x'], lineno := 1, type := Void }
        (.node { kind := .ExpK ConstK, attr := .val (-2147483648), lineno := 2, type := Void }
          .null .null .null .null)
        .null .null .null, false, []) := by decide
  refine ⟨?_, hev, ?_⟩
  · rw [show scanAll "x := 2147483648".toList =
      [⟨ID, ['x'], 1⟩, ⟨ASSIGN, [':', '='], 1⟩, ⟨NUM, "2147483648".toList, 2⟩] from by decide]
    exact Ast.seqOne _ _ (Ast.assign ⟨ID, ['x'], 1⟩ ⟨ASSIGN, [':', '='], 1⟩ _ _ rfl rfl
      (Ast.expSimple _ _ (Ast.simpleTerm _ _ (Ast.termFactor _ _
        (Ast.num ⟨NUM, "2147483648".toList, 2⟩ rfl)))))
  · intro fuel st' h
    have h' := parseSource_at_parseFuel _ fuel _ h _ (le_refl _)
    rw [h'] at hev
    revert hev
    simp

/-- C2, amended. Parser completeness: for every source text whose token sequence is a
statement sequence of the grammar and in which the value of no numeral exceeds
`INT_MAX`, `parse` returns, records no syntax error, consumes every token and returns the
syntax tree that the specification describes for the phrase: statements chained by
`sibling` in source order, an If with `child[0]` the test, `child[1]` the then-sequence
and `child[2]` the else-sequence or null, a Repeat with `child[0]` the body and
`child[1]` the test, an Assign or Write with `child[0]` the operand, and the identifier
name or the value of the numeral stored in the node. The program
`repeat x := x - 1 until x = 0` parses with no error to a single Repeat node. -/
theorem parse_complete (src : List Char) (t : TreeNode)
    (h : Ast .stmt_sequence (scanAll src) t)
    (hnum : ∀ tk ∈ scanAll src, tk.kind = NUM → (decimal tk.str : Int) ≤ INT_MAX) :
    (∃ st', st'.Error = false ∧ st'.listing = [] ∧ st'.token = ENDFILE ∧ toks st' = [] ∧
      ∀ fuel, parseFuel src ≤ fuel → parseSource fuel src = some (t, st')) ∧
    ((parseSource (parseFuel "repeat x := x - 1 until x = 0".toList)
        "repeat x := x - 1 until x = 0".toList).map
        fun r => (r.1, r.2.Error, r.2.listing)) =
      some (.node { kind := .StmtK RepeatK, attr := .unset, lineno := 1, type := Void }
        (.node { kind := .StmtK AssignK, attr := .name ['x'], lineno := 1, type := Void }
          (.node { kind := .ExpK OpK, attr := .op MINUS, lineno := 1, type := Void }
            (.node { kind := .ExpK IdK, attr := .name ['x'], lineno := 1, type := Void }
              .null .null .null .null)
            (.node { kind := .ExpK ConstK, attr := .val 1, lineno := 1, type := Void }
              .null .null .null .null)
            .null .null)
          .null .null .null)
        (.node { kind := .ExpK OpK, attr := .op TokenType.EQ, lineno := 1, type := Void }
          (.node { kind := .ExpK IdK, attr := .name ['x'], lineno := 1, type := Void }
            .null .null .null .null)
          (.node { kind := .ExpK ConstK, attr := .val 0, lineno := 2, type := Void }
            .null .null .null .null)
          .null .null)
        .null .null, false, []) := by
  refine ⟨?_, by decide⟩
  have hd : Derives .stmt_sequence (scanAll src) t :=
    (derives_iff_ast _ t fun tk htk hk =>
      atoi_eq_decimal tk.str (scanAll_NUM_digits src tk htk hk) (hnum tk htk hk)).mpr h
  obtain ⟨st', N, h1, h2, h3, h4, h5⟩ := parse_of_derives src t hd
  exact ⟨st', h1, h2, h3, h4, parseSource_at_parseFuel src N _ (h5 N (le_refl _))⟩

theorem parse_complete_witness :
    (∃ st', st'.Error = false ∧ st'.listing = [] ∧ st'.token = ENDFILE ∧ toks st' = [] ∧
      ∀ fuel, parseFuel "x := 12;\nwrite x\n".toList ≤ fuel →
        parseSource fuel "x := 12;\nwrite x\n".toList =
          some (.node { kind := .StmtK AssignK, attr := .name ['x'], lineno := 1, type := Void }
            (.node { kind := .ExpK ConstK, attr := .val 12, lineno := 1, type := Void }
              .null .null .null .null)
            .null .null
            (.node { kind := .StmtK WriteK, attr := .unset, lineno := 2, type := Void }
              (.node { kind := .ExpK IdK, attr := .name ['x'], lineno := 2, type := Void }
                .null .null .null .null)
              .null .null .null), st')) ∧
    ((parseSource (parseFuel "x := 12;\nwrite x\n".toList) "x := 12;\nwrite x\n".toList).map
        fun r => (r.1, r.2.Error)) =
      some (.node { kind := .StmtK AssignK, attr := .name ['x'], lineno := 1, type := Void }
        (.node { kind := .ExpK ConstK, attr := .val 12, lineno := 1, type := Void }
          .null .null .null .null)
        .null .null
        (.node { kind := .StmtK WriteK, attr := .unset, lineno := 2, type := Void }
          (.node { kind := .ExpK IdK, attr := .name ['x'], lineno := 2, type := Void }
            .null .null .null .null)
          .null .null .null), false) :=
  ⟨(parse_complete "x := 12;\nwrite x\n".toList _
    (by
      rw [show scanAll "x := 12;\nwrite x\n".toList =
        [⟨ID, ['x'], 1⟩, ⟨ASSIGN, [':', '='], 1⟩, ⟨NUM, ['1', '2'], 1⟩, ⟨SEMI, [';'], 1⟩,
         ⟨WRITE, "write".toList, 2⟩, ⟨ID, ['x'], 2⟩] from by decide]
      exact Ast.seqMore [⟨ID, ['x'], 1⟩, ⟨ASSIGN, [':', '='], 1⟩, ⟨NUM, ['1', '2'], 1⟩]
        [⟨WRITE, "write".toList, 2⟩, ⟨ID, ['x'], 2⟩] ⟨SEMI, [';'], 1⟩ _ _ _ _ _
        (Ast.assign ⟨ID, ['x'], 1⟩ ⟨ASSIGN, [':', '='], 1⟩ _ _ rfl rfl
          (Ast.expSimple _ _ (Ast.simpleTerm _ _ (Ast.termFactor _ _
            (Ast.num ⟨NUM, ['1', '2'], 1⟩ rfl)))))
        rfl
        (Ast.seqOne _ _ (Ast.write ⟨WRITE, "write".toList, 2⟩ _ _ rfl
          (Ast.expSimple _ _ (Ast.simpleTerm _ _ (Ast.termFactor _ _
            (Ast.ident ⟨ID, ['x'], 2⟩ rfl)))))))
    (by decide)).1, by decide⟩

end Tiny
